import Mathlib

/-!
# Segregated-list allocator (`src/malloc/mm-sg.c`) — shallow embedding

The allocator manages one growable region of 8-byte words.  Addresses, sizes
and words are natural numbers; `size_t`/`word_t` arithmetic wraps modulo
`2 ^ 64`.  `NULL` is address `0`.  Memory is a total map from byte addresses
to the word stored there; every access the allocator performs is an aligned
8-byte access (block addresses are congruent to 8 modulo 16).

Loops that follow `next` links need not terminate on a corrupted list, so
they take a fuel argument and report `Fault.out_of_fuel` when it runs out.
With `DEBUG` defined in the source, `dbg_requires`/`dbg_ensures` are real
`assert`s; a failing one is `Fault.assert_fail`.
-/

namespace Mm

set_option autoImplicit false
set_option linter.unusedVariables false

/-! ## Constants and pure helpers -/

/-- Modulus of `size_t` and `word_t` arithmetic (`2 ^ 64`). -/
def WORD_MOD : Nat := 18446744073709551616

/-- Word and header size in bytes: `sizeof(word_t)`. -/
def wsize : Nat := 8

/-- Double word size in bytes. -/
def dsize : Nat := 2 * wsize

/-- Minimum block size. -/
def MIN_BLOCK_SIZE : Nat := 2 * dsize

/-- Amount by which the region grows by default: `1 << 12`. -/
def chunksize : Nat := 4096

/-- Mask of the allocated bit. -/
def alloc_mask : Nat := 1

/-- Mask of the size bits: `~(word_t)0xF`. -/
def size_mask : Nat := 18446744073709551600

/-- Number of segregated free lists. -/
def seg_size : Nat := 15

/-- The failure value `(void *)-1` of `mem_sbrk`. -/
def SBRK_FAILED : Nat := WORD_MOD - 1

/-- Wrapping addition on 64-bit values. -/
def wadd (a b : Nat) : Nat := (a + b) % WORD_MOD

/-- Wrapping subtraction on 64-bit values. -/
def wsub (a b : Nat) : Nat := (a + (WORD_MOD - b % WORD_MOD)) % WORD_MOD

/-- Wrapping multiplication on 64-bit values. -/
def wmul (a b : Nat) : Nat := (a * b) % WORD_MOD

/-- The source's `max`: returns x if x > y, and y otherwise. -/
def max (x y : Nat) : Nat := if x > y then x else y

/-- The source's `round_up`: `n * ((size + (n-1)) / n)` in `size_t` arithmetic. -/
def round_up (size n : Nat) : Nat := wmul n (wadd size (wsub n 1) / n)

/-- The source's `pack`: `alloc ? (size | alloc_mask) : size`. -/
def pack (size : Nat) (alloc : Bool) : Nat := if alloc then size ||| alloc_mask else size

/-- The source's `extract_size`: `word & size_mask`. -/
def extract_size (word : Nat) : Nat := word &&& size_mask

/-- The source's `extract_alloc`: `(bool)(word & alloc_mask)`. -/
def extract_alloc (word : Nat) : Bool := (word &&& alloc_mask) != 0

/-- Loop of `get_seg_size`; the first argument bounds the iterations
(the loop runs at most `seg_size - 1` times because `index` grows by one). -/
def get_seg_size_loop : Nat → Nat → Nat → Nat
  | 0, _, index => index
  | k + 1, size, index =>
    if index < seg_size - 1 ∧ size > 1 then get_seg_size_loop k (size >>> 1) (index + 1)
    else index

/-- The source's `get_seg_size`: index of the free list for a block size. -/
def get_seg_size (size : Nat) : Nat := get_seg_size_loop (seg_size - 1) size 0

/-! ## Allocator state -/

/-- Reasons for which a call does not return. -/
inductive Fault where
  | null_deref
  | assert_fail
  | out_of_fuel
  | div_by_zero
  deriving DecidableEq, Repr

/-- Contents of the address space: the word stored at each byte address. -/
abbrev Memory := Nat → Nat

/-- Aligned store of one word. -/
def store (m : Memory) (a v : Nat) : Memory := fun x => if x = a then v else m x

/-- The globals of `mm-sg.c` together with the region of `memlib`. -/
structure State where
  /-- contents of memory -/
  mem : Memory
  /-- current end of the region (first byte after it) -/
  mem_brk : Nat
  /-- largest end the region may reach -/
  mem_max_addr : Nat
  /-- global `heap_start` -/
  heap_start : Nat
  /-- global `epilogue` -/
  epilogue : Nat
  /-- global `seg_list`, by index -/
  seg_list : Nat → Nat

/-- Store a word in a state's memory. -/
def State.write (s : State) (a v : Nat) : State := { s with mem := store s.mem a v }

/-- Assign `seg_list[index]`. -/
def State.set_seg (s : State) (index v : Nat) : State :=
  { s with seg_list := fun i => if i = index then v else s.seg_list i }

/-- Modelled from the spec: the region primitive `mem_sbrk` of `memlib`
("extend the managed region by N bytes, returning the old end address, or a
failure sentinel if the address space cannot grow"). -/
def mem_sbrk (s : State) (incr : Nat) : State × Nat :=
  if s.mem_brk + incr ≤ s.mem_max_addr then ({ s with mem_brk := s.mem_brk + incr }, s.mem_brk)
  else (s, SBRK_FAILED)

/-- State of the process before `mm_init`: an empty region starting at `base`
that may grow by `room` bytes, zeroed statics. -/
def fresh (base room : Nat) : State :=
  { mem := fun _ => 0, mem_brk := base, mem_max_addr := base + room,
    heap_start := 0, epilogue := 0, seg_list := fun _ => 0 }

/-! ## Block accessors -/

/-- The source's `get_size`. -/
def get_size (s : State) (block : Nat) : Nat := extract_size (s.mem block)

/-- The source's `get_payload_size`. -/
def get_payload_size (s : State) (block : Nat) : Nat := wsub (get_size s block) dsize

/-- The source's `get_alloc`. -/
def get_alloc (s : State) (block : Nat) : Bool := extract_alloc (s.mem block)

/-- The source's `get_prev_freed`: field `prev`, one word after the header. -/
def get_prev_freed (s : State) (block : Nat) : Nat := s.mem (wadd block 8)

/-- The source's `get_next_freed`: field `next`, two words after the header. -/
def get_next_freed (s : State) (block : Nat) : Nat := s.mem (wadd block 16)

/-- Assignment `block->prev = v`. -/
def set_prev (s : State) (block v : Nat) : State := s.write (wadd block 8) v

/-- Assignment `block->next = v`. -/
def set_next (s : State) (block v : Nat) : State := s.write (wadd block 16) v

/-- The source's `write_header`. -/
def write_header (s : State) (block size : Nat) (alloc : Bool) : State :=
  s.write block (pack size alloc)

/-- The source's `write_footer`: the footer position is computed from the
size held in the header, `block->payload + get_size(block) - dsize`. -/
def write_footer (s : State) (block size : Nat) (alloc : Bool) : State :=
  s.write (wsub (wadd (wadd block 8) (get_size s block)) dsize) (pack size alloc)

/-- The source's `payload_to_header`. -/
def payload_to_header (bp : Nat) : Nat := wsub bp 8

/-- The source's `header_to_payload`. -/
def header_to_payload (block : Nat) : Nat := wadd block 8

/-- The source's `find_next`, with its two debug assertions. -/
def find_next (s : State) (block : Nat) : Except Fault Nat :=
  if block = 0 then .error .assert_fail
  else
    let block_next := wadd block (get_size s block)
    if block_next = 0 then .error .assert_fail else .ok block_next

/-- The source's `find_prev_footer`. -/
def find_prev_footer (block : Nat) : Nat := wsub block 8

/-- The source's `find_prev`. -/
def find_prev (s : State) (block : Nat) : Nat :=
  wsub block (extract_size (s.mem (find_prev_footer block)))

/-! ## Free-list index -/

/-- The source's `add_free`: push `freed` on the list of its size class. -/
def add_free (s : State) (freed size : Nat) : State :=
  let index := get_seg_size size
  let next := s.seg_list index
  let s1 :=
    if next = 0 then set_prev (set_next s freed next) freed 0
    else set_prev (set_prev (set_next s freed next) freed 0) next freed
  s1.set_seg index freed

/-- The source's `delete_free`, branch by branch. -/
def delete_free (s : State) (removed : Nat) : State :=
  let size := get_size s removed
  let index := get_seg_size size
  let prev := get_prev_freed s removed
  let next := get_next_freed s removed
  if prev = 0 ∨ next = 0 then s.set_seg index 0
  else if prev = 0 ∧ next ≠ 0 then (set_prev s next 0).set_seg index next
  else if prev ≠ 0 ∧ next = 0 then set_next s prev 0
  else set_next (set_prev s next prev) prev next

/-! ## Coalescing, placement and fit search -/

/-- The source's `coalesce`: merge `block` with its free physical neighbours and
insert the result in the free-list index; returns the merged block. -/
def coalesce (s : State) (block : Nat) : Except Fault (State × Nat) := do
  let block_next ← find_next s block
  let block_prev := find_prev s block
  let prev_alloc := get_alloc s block_prev
  let next_alloc := get_alloc s block_next
  let size := get_size s block
  if prev_alloc ∧ ¬ next_alloc then
    let size := wadd size (get_size s block_next)
    let s := delete_free s block_next
    let s := write_header s block size false
    let s := write_footer s block size false
    pure (add_free s block size, block)
  else if ¬ prev_alloc ∧ next_alloc then
    let size := wadd size (get_size s block_prev)
    let s := delete_free s block_prev
    let s := write_header s block_prev size false
    let s := write_footer s block_prev size false
    pure (add_free s block_prev size, block_prev)
  else if ¬ prev_alloc ∧ ¬ next_alloc then
    let size := wadd size (wadd (get_size s block_next) (get_size s block_prev))
    let s := delete_free s block_prev
    let s := delete_free s block_next
    let s := write_header s block_prev size false
    let s := write_footer s block_prev size false
    pure (add_free s block_prev size, block_prev)
  else
    pure (add_free s block size, block)

/-- The source's `place`: allocate `asize` bytes at the start of `block`,
splitting off the rest when it is at least `MIN_BLOCK_SIZE`. -/
def place (s : State) (block asize : Nat) : Except Fault State := do
  let csize := get_size s block
  let s := delete_free s block
  if wsub csize asize ≥ MIN_BLOCK_SIZE then
    let s := write_header s block asize true
    let s := write_footer s block asize true
    let block_next ← find_next s block
    let s := write_header s block_next (wsub csize asize) false
    let s := write_footer s block_next (wsub csize asize) false
    pure (add_free s block_next (wsub csize asize))
  else
    let s := write_header s block csize true
    let s := write_footer s block csize true
    pure s

/-- Inner loop of `find_fit`: first block from `block` on, along `next` links,
whose size is at least `asize`; `0` when the walk reaches `NULL`. -/
def find_fit_scan (s : State) (asize : Nat) : Nat → Nat → Except Fault Nat
  | fuel, block =>
    if block = 0 then .ok 0
    else
      match fuel with
      | 0 => .error .out_of_fuel
      | fuel + 1 =>
        if asize ≤ get_size s block then .ok block
        else find_fit_scan s asize fuel (get_next_freed s block)

/-- Outer loop of `find_fit` over the classes `index, index + 1, ...`; the
first argument bounds the iterations (at most `seg_size`). -/
def find_fit_loop (s : State) (asize fuel : Nat) : Nat → Nat → Except Fault Nat
  | 0, _ => .ok 0
  | k + 1, index =>
    if index < seg_size then
      if index = seg_size - 1 ∨ (asize ≤ 1 ∧ s.seg_list index ≠ 0) then
        match find_fit_scan s asize fuel (s.seg_list index) with
        | .error e => .error e
        | .ok block => if block ≠ 0 then .ok block else find_fit_loop s asize fuel k (index + 1)
      else find_fit_loop s asize fuel k (index + 1)
    else .ok 0

/-- The source's `find_fit`; the result is `0` for `NULL`. -/
def find_fit (s : State) (asize fuel : Nat) : Except Fault Nat :=
  find_fit_loop s asize fuel seg_size (get_seg_size asize)

/-! ## Region growth and initialisation -/

/-- Inner loop of the list search in `extend_heap`: walk one list from
`target`; when `block` is met, `delete_free(block)` and leave the loop. -/
def extend_scan (s : State) (block : Nat) : Nat → Nat → Except Fault State
  | fuel, target =>
    if target = 0 then .ok s
    else
      match fuel with
      | 0 => .error .out_of_fuel
      | fuel + 1 =>
        if target = block then .ok (delete_free s block)
        else extend_scan s block fuel (get_next_freed s target)

/-- Outer loop of the list search in `extend_heap`, over all classes from
`index`; the first argument bounds the iterations. -/
def extend_lists (block fuel : Nat) : Nat → Nat → State → Except Fault State
  | 0, _, s => .ok s
  | k + 1, index, s =>
    if index < seg_size then
      match extend_scan s block fuel (s.seg_list index) with
      | .error e => .error e
      | .ok s1 => extend_lists block fuel k (index + 1) s1
    else .ok s

/-- The source's `extend_heap`; the returned block is `0` for `NULL`. -/
def extend_heap (s : State) (size fuel : Nat) : Except Fault (State × Nat) := do
  let size := round_up size dsize
  let (s, bp) := mem_sbrk s size
  if bp = SBRK_FAILED then pure (s, 0)
  else
    let block := payload_to_header bp
    let s := write_header s block size false
    let s := write_footer s block size false
    let block_next ← find_next s block
    let s := write_header s block_next dsize true
    let s := write_footer s block_next dsize true
    let s ← extend_lists block fuel seg_size 0 s
    coalesce s block

/-- The source's `mm_init`. -/
def mm_init (s : State) (fuel : Nat) : Except Fault (State × Bool) := do
  let (s, start) := mem_sbrk s (2 * dsize)
  let s := { s with seg_list := fun _ => 0 }
  if start = SBRK_FAILED then pure (s, false)
  else
    let s := s.write start (pack 0 false)
    let s := s.write (wadd start 8) (pack dsize true)
    let s := s.write (wadd start 16) (pack dsize true)
    let s := s.write (wadd start 24) (pack 0 true)
    let s := { s with heap_start := wadd start 24 }
    let (s, block) ← extend_heap s chunksize fuel
    if block = 0 then pure (s, false) else pure (s, true)

/-! ## Heap checker -/

/-- The source's `check_prologue_and_epilogue`.  The word `epilogue->header` is
loaded before any test; a `NULL` `epilogue` makes that load fault. -/
def check_prologue_and_epilogue (s : State) : Except Fault Bool :=
  let prologue := find_prev s s.heap_start
  let p_header := s.mem prologue
  let p_footer := s.mem (find_prev_footer s.heap_start)
  if s.epilogue = 0 then .error .null_deref
  else
    let e_header := s.mem s.epilogue
    if p_header ≠ p_footer ∨ p_header ≠ pack MIN_BLOCK_SIZE true then .ok false
    else if e_header ≠ pack 0 true then .ok false
    else .ok true

/-- Loop of `check_block_consistency` from `block` on. -/
def check_blocks_from (s : State) : Nat → Nat → Except Fault Bool
  | 0, _ => .error .out_of_fuel
  | fuel + 1, block =>
    if get_size s block = 0 then .ok true
    else if block % 16 ≠ 8 then .ok false
    else if wadd block 8 % 16 ≠ 0 then .ok false
    else
      let size := get_size s block
      if size < MIN_BLOCK_SIZE then .ok false
      else if s.mem block ≠ s.mem (wadd block (wsub size wsize)) then .ok false
      else
        match find_next s block with
        | .error e => .error e
        | .ok block_next => check_blocks_from s fuel block_next

/-- The source's `check_block_consistency`. -/
def check_block_consistency (s : State) (fuel : Nat) : Except Fault Bool :=
  check_blocks_from s fuel s.heap_start

/-- The source's `check_freelist`: its body is commented out, it returns true. -/
def check_freelist (_s : State) : Bool := true

/-- The source's `mm_checkheap`. -/
def mm_checkheap (s : State) (fuel : Nat) : Except Fault Bool := do
  if ¬ (← check_prologue_and_epilogue s) then pure false
  else if ¬ (← check_block_consistency s fuel) then pure false
  else if ¬ check_freelist s then pure false
  else pure true

/-! ## The request operations -/

/-- The source's `malloc`; the returned pointer is `0` for `NULL`.  With
`DEBUG` defined, the `size == 0` path asserts `mm_checkheap`. -/
def malloc (s : State) (size fuel : Nat) : Except Fault (State × Nat) := do
  let s ← (if s.heap_start = 0 then (mm_init s fuel).map Prod.fst else pure s)
  if size = 0 then
    if ¬ (← mm_checkheap s fuel) then throw .assert_fail
    else pure (s, 0)
  else
    let asize := round_up (Mm.max MIN_BLOCK_SIZE (wadd dsize size)) dsize
    let block ← find_fit s asize fuel
    if block = 0 then
      let extendsize := Mm.max asize chunksize
      let (s, block) ← extend_heap s extendsize fuel
      if block = 0 then pure (s, 0)
      else
        let s ← place s block asize
        pure (s, header_to_payload block)
    else
      let s ← place s block asize
      pure (s, header_to_payload block)

/-- The source's `free`. -/
def free (s : State) (bp : Nat) : Except Fault State :=
  if bp = 0 then pure s
  else
    let block := payload_to_header bp
    if ¬ get_alloc s block then pure s
    else
      let size := get_size s block
      let s := write_header s block size false
      let s := write_footer s block size false
      (coalesce s block).map Prod.fst

/-- Byte at address `a` of a little-endian memory of 8-byte words. -/
def load_byte (m : Memory) (a : Nat) : Nat := m (a - a % 8) / 256 ^ (a % 8) % 256

/-- Store of one byte at address `a`: the byte is replaced inside its word. -/
def store_byte (m : Memory) (a b : Nat) : Memory :=
  let w := m (a - a % 8)
  store m (a - a % 8) (w - w / 256 ^ (a % 8) % 256 * 256 ^ (a % 8) + b % 256 * 256 ^ (a % 8))

/-- The library's `memcpy` on non-overlapping areas: the first `n` bytes at
`dst` become the bytes that `m` holds at `src`. -/
def memcpy (m : Memory) (dst src : Nat) : Nat → Memory
  | 0 => m
  | k + 1 => store_byte (memcpy m dst src k) (wadd dst k) (load_byte m (wadd src k))

/-- The library's `memset`: the first `n` bytes at `dst` become `c`.  Memory is
a total map here, so this describes the fill only while the `n` bytes lie in
memory that the process holds; a fill that runs past it ends the real process
and has no result to describe. -/
def memset (m : Memory) (dst c : Nat) : Nat → Memory
  | 0 => m
  | k + 1 => store_byte (memset m dst c k) (wadd dst k) c

/-- The source's `realloc`; the returned pointer is `0` for `NULL`. -/
def realloc (s : State) (ptr size fuel : Nat) : Except Fault (State × Nat) := do
  let block := payload_to_header ptr
  if size = 0 then
    let s ← free s ptr
    pure (s, 0)
  else if ptr = 0 then malloc s size fuel
  else
    let (s, newptr) ← malloc s size fuel
    if newptr = 0 then pure (s, 0)
    else
      let copysize := get_payload_size s block
      let copysize := if size < copysize then size else copysize
      let s := { s with mem := memcpy s.mem newptr ptr copysize }
      let s ← free s ptr
      pure (s, newptr)

/-- The source's `calloc`; the returned pointer is `0` for `NULL`.  The
overflow test divides by `elements`; a zero divisor is a fault. -/
def calloc (s : State) (elements size fuel : Nat) : Except Fault (State × Nat) := do
  let asize := wmul elements size
  if elements = 0 then throw .div_by_zero
  else if asize / elements ≠ size then pure (s, 0)
  else
    let (s, bp) ← malloc s asize fuel
    if bp = 0 then pure (s, 0)
    else pure ({ s with mem := memset s.mem bp 0 asize }, bp)

/-! ## Call sequences and observations used to state properties of runs -/

/-- One call of a client program: `malloc size`, or `free` of the pointer
returned by the `i`-th `malloc` of the sequence (counted from 0). -/
inductive Call where
  | malloc (size : Nat)
  | free (i : Nat)

/-- Run a sequence of calls from a state, collecting the pointers that the
`malloc` calls return, in order. -/
def run_calls (fuel : Nat) : List Call → State × List Nat → Except Fault (State × List Nat)
  | [], r => .ok r
  | Call.malloc size :: cs, (s, ps) =>
    match malloc s size fuel with
    | .error e => .error e
    | .ok (s1, p) => run_calls fuel cs (s1, ps ++ [p])
  | Call.free i :: cs, (s, ps) =>
    match free s (ps.getD i 0) with
    | .error e => .error e
    | .ok s1 => run_calls fuel cs (s1, ps)

/-- The state reached by `mm_init` on an empty region at address `1000000`
(a multiple of 16) that may grow to 20 MiB, followed by the calls `cs`; fails
when `mm_init` returns false. -/
def after_calls (cs : List Call) : Except Fault (State × List Nat) :=
  match mm_init (fresh 1000000 20971520) 100 with
  | .error e => .error e
  | .ok (s, ok) => if ok then run_calls 100 cs (s, []) else .error .assert_fail

/-- What an observer `f` sees in the final state of a run, if the run returned. -/
def observe {α : Type} (r : Except Fault (State × List Nat)) (f : State → List Nat → α) :
    Option α :=
  match r with
  | .error _ => none
  | .ok (s, ps) => some (f s ps)

/-- The result of a call that may fault, as an option and the fault, if any. -/
def outcome {α : Type} (r : Except Fault α) : Option α × Option Fault :=
  match r with
  | .error e => (none, some e)
  | .ok a => (some a, none)

/-- Blocks reachable from `block` along `next` links, in order (at most `fuel`). -/
def free_list (s : State) : Nat → Nat → List Nat
  | 0, _ => []
  | fuel + 1, block =>
    if block = 0 then [] else block :: free_list s fuel (get_next_freed s block)

/-- Blocks met by the linear walk by header sizes from `block` until the last
word of the region (the epilogue header); `none` when the walk does not arrive
exactly there. -/
def heap_blocks (s : State) : Nat → Nat → Option (List Nat)
  | 0, _ => none
  | fuel + 1, block =>
    if block = s.mem_brk - 8 then some []
    else if get_size s block = 0 ∨ s.mem_brk - 8 < block then none
    else (heap_blocks s fuel (block + get_size s block)).map (fun l => block :: l)

/-- Free blocks of size class `i` among the blocks `bs`. -/
def free_of_class (s : State) (i : Nat) (bs : List Nat) : List Nat :=
  bs.filter (fun b => !get_alloc s b && get_seg_size (get_size s b) == i)

/-- No two consecutive blocks of the list are both marked free. -/
def no_adjacent_free (s : State) : List Nat → Bool
  | a :: b :: rest => (get_alloc s a || get_alloc s b) && no_adjacent_free s (b :: rest)
  | _ => true

/-- Well-formedness of one block: header at 8 modulo 16, size a multiple of
16 and at least `MIN_BLOCK_SIZE`, and header word equal to footer word when
the block is free. -/
def block_wf (s : State) (b : Nat) : Bool :=
  b % 16 == 8 && get_size s b % 16 == 0 && decide (MIN_BLOCK_SIZE ≤ get_size s b) &&
    (get_alloc s b || s.mem b == s.mem (b + get_size s b - 8))

/-- The linear walk from `heap_start` ends at the epilogue word and meets
only well-formed blocks. -/
def heap_wf (s : State) (fuel : Nat) : Bool :=
  match heap_blocks s fuel s.heap_start with
  | none => false
  | some bs => bs.all (block_wf s)

/-- The state of a run that returned; the untouched empty process when it
did not. -/
def state_after (cs : List Call) : State :=
  match after_calls cs with
  | .error _ => fresh 0 0
  | .ok (s, _) => s

/-- Address of the block that physically follows the block of payload `p`. -/
def phys_next (s : State) (p : Nat) : Nat := p - 8 + get_size s (p - 8)

/-- Size recorded in the footer that physically precedes the block of payload `p`. -/
def phys_prev_size (s : State) (p : Nat) : Nat := extract_size (s.mem (p - 16))

/-- Address of the block that physically precedes the block of payload `p`. -/
def phys_prev (s : State) (p : Nat) : Nat := p - 8 - phys_prev_size s p

/-- The part of heap well-formedness on which `free p` depends: `p` is a
16-byte aligned payload pointer of a block of at least `MIN_BLOCK_SIZE` bytes;
the footer before the block records a positive size that does not reach below
address 0; the successor ends below `2 ^ 64`; a free successor has at least
`MIN_BLOCK_SIZE` bytes and 8-byte aligned list links; a free predecessor has
matching header and footer sizes and 8-byte aligned list links; and every
list head is NULL or a 64-bit address congruent to 8 modulo 16 that does not
lie strictly inside the block or its successor. -/
def free_ok (s : State) (p : Nat) : Prop :=
  p % 16 = 0 ∧ 16 ≤ p ∧
  MIN_BLOCK_SIZE ≤ get_size s (p - 8) ∧
  0 < phys_prev_size s p ∧ phys_prev_size s p ≤ p - 8 ∧
  phys_next s p + get_size s (phys_next s p) < WORD_MOD ∧
  (get_alloc s (phys_next s p) = false →
    MIN_BLOCK_SIZE ≤ get_size s (phys_next s p) ∧
    s.mem (phys_next s p + 8) % 8 = 0 ∧ s.mem (phys_next s p + 16) % 8 = 0) ∧
  (get_alloc s (phys_prev s p) = false →
    get_size s (phys_prev s p) = phys_prev_size s p ∧
    s.mem (phys_prev s p + 8) % 8 = 0 ∧ s.mem (phys_prev s p + 16) % 8 = 0) ∧
  (∀ i, i < seg_size → s.seg_list i = 0 ∨
    (s.seg_list i % 16 = 8 ∧ s.seg_list i < WORD_MOD ∧
      (s.seg_list i ≤ p - 8 ∨ s.seg_list i = phys_next s p ∨
        phys_next s p + get_size s (phys_next s p) ≤ s.seg_list i)))

/-- `free_ok` is a decidable condition on a state. -/
instance free_ok_decidable (s : State) (p : Nat) : Decidable (free_ok s p) := by
  unfold free_ok
  exact inferInstance

/-- Last steps of `free` and `coalesce`: write header and footer of the free
block `r` of size `z`, then insert it in the free-list index. -/
def publish (t : State) (r z : Nat) : State :=
  add_free (write_footer (write_header t r z false) r z false) r z

/-- A state whose region cannot grow: `mm_init` and one `malloc(16)` on a
region at address `1000000` limited to the 8224 bytes these two calls take. -/
def full_region : State :=
  match mm_init (fresh 1000000 8224) 100 with
  | .error _ => fresh 0 0
  | .ok (s, _) =>
    match malloc s 16 100 with
    | .error _ => fresh 0 0
    | .ok (s1, _) => s1

/-- Calls that leave a well-formed heap whose class-12 list holds three free
blocks, the last of them next to the epilogue. -/
def calls_realloc : List Call :=
  [.malloc 5000, .malloc 16, .malloc 5000, .malloc 5000, .free 0, .free 2]

/-- Calls after which `free` of the second pointer writes into the payload of
the last allocation. -/
def calls_payload : List Call :=
  [.malloc 16, .malloc 16, .malloc 16, .malloc 16, .malloc 16, .malloc 16,
   .free 0, .free 2, .free 4, .free 5, .malloc 16]

/-- Calls after which the class-14 head is a block with stale `prev` and
`next` links. -/
def calls_stale_head : List Call :=
  [.malloc 16, .malloc 16368, .malloc 16, .malloc 16, .malloc 16, .malloc 16, .malloc 16,
   .free 0, .free 5, .free 3, .free 1, .free 4]

/-- Calls that leave two free blocks in the 32-byte class. -/
def calls_two_free : List Call :=
  [.malloc 16, .malloc 16, .malloc 16, .malloc 16, .free 0, .free 2]

/-- Calls after which `free` of the second pointer overwrites a block header. -/
def calls_header : List Call :=
  [.malloc 16, .malloc 16, .malloc 16, .malloc 16, .malloc 32, .malloc 16, .malloc 16,
   .free 0, .free 2, .free 5, .free 6, .free 4, .malloc 48]

/-! ## Well-formedness conditions and states used by the later properties -/

/-- The walk along `next` links from `block` reaches NULL within `fuel` steps. -/
def list_ends (s : State) : Nat → Nat → Bool
  | fuel, block =>
    if block = 0 then true
    else
      match fuel with
      | 0 => false
      | fuel + 1 => list_ends s fuel (get_next_freed s block)

/-- The part of heap well-formedness on which `place(b, asize)` depends: `b`
is at an address congruent to 8 modulo 16, `asize` is a multiple of 16 with
`MIN_BLOCK_SIZE ≤ asize ≤ size(b)`, the block ends below `2 ^ 64`, and every
list head is NULL or a 64-bit address congruent to 8 modulo 16 that does not
lie strictly inside the block. -/
def place_ok (s : State) (b asize : Nat) : Prop :=
  b % 16 = 8 ∧ asize % 16 = 0 ∧ MIN_BLOCK_SIZE ≤ asize ∧ asize ≤ get_size s b ∧
  b + get_size s b < WORD_MOD ∧
  (∀ i, i < seg_size → s.seg_list i = 0 ∨
    (s.seg_list i % 16 = 8 ∧ s.seg_list i < WORD_MOD ∧
      (s.seg_list i ≤ b ∨ b + get_size s b ≤ s.seg_list i)))

/-- `place_ok` is a decidable condition on a state. -/
instance place_ok_decidable (s : State) (b asize : Nat) : Decidable (place_ok s b asize) := by
  unfold place_ok
  exact inferInstance

/-- The part of heap well-formedness on which `coalesce(b)` depends: the state
is well formed around the block (`free_ok` of its payload pointer) and the
block is marked free, header and footer both `pack(size, false)`. -/
def coalesce_ok (s : State) (b : Nat) : Prop :=
  free_ok s (b + 8) ∧ s.mem b = pack (get_size s b) false ∧
    s.mem (b + get_size s b - 8) = pack (get_size s b) false

/-- `coalesce_ok` is a decidable condition on a state. -/
instance coalesce_ok_decidable (s : State) (b : Nat) : Decidable (coalesce_ok s b) := by
  unfold coalesce_ok
  exact inferInstance

/-- Size recorded in the last footer of the region, the word before the epilogue header. -/
def last_size (s : State) : Nat := extract_size (s.mem (s.mem_brk - 16))

/-- Address of the last block of the region, found through that footer. -/
def last_block (s : State) : Nat := s.mem_brk - 8 - last_size s

/-- A free-list pointer is NULL or the address of a block inside the heap:
congruent to 8 modulo 16, not below `heap_start`, with room for 32 bytes before
the epilogue header. -/
def inside (s : State) (y : Nat) : Prop :=
  y = 0 ∨ (y % 16 = 8 ∧ s.heap_start ≤ y ∧ y + 40 ≤ s.mem_brk)

/-- `inside` is a decidable condition. -/
instance inside_decidable (s : State) (y : Nat) : Decidable (inside s y) := by
  unfold inside
  exact inferInstance

/-- The part of heap well-formedness on which `extend_heap(size)` depends: the
region end is a multiple of 16 and `heap_start` is congruent to 8 modulo 16,
at least 16 and at least a word before the region end; the rounded size is at
least `MIN_BLOCK_SIZE`, fits in the region limit and ends below `2 ^ 64`; the
last footer records a positive size that does not reach below the prologue; a
free last block starts at or after `heap_start`, has that size in its header,
at least `MIN_BLOCK_SIZE`, and links that are NULL or inside the heap; and
every free list ends within `fuel` steps and holds only blocks inside the
heap. -/
def extend_ok (s : State) (size fuel : Nat) : Prop :=
  s.mem_brk % 16 = 0 ∧ s.heap_start % 16 = 8 ∧ 16 ≤ s.heap_start ∧
  s.heap_start + 8 ≤ s.mem_brk ∧
  MIN_BLOCK_SIZE ≤ round_up size dsize ∧
  s.mem_brk + round_up size dsize ≤ s.mem_max_addr ∧
  s.mem_brk + round_up size dsize + 16 < WORD_MOD ∧
  0 < last_size s ∧ last_size s + s.heap_start ≤ s.mem_brk + 8 ∧
  (get_alloc s (last_block s) = false →
    s.heap_start ≤ last_block s ∧ get_size s (last_block s) = last_size s ∧
    MIN_BLOCK_SIZE ≤ last_size s ∧
    inside s (s.mem (last_block s + 8)) ∧ inside s (s.mem (last_block s + 16))) ∧
  (∀ i, i < seg_size → list_ends s fuel (s.seg_list i) = true ∧
    ∀ y ∈ free_list s fuel (s.seg_list i), inside s y)

/-- `extend_ok` is a decidable condition on a state. -/
instance extend_ok_decidable (s : State) (size fuel : Nat) :
    Decidable (extend_ok s size fuel) := by
  unfold extend_ok
  exact inferInstance

/-- The state of `extend_heap` before its list search: the region grown, header
and footer of the new free block written, then header and footer of the new
epilogue. -/
def grown (s : State) (size : Nat) : State :=
  let sz := round_up size dsize
  let s1 := (mem_sbrk s sz).1
  let block := s.mem_brk - 8
  write_footer (write_header (write_footer (write_header s1 block sz false) block sz false)
    (block + sz) dsize true) (block + sz) dsize true

/-- The two prologue words decode to size `dsize` with the allocated flag set,
and the last word of the region has the allocated flag set. -/
def sentinels_ok (s : State) : Prop :=
  extract_size (s.mem (s.heap_start - 16)) = dsize ∧
  extract_alloc (s.mem (s.heap_start - 16)) = true ∧
  extract_size (s.mem (s.heap_start - 8)) = dsize ∧
  extract_alloc (s.mem (s.heap_start - 8)) = true ∧
  extract_alloc (s.mem (s.mem_brk - 8)) = true

/-- `sentinels_ok` is a decidable condition on a state. -/
instance sentinels_ok_decidable (s : State) : Decidable (sentinels_ok s) := by
  unfold sentinels_ok
  exact inferInstance

/-- The state of `mm_init` before its call of `extend_heap`: the region grown
by four words, the free-list heads cleared, the four words written and
`heap_start` set to the fourth. -/
def init_state (s0 : State) : State :=
  let s := (mem_sbrk s0 (2 * dsize)).1
  let start := s0.mem_brk
  let s := { s with seg_list := fun _ => 0 }
  let s := s.write start (pack 0 false)
  let s := s.write (wadd start 8) (pack dsize true)
  let s := s.write (wadd start 16) (pack dsize true)
  let s := s.write (wadd start 24) (pack 0 true)
  { s with heap_start := wadd start 24 }

/-- Doubly linked chain: `l` lists the blocks met from `x` along `next` links
until NULL, and the `prev` link of each block holds its predecessor in the
list, `pv` for the first one. -/
def dchain (s : State) : Nat → Nat → List Nat → Prop
  | _, x, [] => x = 0
  | pv, x, y :: l => x = y ∧ y ≠ 0 ∧ get_prev_freed s y = pv ∧ dchain s y (get_next_freed s y) l

/-- `dchain` is decidable. -/
instance dchain_decidable (s : State) (pv x : Nat) (l : List Nat) :
    Decidable (dchain s pv x l) := by
  induction l generalizing pv x with
  | nil => unfold dchain; exact inferInstance
  | cons y l ih => unfold dchain; exact inferInstance

/-- The lists `L i` describe the free lists of the state: each is the doubly
linked chain from `seg_list[i]`, without repetition, of blocks at addresses
congruent to 8 modulo 16 below `2 ^ 64 - 16`, and no block is in two lists. -/
def fam (u : State) (L : Nat → List Nat) : Prop :=
  (∀ i, i < seg_size → dchain u 0 (u.seg_list i) (L i)) ∧
  (∀ i, i < seg_size → ∀ y ∈ L i, y % 16 = 8 ∧ y + 16 < WORD_MOD) ∧
  (∀ i, i < seg_size → (L i).Nodup) ∧
  (∀ i j y, i < seg_size → j < seg_size → y ∈ L i → y ∈ L j → i = j)

/-- Well-formedness of the free lists around a block `b` that is about to be
coalesced: `L i` is the doubly linked chain from `seg_list[i]`, without
repetition; every listed block is marked free, lies in the list of the class
of its size, at an address congruent to 8 modulo 16, and does not overlap the
predecessor of `b`, `b` itself or its successor unless it is that predecessor
or successor; and a free predecessor or successor is listed. -/
def lists_ok (s : State) (L : Nat → List Nat) (b : Nat) : Prop :=
  (∀ i, i < seg_size → dchain s 0 (s.seg_list i) (L i) ∧ (L i).Nodup ∧
    ∀ y ∈ L i, y % 16 = 8 ∧ y + 16 < WORD_MOD ∧ get_alloc s y = false ∧
      get_seg_size (get_size s y) = i ∧
      (y + 32 ≤ phys_prev s (b + 8) ∨ y = phys_prev s (b + 8) ∨ y = phys_next s (b + 8) ∨
        phys_next s (b + 8) + get_size s (phys_next s (b + 8)) ≤ y)) ∧
  (get_alloc s (phys_prev s (b + 8)) = false →
    phys_prev s (b + 8) ∈ L (get_seg_size (get_size s (phys_prev s (b + 8))))) ∧
  (get_alloc s (phys_next s (b + 8)) = false →
    phys_next s (b + 8) ∈ L (get_seg_size (get_size s (phys_next s (b + 8)))))

/-- `lists_ok` is a decidable condition on a state. -/
instance lists_ok_decidable (s : State) (L : Nat → List Nat) (b : Nat) :
    Decidable (lists_ok s L b) := by
  unfold lists_ok
  exact inferInstance

/-- The block `b` marked free, as `free` does before it calls `coalesce`: header
and footer rewritten with the size of the block and a clear allocated flag. -/
def marked_free (s : State) (b : Nat) : State :=
  write_footer (write_header s b (get_size s b) false) b (get_size s b) false

/-- Calls that leave the class-5 list `1000152, 1000024, 1000088`, three free
blocks separated by allocated ones. -/
def calls_three_free : List Call :=
  [.malloc 16, .malloc 16, .malloc 16, .malloc 16, .malloc 16, .malloc 16,
   .free 2, .free 0, .free 4]

/-- The state after `calls_three_free` with the allocated block `1000056`,
which lies between the free blocks `1000024` and `1000088`, marked free. -/
def three_free_marked : State := marked_free (state_after calls_three_free) 1000056

/-- The free lists of `three_free_marked`: three blocks in class 5 and the rest
of the region in class 14. -/
def lists_three_free : Nat → List Nat :=
  fun i => if i = 5 then [1000152, 1000024, 1000088] else if i = 14 then [1000216] else []

/-- Stated from the claim: the two-branch function to which `delete_free` is
equal, NULL head when one link is NULL, otherwise the block is unlinked and
the heads stay. -/
def delete_free_two_branch (s : State) (removed : Nat) : State :=
  let index := get_seg_size (get_size s removed)
  let prev := get_prev_freed s removed
  let next := get_next_freed s removed
  if prev = 0 ∨ next = 0 then s.set_seg index 0
  else set_next (set_prev s next prev) prev next

/-- Calls that leave a well-formed heap of five allocated blocks and no free
block: the last `malloc` takes the whole class-14 block. -/
def calls_all_allocated : List Call :=
  [.malloc 16, .malloc 16, .malloc 16, .malloc 16, .malloc 20336]

/-! ## Proxy page cache (`src/proxy/cache.c`) -/

/-- The globals of `cache.c` together with the fields `prev`, `next` and `size`
of the pages, by page address (`NULL` is address `0`).  `cache_size` is an
`unsigned long`; the semaphores and the strings of a page are not modelled. -/
structure Cache where
  /-- ptr to first page in cache -/
  cache_first : Nat
  /-- ptr to last page in cache -/
  cache_last : Nat
  /-- total size of cache -/
  cache_size : Nat
  /-- counter of readers -/
  readcnt : Nat
  /-- field `prev` of the page at an address -/
  prev : Nat → Nat
  /-- field `next` of the page at an address -/
  next : Nat → Nat
  /-- field `size` of the page at an address -/
  size : Nat → Nat

/-- The source's `init_cache`. -/
def init_cache (c : Cache) : Cache :=
  { c with cache_first := 0, cache_last := 0, cache_size := 0, readcnt := 0 }

/-- The source's `add_page`: on an empty cache the page becomes first and last
and the function returns; otherwise the page is linked after the last one and
`cache_size` grows by `page->size`. -/
def add_page (c : Cache) (page : Nat) : Except Fault Cache :=
  if c.cache_first = 0 ∨ c.cache_last = 0 then
    if page = 0 then .error .null_deref
    else
      let c := { c with cache_first := page }
      let c := { c with cache_last := page }
      let c := { c with prev := store c.prev page 0 }
      let c := { c with next := store c.next page 0 }
      .ok c
  else
    let c := { c with next := store c.next c.cache_last page }
    if page = 0 then .error .null_deref
    else
      let c := { c with next := store c.next page 0 }
      let c := { c with prev := store c.prev page c.cache_last }
      let c := { c with cache_last := page }
      .ok { c with cache_size := wadd c.cache_size (c.size page) }

/-- The source's `delete_page`; the release of the page when `eliminate` is set
is not modelled. -/
def delete_page (c : Cache) (page : Nat) (eliminate : Bool) : Except Fault Cache :=
  if page = 0 then .error .null_deref
  else
    let prev := c.prev page
    let next := c.next page
    let c :=
      if prev = 0 ∧ next = 0 then { c with cache_first := 0, cache_last := 0 }
      else if prev ≠ 0 ∧ next = 0 then
        { c with next := store c.next prev 0, cache_last := prev }
      else if prev = 0 ∧ next ≠ 0 then
        { c with prev := store c.prev next 0, cache_first := next }
      else
        { c with next := store c.next prev next, prev := store c.prev next prev }
    .ok { c with cache_size := wsub c.cache_size (c.size page) }

/-- Pages met from `page` along `next` links until NULL (at most `fuel`). -/
def linked_pages (c : Cache) : Nat → Nat → List Nat
  | 0, _ => []
  | fuel + 1, page => if page = 0 then [] else page :: linked_pages c fuel (c.next page)

/-- Sum of the `size` fields of the pages linked from `cache_first`. -/
def linked_size (c : Cache) (fuel : Nat) : Nat :=
  ((linked_pages c fuel c.cache_first).map c.size).sum

/-- Two pages outside any cache: one of 100 bytes at address `4096` and one of
200 bytes at address `8192`; the globals hold arbitrary values before
`init_cache`. -/
def two_pages : Cache :=
  { cache_first := 7, cache_last := 7, cache_size := 7, readcnt := 7,
    prev := fun _ => 0, next := fun _ => 0,
    size := fun p => if p = 4096 then 100 else if p = 8192 then 200 else 0 }

/-- What an observer sees of a cache: `cache_size`, the sum of the sizes of the
linked pages, and the linked pages. -/
def cache_view (r : Except Fault Cache) : Option (Nat × Nat × List Nat) :=
  match r with
  | .error _ => none
  | .ok c => some (c.cache_size, linked_size c 10, linked_pages c 10 c.cache_first)

/-! ## Theorems -/

/-- C1 (the code breaks it): after the calls `calls_payload` the seventh `malloc(16)`
has returned `1000160`, its block `1000152` is marked allocated and the payload
word at `1000168` (bytes 8..15 of the 16 requested) holds 0, while the free
block `1000088`, reachable from no list head, still has `prev = 1000152` and
`next = 1000024`; the next call, `free` of the second pointer, leaves block
`1000152` allocated but stores the free-list link `1000024` in that payload
word. -/
theorem C1_free_writes_outstanding_payload :
    observe (after_calls calls_payload)
        (fun s ps => (ps.getD 6 0, ps.getD 1 0, get_alloc s 1000152, s.mem 1000168))
      = some (1000160, 1000064, true, 0) ∧
    observe (after_calls calls_payload)
        (fun s _ => (get_alloc s 1000088,
          [get_prev_freed s 1000088, get_next_freed s 1000088, s.seg_list 5]))
      = some (false, [1000152, 1000024, 0]) ∧
    observe (after_calls (calls_payload ++ [Call.free 1]))
        (fun s ps => (ps.getD 6 0, get_alloc s 1000152, s.mem 1000168))
      = some (1000160, true, 1000024) := by
  decide!

/-- C2 (the code breaks it): after the calls `calls_stale_head` the head of
`seg_list[14]` is the free block `1000024` whose `prev` and `next` links are
both non-NULL; `malloc(16384)` returns `1000032`; its block `1000024` is then
marked allocated (size 16416) and is still the first block reachable from
`seg_list[14]`; the following `malloc(16)` returns the same pointer `1000032`
although it was never freed. -/
theorem C2_malloc_returns_outstanding_pointer :
    observe (after_calls calls_stale_head)
        (fun s _ => (get_alloc s 1000024,
          [s.seg_list 14, get_prev_freed s 1000024, get_next_freed s 1000024]))
      = some (false, [1000024, 1016472, 1016600]) ∧
    observe (after_calls (calls_stale_head ++ [Call.malloc 16384]))
        (fun s ps => (ps.getD 7 0, get_alloc s 1000024, get_size s 1000024,
          free_list s 10 (s.seg_list 14)))
      = some (1000032, true, 16416, [1000024, 1016600]) ∧
    observe (after_calls (calls_stale_head ++ [Call.malloc 16384, Call.malloc 16]))
        (fun _ ps => (ps.getD 7 0, ps.getD 8 0))
      = some (1000032, 1000032) := by
  decide!

/-- C3 (the code breaks it): after the calls `calls_two_free` the list of class 5 is
the well-formed doubly-linked list `1000088, 1000024` (head `prev` is NULL,
links mutually consistent, NULL-terminated); `delete_free` of its head
`1000088` leaves the empty list from `seg_list[5]`, not the list `1000024`. -/
theorem C3_delete_free_head_empties_list :
    observe (after_calls calls_two_free)
        (fun s _ => (free_list s 10 (s.seg_list 5),
          [get_prev_freed s 1000088, get_next_freed s 1000088,
           get_prev_freed s 1000024, get_next_freed s 1000024,
           get_seg_size (get_size s 1000088)],
          free_list (delete_free s 1000088) 10 ((delete_free s 1000088).seg_list 5)))
      = some ([1000088, 1000024], [0, 1000024, 1000088, 0, 5], []) := by
  decide!

/-- C4 (the code breaks it): after the calls `calls_two_free` block `1000024` is the
tail of the class-5 list (its `prev` is `1000088`, not NULL) and the head is
`seg_list[5] = 1000088`; `delete_free` of that tail sets `seg_list[5]` to NULL
and leaves the `next` link of `1000088` pointing at the removed block. -/
theorem C4_delete_free_tail_changes_head :
    observe (after_calls calls_two_free)
        (fun s _ => (s.seg_list 5, get_prev_freed s 1000024, get_next_freed s 1000024,
          (delete_free s 1000024).seg_list 5,
          get_next_freed (delete_free s 1000024) 1000088))
      = some (1000088, 1000088, 0, 0, 1000024) := by
  decide!

/-- C5 (the code breaks it): after the calls `calls_two_free` followed by `free` of
the fourth pointer, the linear heap walk meets the blocks `1000024, 1000056,
1000088`; the free block `1000024` has size class 5, yet no block is reachable
from `seg_list[5]`: the block is orphaned. -/
theorem C5_free_block_orphaned :
    observe (after_calls (calls_two_free ++ [Call.free 3]))
        (fun s _ => (heap_blocks s 100 s.heap_start,
          (heap_blocks s 100 s.heap_start).map (free_of_class s 5),
          free_list s 10 (s.seg_list 5)))
      = some (some [1000024, 1000056, 1000088], some [1000024], []) := by
  decide!

/-- C6 (the code breaks it): directly after `mm_init` the list of class 12 holds the
free block `1000024` of size 4096, and `get_seg_size 32 = 5 ≤ 12`, but
`find_fit 32` returns NULL. -/
theorem C6_find_fit_misses_lower_class :
    observe (after_calls [])
        (fun s _ => ([s.seg_list 12, get_size s 1000024, get_seg_size 32],
          get_alloc s 1000024, outcome (find_fit s 32 100)))
      = some ([1000024, 4096, 5], false, (some 0, none)) := by
  decide!

/-- C7 (the code breaks it): after `P1 = malloc(100)`, `P2 = malloc(200)`, `free(P1)`
the block `1000024` of `P1` is free with size 128 and listed in class 7, the
adjusted size of a request of 50 bytes is 80, and the region ends at `1012320`;
`malloc(50)` then returns `1000384`, outside `[1000024, 1000152)`, and the
region end has moved to `1016416`. -/
theorem C7_freed_block_not_reused :
    observe (after_calls [Call.malloc 100, Call.malloc 200, Call.free 0])
        (fun s ps => (ps, get_alloc s 1000024, get_size s 1000024,
          free_list s 10 (s.seg_list 7),
          round_up (Mm.max MIN_BLOCK_SIZE (wadd dsize 50)) dsize, s.mem_brk))
      = some ([1000032, 1000160], false, 128, [1000024], 80, 1012320) ∧
    observe (after_calls [Call.malloc 100, Call.malloc 200, Call.free 0, Call.malloc 50])
        (fun s ps => (ps.getD 2 0, s.mem_brk))
      = some (1000384, 1016416) := by
  decide!

/-- C8 (the code breaks it): directly after a successful `mm_init` the global
`epilogue` is still NULL, so `mm_checkheap` faults on `epilogue->header` and
does not return true; moreover the prologue header holds `pack(dsize, true)
= 17` while the check compares it with `pack(MIN_BLOCK_SIZE, true) = 33`. -/
theorem C8_checkheap_fails_after_init :
    observe (after_calls [])
        (fun s _ => ([s.epilogue, s.mem (find_prev s s.heap_start), pack MIN_BLOCK_SIZE true],
          outcome (mm_checkheap s 100)))
      = some ([0, 17, 33], (none, some Fault.null_deref)) := by
  decide!

/-- C9 (the code breaks it): after the calls `calls_stale_head` followed by
`malloc(16384)`, `free` of the third pointer, `malloc(16)` and `free` of the
seventh pointer, the heap walk is `1000024, 1000056, 1016440` and the physically
adjacent blocks `1000056` and `1016440` are both marked free when that last
`free` returns. -/
theorem C9_adjacent_free_blocks_after_free :
    observe (after_calls (calls_stale_head ++
          [Call.malloc 16384, Call.free 2, Call.malloc 16, Call.free 6]))
        (fun s _ => (heap_blocks s 100 s.heap_start,
          get_alloc s 1000056, get_size s 1000056, get_alloc s 1016440,
          (heap_blocks s 100 s.heap_start).map (no_adjacent_free s)))
      = some (some [1000024, 1000056, 1016440], false, 16384, false, some false) := by
  decide!

/-- C10 (the code breaks it): the heap is well formed directly after `mm_init` and
after the calls `calls_header`, where `1000216` is a free block of size 20288
ending at the epilogue word and the free block `1000088` has the stale links
`prev = 1000200`, `next = 1000024`; the next call, `free` of the second pointer,
stores the list link `1000024` over the header of block `1000216`, so that its
size field is 1000016 and the walk from `heap_start` no longer ends at the
epilogue word of the region ending at `1020512`.  Besides, the epilogue word
written by `extend_heap` is `pack(dsize, true) = 17`, so the source's own walk
`check_block_consistency` does not stop there and reports a block below
`MIN_BLOCK_SIZE` directly after `mm_init`. -/
theorem C10_header_overwritten_by_stale_link :
    observe (after_calls [])
        (fun s _ => (heap_wf s 100, s.mem (s.mem_brk - 8),
          outcome (check_block_consistency s 100)))
      = some (true, 17, (some false, none)) ∧
    observe (after_calls calls_header)
        (fun s _ => (heap_wf s 100, [s.mem 1000216, s.mem_brk],
          [get_prev_freed s 1000088, get_next_freed s 1000088]))
      = some (true, [20288, 1020512], [1000200, 1000024]) ∧
    observe (after_calls (calls_header ++ [Call.free 1]))
        (fun s _ => (heap_wf s 100, [s.mem 1000216, get_size s 1000216, s.mem_brk],
          heap_blocks s 100 s.heap_start))
      = some (false, [1000024, 1000016, 1020512], none) := by
  decide!

/-! ### Codec facts -/

/-- `extract_size` clears the four low bits and keeps the 60 bits above them. -/
theorem extract_size_eq (w : Nat) : extract_size w = 16 * (w / 16 % 2 ^ 60) := by
  apply Nat.eq_of_testBit_eq
  intro j
  have hm : size_mask = 2 ^ 4 * (2 ^ 60 - 1) := by decide
  have h16 : (16 : Nat) = 2 ^ 4 := by decide
  rw [extract_size, hm, Nat.testBit_and, h16, Nat.testBit_mul_pow_two, Nat.testBit_mul_pow_two,
    Nat.testBit_two_pow_sub_one, Nat.testBit_mod_two_pow, ← Nat.shiftRight_eq_div_pow,
    Nat.testBit_shiftRight]
  by_cases h : 4 ≤ j
  · have : 4 + (j - 4) = j := by omega
    simp [h, this, Bool.and_comm]
  · simp [h]

theorem extract_size_mod (w : Nat) : extract_size w % 16 = 0 := by
  rw [extract_size_eq]; omega

theorem extract_size_lt (w : Nat) : extract_size w < WORD_MOD := by
  rw [extract_size_eq, WORD_MOD]
  have : w / 16 % 2 ^ 60 < 2 ^ 60 := Nat.mod_lt _ (by decide)
  have h : (2:Nat) ^ 60 = 1152921504606846976 := by decide
  omega

theorem extract_size_self (x : Nat) (hx : x < WORD_MOD) (h16 : x % 16 = 0) :
    extract_size x = x := by
  rw [extract_size_eq]
  have h : (2:Nat) ^ 60 = 1152921504606846976 := by decide
  rw [WORD_MOD] at hx
  omega

theorem pack_true (x : Nat) (h16 : x % 16 = 0) : pack x true = x + 1 := by
  have hx : x = 2 ^ 4 * (x / 16) := by omega
  have := Nat.mul_add_lt_is_or (i := 4) (b := 1) (by decide) (x / 16)
  simp only [pack, alloc_mask, if_true]
  rw [hx, ← this]

/-- C11: codec round trip.  For every size below `2 ^ 64` that is a multiple of
16 and every flag, `extract_size (pack s a) = s` and
`extract_alloc (pack s a) = a`. -/
theorem C11_codec_round_trip (x : Nat) (a : Bool) (hx : x < WORD_MOD) (h16 : x % 16 = 0) :
    extract_size (pack x a) = x ∧ extract_alloc (pack x a) = a := by
  cases a
  · refine ⟨?_, ?_⟩
    · simpa [pack] using extract_size_self x hx h16
    · simp [pack, extract_alloc, alloc_mask]; omega
  · rw [pack_true x h16]
    refine ⟨?_, ?_⟩
    · rw [extract_size_eq]
      have h : (2:Nat) ^ 60 = 1152921504606846976 := by decide
      rw [WORD_MOD] at hx
      omega
    · simp [extract_alloc, alloc_mask]; omega

/-- Witness of C11 at size 32 with the allocated flag set. -/
theorem C11_codec_round_trip_witness :
    (32 < WORD_MOD ∧ 32 % 16 = 0) ∧
      extract_size (pack 32 true) = 32 ∧ extract_alloc (pack 32 true) = true :=
  ⟨⟨by decide, by decide⟩, C11_codec_round_trip 32 true (by decide) (by decide)⟩

/-- C12 (the code breaks it): `malloc(2^64 - 1)` directly after `mm_init` returns the
non-null pointer `1000032`; the adjusted size computed in `size_t` arithmetic
is 32, not the round-up of `16 + n`, and the block has size 32, a payload
capacity of 16 bytes.  `malloc(2^64 - 20)` computes the adjusted size 0 and
returns `1000032` while the block `1000024` stays marked free (size 4096)
and the prologue footer at `1000016` is overwritten with 1. -/
theorem C12_huge_request_gets_small_block :
    round_up (Mm.max MIN_BLOCK_SIZE (wadd dsize 18446744073709551615)) dsize = 32 ∧
    observe (after_calls [Call.malloc 18446744073709551615])
        (fun s ps => (ps, get_alloc s 1000024,
          [get_size s 1000024, get_payload_size s 1000024]))
      = some ([1000032], true, [32, 16]) ∧
    round_up (Mm.max MIN_BLOCK_SIZE (wadd dsize 18446744073709551596)) dsize = 0 ∧
    observe (after_calls [Call.malloc 18446744073709551596])
        (fun s ps => (ps, get_alloc s 1000024, [get_size s 1000024, s.mem 1000016]))
      = some ([1000032], false, [4096, 1]) := by
  decide!

/-- C13 (the code breaks it): directly after a successful `mm_init`, `malloc(0)` does
not return: its `dbg_ensures(mm_checkheap(...))` runs the heap checker, which
loads `epilogue->header` through the NULL global `epilogue`. -/
theorem C13_malloc_zero_faults :
    observe (after_calls [])
        (fun s _ => (s.epilogue, outcome ((malloc s 0 100).map Prod.snd)))
      = some (0, (none, some Fault.null_deref)) := by
  decide!

/-! ### Out of memory -/

/-- A call whose result as an option is `some a` returned `a`. -/
theorem ok_of_outcome {α : Type} (r : Except Fault α) (a : α) (h : (outcome r).1 = some a) :
    r = .ok a := by
  cases r with
  | error e => simp [outcome] at h
  | ok b => simp [outcome] at h; rw [h]

/-- When `find_fit` misses and `mem_sbrk` refuses, `extend_heap` and `malloc`
return NULL and the state is the one before the call. -/
theorem malloc_refused (s : State) (n fuel : Nat) (hinit : s.heap_start ≠ 0) (hn : n ≠ 0)
    (hmiss : find_fit s (round_up (Mm.max MIN_BLOCK_SIZE (wadd dsize n)) dsize) fuel = .ok 0)
    (hfull : s.mem_max_addr < s.mem_brk +
      round_up (Mm.max (round_up (Mm.max MIN_BLOCK_SIZE (wadd dsize n)) dsize) chunksize) dsize) :
    extend_heap s (Mm.max (round_up (Mm.max MIN_BLOCK_SIZE (wadd dsize n)) dsize) chunksize) fuel
        = .ok (s, 0) ∧
      malloc s n fuel = .ok (s, 0) := by
  have hsbrk : mem_sbrk s (round_up (Mm.max (round_up (Mm.max MIN_BLOCK_SIZE (wadd dsize n)) dsize)
      chunksize) dsize) = (s, SBRK_FAILED) := by
    unfold mem_sbrk
    rw [if_neg (by omega)]
  have hext : extend_heap s (Mm.max (round_up (Mm.max MIN_BLOCK_SIZE (wadd dsize n)) dsize)
      chunksize) fuel = .ok (s, 0) := by
    unfold extend_heap
    simp only [hsbrk]
    rfl
  refine ⟨hext, ?_⟩
  unfold malloc
  simp [hinit, hn, hmiss, hext, bind, Except.bind, pure, Except.pure]

/-- C14: out-of-memory is atomic.  In an initialised state, for `n > 0`, if
`find_fit` misses for the adjusted size and the region cannot grow by the
rounded extension size, then `extend_heap` returns NULL and `malloc(n)` returns
NULL, both with the state (memory, region end, list heads) unchanged. -/
theorem C14_out_of_memory_atomic (s : State) (n fuel : Nat) (hinit : s.heap_start ≠ 0)
    (hn : n ≠ 0)
    (hmiss : find_fit s (round_up (Mm.max MIN_BLOCK_SIZE (wadd dsize n)) dsize) fuel = .ok 0)
    (hfull : s.mem_max_addr < s.mem_brk +
      round_up (Mm.max (round_up (Mm.max MIN_BLOCK_SIZE (wadd dsize n)) dsize) chunksize) dsize) :
    extend_heap s (Mm.max (round_up (Mm.max MIN_BLOCK_SIZE (wadd dsize n)) dsize) chunksize) fuel
        = .ok (s, 0) ∧
      malloc s n fuel = .ok (s, 0) :=
  malloc_refused s n fuel hinit hn hmiss hfull

/-- Witness of C14: `malloc(16)` in the state `full_region`. -/
theorem C14_out_of_memory_atomic_witness :
    full_region.heap_start ≠ 0 ∧ full_region.mem_max_addr < full_region.mem_brk + 4096 ∧
      extend_heap full_region
          (Mm.max (round_up (Mm.max MIN_BLOCK_SIZE (wadd dsize 16)) dsize) chunksize) 100
        = .ok (full_region, 0) ∧
      malloc full_region 16 100 = .ok (full_region, 0) :=
  ⟨by decide!, by decide!,
    C14_out_of_memory_atomic full_region 16 100 (by decide!) (by decide)
      (ok_of_outcome _ _ (by decide!)) (by decide!)⟩

/-! ### Release -/

theorem store_apply (m : Memory) (a v x : Nat) : store m a v x = if x = a then v else m x := rfl

/-- Only two branches of `delete_free` can be taken. -/
theorem delete_free_eq (s : State) (r : Nat) :
    delete_free s r =
      if get_prev_freed s r = 0 ∨ get_next_freed s r = 0 then
        s.set_seg (get_seg_size (get_size s r)) 0
      else set_next (set_prev s (get_next_freed s r) (get_prev_freed s r))
        (get_prev_freed s r) (get_next_freed s r) := by
  unfold delete_free
  simp only []
  by_cases h : get_prev_freed s r = 0 ∨ get_next_freed s r = 0
  · rw [if_pos h, if_pos h]
  · rw [if_neg h, if_neg h]
    have h1 : get_prev_freed s r ≠ 0 := fun e => h (Or.inl e)
    have h2 : get_next_freed s r ≠ 0 := fun e => h (Or.inr e)
    rw [if_neg (fun c => h1 c.1), if_neg (fun c => h2 c.2)]

theorem delete_free_seg (s : State) (r i : Nat) :
    (delete_free s r).seg_list i = 0 ∨ (delete_free s r).seg_list i = s.seg_list i := by
  rw [delete_free_eq]
  split
  · by_cases hi : i = get_seg_size (get_size s r)
    · left; simp [State.set_seg, hi]
    · right; simp [State.set_seg, hi]
  · right; rfl

theorem delete_free_even (s : State) (r x : Nat) (h1 : get_prev_freed s r % 2 = 0)
    (h2 : get_next_freed s r % 2 = 0) (hx : s.mem x % 2 = 0) :
    (delete_free s r).mem x % 2 = 0 := by
  rw [delete_free_eq]
  split
  · exact hx
  · simp only [set_next, set_prev, State.write, store_apply]
    split_ifs <;> assumption

theorem get_seg_size_loop_le (k size index : Nat) :
    get_seg_size_loop k size index ≤ index + k := by
  induction k generalizing size index with
  | zero => simp [get_seg_size_loop]
  | succ k ih =>
    unfold get_seg_size_loop
    split
    · have := ih (size >>> 1) (index + 1); omega
    · omega

theorem get_seg_size_lt (size : Nat) : get_seg_size size < seg_size := by
  have := get_seg_size_loop_le (seg_size - 1) size 0
  unfold get_seg_size
  simp only [seg_size] at *
  omega


theorem publish_seg (t : State) (r z i : Nat) :
    (publish t r z).seg_list i = if i = get_seg_size z then r else t.seg_list i := by
  unfold publish add_free
  simp only []
  split <;> rfl

/-- Memory after `publish`: the three link stores of `add_free`, then footer and header. -/
theorem publish_mem (t : State) (r z x : Nat) (hz : z % 16 = 0) (hz32 : 32 ≤ z)
    (hrz : r + z < WORD_MOD) :
    (publish t r z).mem x =
      if t.seg_list (get_seg_size z) ≠ 0 ∧ x = wadd (t.seg_list (get_seg_size z)) 8 then r
      else if x = r + 8 then 0
      else if x = r + 16 then t.seg_list (get_seg_size z)
      else if x = r + z - 8 then z
      else if x = r then z
      else t.mem x := by
  have hgs : get_size (write_header t r z false) r = z := by
    simp only [get_size, write_header, State.write, store_apply, if_true, pack]
    exact extract_size_self z (by omega) hz
  simp only [WORD_MOD] at hrz
  have ha8 : wadd r 8 = r + 8 := by simp only [wadd, WORD_MOD]; omega
  have ha16 : wadd r 16 = r + 16 := by simp only [wadd, WORD_MOD]; omega
  have hF : wsub (wadd (wadd r 8) z) dsize = r + z - 8 := by
    simp only [wsub, wadd, dsize, wsize, WORD_MOD]; omega
  unfold publish add_free
  simp only [write_footer, hgs, hF]
  by_cases hd : t.seg_list (get_seg_size z) = 0
  · simp only [write_header, State.write, State.set_seg, set_prev, set_next, store_apply, hd,
      if_true, pack, ha8, ha16, ne_eq, not_true_eq_false, false_and, if_false]
    simp
  · simp only [write_header, State.write, State.set_seg, set_prev, set_next, store_apply, hd,
      if_false, pack, ha8, ha16, ne_eq, not_false_eq_true, true_and]
    simp


/-- Shape of a successful `free`: in a state that is well formed around `p`,
`free p` ends by publishing a block `r` of size `z` that contains `p - 8`, over
a state `t` whose list heads are NULL or heads of `s`. -/
theorem free_shape (s : State) (p : Nat) (h : free_ok s p)
    (ha : get_alloc s (p - 8) = true) :
    ∃ t r z, free s p = .ok (publish t r z) ∧
      (∀ i, t.seg_list i = 0 ∨ t.seg_list i = s.seg_list i) ∧
      r % 16 = 8 ∧ r ≤ p - 8 ∧ p - 8 < r + z ∧ z % 16 = 0 ∧ 32 ≤ z ∧ r + z < WORD_MOD ∧
      (r + z = phys_next s p ∨
        (r + z = phys_next s p + get_size s (phys_next s p) ∧
          32 ≤ get_size s (phys_next s p))) ∧
      (r = p - 8 ∨ t.mem (p - 8) % 2 = 0) := by
  obtain ⟨hp16, hp, hsz32, hps0, hpsle, hnw, hnext, hprev, _⟩ := h
  have hszm : get_size s (p - 8) % 16 = 0 := extract_size_mod _
  have hnsm : get_size s (phys_next s p) % 16 = 0 := extract_size_mod _
  have hpsm : phys_prev_size s p % 16 = 0 := extract_size_mod _
  simp only [MIN_BLOCK_SIZE, dsize, wsize, WORD_MOD] at hsz32 hnw hnext
  -- the state after the two writes of `free`
  generalize hs2 : write_footer (write_header s (p - 8) (get_size s (p - 8)) false) (p - 8)
    (get_size s (p - 8)) false = s2
  have hpub : publish s (p - 8) (get_size s (p - 8)) = add_free s2 (p - 8) (get_size s (p - 8)) := by
    rw [← hs2]; rfl
  have hbn : phys_next s p = p - 8 + get_size s (p - 8) := rfl
  have hbp : phys_prev s p = p - 8 - phys_prev_size s p := rfl
  have hmem : ∀ x, s2.mem x =
      if x = p - 8 + get_size s (p - 8) - 8 then get_size s (p - 8)
      else if x = p - 8 then get_size s (p - 8) else s.mem x := by
    intro x
    have hgs : get_size (write_header s (p - 8) (get_size s (p - 8)) false) (p - 8)
        = get_size s (p - 8) := by
      simp only [get_size, write_header, State.write, store_apply, if_true, pack]
      exact extract_size_self _ (extract_size_lt _) (extract_size_mod _)
    have hF : wsub (wadd (wadd (p - 8) 8) (get_size s (p - 8))) dsize
        = p - 8 + get_size s (p - 8) - 8 := by
      simp only [wsub, wadd, dsize, wsize, WORD_MOD]; omega
    rw [← hs2]
    unfold write_footer
    rw [hgs, hF]
    simp only [write_header, State.write, store_apply, pack]
    simp
  have hseg : s2.seg_list = s.seg_list := by rw [← hs2]; rfl
  have hsz2 : get_size s2 (p - 8) = get_size s (p - 8) := by
    unfold get_size
    rw [hmem, if_neg (by omega), if_pos rfl]
    exact extract_size_self _ (extract_size_lt _) (extract_size_mod _)
  have hmn : s2.mem (phys_next s p) = s.mem (phys_next s p) := by
    rw [hmem, if_neg (by omega), if_neg (by omega)]
  have hmp : s2.mem (phys_prev s p) = s.mem (phys_prev s p) := by
    rw [hmem, if_neg (by omega), if_neg (by omega)]
  have hfoot : s2.mem (p - 16) = s.mem (p - 16) := by
    rw [hmem, if_neg (by omega), if_neg (by omega)]
  have hfn : find_next s2 (p - 8) = .ok (phys_next s p) := by
    unfold find_next
    rw [if_neg (by omega), hsz2]
    have : wadd (p - 8) (get_size s (p - 8)) = phys_next s p := by
      simp only [wadd, WORD_MOD, hbn]; omega
    simp only [this]
    rw [if_neg (by omega)]
  have hfp : find_prev s2 (p - 8) = phys_prev s p := by
    unfold find_prev find_prev_footer
    have h16 : wsub (p - 8) 8 = p - 16 := by simp only [wsub, WORD_MOD]; omega
    rw [h16, hfoot]
    show wsub (p - 8) (phys_prev_size s p) = phys_prev s p
    simp only [wsub, WORD_MOD, hbp]; omega
  have hp0 : p ≠ 0 := by omega
  have hpth : payload_to_header p = p - 8 := by
    simp only [payload_to_header, wsub, WORD_MOD]; omega
  have hga : ∀ x, get_alloc s2 x = extract_alloc (s2.mem x) := fun _ => rfl
  have hfree : free s p = (coalesce s2 (p - 8)).map Prod.fst := by
    unfold free
    rw [if_neg hp0]
    simp only [hpth, ha, hs2, not_true_eq_false, if_false]
  rw [hfree]
  unfold coalesce
  simp only [hfn, hfp, bind, Except.bind, hsz2]
  have hgan : get_alloc s2 (phys_next s p) = get_alloc s (phys_next s p) := by
    simp only [get_alloc, hmn]
  have hgap : get_alloc s2 (phys_prev s p) = get_alloc s (phys_prev s p) := by
    simp only [get_alloc, hmp]
  have hgsn : get_size s2 (phys_next s p) = get_size s (phys_next s p) := by
    simp only [get_size, hmn]
  have hgsp : get_size s2 (phys_prev s p) = get_size s (phys_prev s p) := by
    simp only [get_size, hmp]
  rw [hgan, hgap, hgsn, hgsp]
  have hblk : s2.mem (p - 8) % 2 = 0 := by
    rw [hmem, if_neg (by omega), if_pos rfl]; omega
  have hpl : get_alloc s (phys_prev s p) = false →
      get_prev_freed s2 (phys_prev s p) % 2 = 0 ∧ get_next_freed s2 (phys_prev s p) % 2 = 0 := by
    intro hf
    obtain ⟨_, h8, h16⟩ := hprev hf
    have e8 : wadd (phys_prev s p) 8 = phys_prev s p + 8 := by
      simp only [wadd, WORD_MOD]; omega
    have e16 : wadd (phys_prev s p) 16 = phys_prev s p + 16 := by
      simp only [wadd, WORD_MOD]; omega
    unfold get_prev_freed get_next_freed
    rw [e8, e16, hmem, hmem]
    constructor
    · rw [if_neg (by omega), if_neg (by omega)]; omega
    · rw [if_neg (by omega)]
      split
      · omega
      · omega
  have hnl : get_alloc s (phys_next s p) = false →
      s2.mem (wadd (phys_next s p) 8) % 2 = 0 ∧ s2.mem (wadd (phys_next s p) 16) % 2 = 0 := by
    intro hf
    obtain ⟨_, h8, h16⟩ := hnext hf
    have e8 : wadd (phys_next s p) 8 = phys_next s p + 8 := by
      simp only [wadd, WORD_MOD]; omega
    have e16 : wadd (phys_next s p) 16 = phys_next s p + 16 := by
      simp only [wadd, WORD_MOD]; omega
    rw [e8, e16, hmem, hmem]
    constructor
    · rw [if_neg (by omega), if_neg (by omega)]; omega
    · rw [if_neg (by omega), if_neg (by omega)]; omega
  cases hA : get_alloc s (phys_prev s p) <;> cases hB : get_alloc s (phys_next s p)
  · -- both neighbours free
    obtain ⟨hps, _, _⟩ := hprev hA
    obtain ⟨hns32, _, _⟩ := hnext hB
    have hz : wadd (get_size s (p - 8))
        (wadd (get_size s (phys_next s p)) (get_size s (phys_prev s p)))
        = get_size s (p - 8) + get_size s (phys_next s p) + phys_prev_size s p := by
      simp only [wadd, WORD_MOD, hps]; omega
    refine ⟨delete_free (delete_free s2 (phys_prev s p)) (phys_next s p), phys_prev s p,
      get_size s (p - 8) + get_size s (phys_next s p) + phys_prev_size s p, ?_, ?_, ?_⟩
    · simp [hz, publish, Except.map, pure, Except.pure]
    · intro i
      rcases delete_free_seg (delete_free s2 (phys_prev s p)) (phys_next s p) i with h1 | h1
      · exact Or.inl h1
      · rcases delete_free_seg s2 (phys_prev s p) i with h2 | h2
        · left; rw [h1, h2]
        · right; rw [h1, h2, hseg]
    · refine ⟨by omega, by omega, by omega, by omega, by omega, by simp only [WORD_MOD]; omega,
        Or.inr ⟨by omega, by omega⟩, Or.inr ?_⟩
      have hl := hpl hA
      have hn := hnl hB
      apply delete_free_even
      · exact delete_free_even _ _ _ hl.1 hl.2 hn.1
      · exact delete_free_even _ _ _ hl.1 hl.2 hn.2
      · exact delete_free_even _ _ _ hl.1 hl.2 hblk
  · -- only the predecessor is free
    obtain ⟨hps, _, _⟩ := hprev hA
    have hz : wadd (get_size s (p - 8)) (get_size s (phys_prev s p))
        = get_size s (p - 8) + phys_prev_size s p := by
      simp only [wadd, WORD_MOD, hps]; omega
    refine ⟨delete_free s2 (phys_prev s p), phys_prev s p,
      get_size s (p - 8) + phys_prev_size s p, ?_, ?_, ?_⟩
    · simp [hz, publish, Except.map, pure, Except.pure]
    · intro i
      rcases delete_free_seg s2 (phys_prev s p) i with h2 | h2
      · left; rw [h2]
      · right; rw [h2, hseg]
    · refine ⟨by omega, by omega, by omega, by omega, by omega, by simp only [WORD_MOD]; omega,
        Or.inl (by omega), Or.inr ?_⟩
      have hl := hpl hA
      exact delete_free_even _ _ _ hl.1 hl.2 hblk
  · -- only the successor is free
    obtain ⟨hns32, _, _⟩ := hnext hB
    have hz : wadd (get_size s (p - 8)) (get_size s (phys_next s p))
        = get_size s (p - 8) + get_size s (phys_next s p) := by
      simp only [wadd, WORD_MOD]; omega
    refine ⟨delete_free s2 (phys_next s p), p - 8,
      get_size s (p - 8) + get_size s (phys_next s p), ?_, ?_, ?_⟩
    · simp [hz, publish, Except.map, pure, Except.pure]
    · intro i
      rcases delete_free_seg s2 (phys_next s p) i with h2 | h2
      · left; rw [h2]
      · right; rw [h2, hseg]
    · exact ⟨by omega, by omega, by omega, by omega, by omega, by simp only [WORD_MOD]; omega,
        Or.inr ⟨by omega, by omega⟩, Or.inl rfl⟩
  · -- both neighbours allocated
    refine ⟨s, p - 8, get_size s (p - 8), ?_, ?_, ?_⟩
    · simp [hpub, Except.map, pure, Except.pure]
    · intro i; exact Or.inr rfl
    · exact ⟨by omega, by omega, by omega, by omega, by omega, by simp only [WORD_MOD]; omega,
        Or.inl (by omega), Or.inl rfl⟩


theorem extract_alloc_even (w : Nat) (h : w % 2 = 0) : extract_alloc w = false := by
  simp [extract_alloc, alloc_mask, h]

theorem head_after (s t : State) (p z : Nat) (h : free_ok s p)
    (hseg : ∀ i, t.seg_list i = 0 ∨ t.seg_list i = s.seg_list i) :
    t.seg_list (get_seg_size z) = 0 ∨
      (t.seg_list (get_seg_size z) % 16 = 8 ∧ t.seg_list (get_seg_size z) < WORD_MOD ∧
        (t.seg_list (get_seg_size z) ≤ p - 8 ∨ t.seg_list (get_seg_size z) = phys_next s p ∨
          phys_next s p + get_size s (phys_next s p) ≤ t.seg_list (get_seg_size z))) := by
  obtain ⟨_, _, _, _, _, _, _, _, hheads⟩ := h
  rcases hseg (get_seg_size z) with h0 | h1
  · exact Or.inl h0
  · rw [h1]; exact hheads _ (get_seg_size_lt z)

/-- C15: release is null-safe and idempotent.  `free(NULL)` returns with the
state unchanged, and in a state that is well formed around `p` (`free_ok`),
`free(p)` followed by `free(p)` gives exactly the result of a single
`free(p)`. -/
theorem C15_free_idempotent (s : State) (p : Nat) (h : free_ok s p) :
    free s 0 = .ok s ∧ (free s p).bind (fun s1 => free s1 p) = free s p := by
  refine ⟨rfl, ?_⟩
  have hp0 : p ≠ 0 := by have := h.2.1; omega
  have hpth : payload_to_header p = p - 8 := by
    have h1 := h.2.1
    have h2 := h.2.2.2.2.2.1
    have hbn : phys_next s p = p - 8 + get_size s (p - 8) := rfl
    simp only [payload_to_header, wsub, WORD_MOD] at *; omega
  have hnoop : ∀ u : State, get_alloc u (p - 8) = false → free u p = .ok u := by
    intro u hu
    unfold free
    rw [if_neg hp0]
    simp [hpth, hu, pure, Except.pure]
  cases ha : get_alloc s (p - 8)
  · rw [hnoop s ha]; exact hnoop s ha
  · obtain ⟨t, r, z, hf, hseg, hr16, hrle, hlt, hz16, hz32, hrz, hend, hpar⟩ :=
      free_shape s p h ha
    have hhead := head_after s t p z h hseg
    rw [hf]
    show free (publish t r z) p = .ok (publish t r z)
    apply hnoop
    unfold get_alloc
    apply extract_alloc_even
    rw [publish_mem t r z _ hz16 hz32 hrz]
    split_ifs with c1 c2 c3 c4 c5
    · omega
    · rfl
    · rcases hhead with h1 | ⟨h1, _, _⟩ <;> omega
    · omega
    · omega
    · rcases hpar with e | e
      · exact absurd e.symm c5
      · exact e

/-- Witness of C15: the second pointer after three `malloc(16)` and the release
of the first and third, an allocated block between two free blocks. -/
theorem C15_free_idempotent_witness :
    (free_ok (state_after [.malloc 16, .malloc 16, .malloc 16, .free 0, .free 2]) 1000064 ∧
      get_alloc (state_after [.malloc 16, .malloc 16, .malloc 16, .free 0, .free 2]) 1000056
        = true) ∧
    free (state_after [.malloc 16, .malloc 16, .malloc 16, .free 0, .free 2]) 0
      = .ok (state_after [.malloc 16, .malloc 16, .malloc 16, .free 0, .free 2]) ∧
    (free (state_after [.malloc 16, .malloc 16, .malloc 16, .free 0, .free 2]) 1000064).bind
        (fun s1 => free s1 1000064)
      = free (state_after [.malloc 16, .malloc 16, .malloc 16, .free 0, .free 2]) 1000064 :=
  ⟨⟨by decide!, by decide!⟩, C15_free_idempotent _ 1000064 (by decide!)⟩

/-- C16: in a state that is well formed around `p` (`free_ok`) where the block of
`p` is allocated, `free(p)` returns, and some block `r` that contains the
address `p - 8` is then marked free, has equal header and footer words, and is
the head of the list of the class of its size. -/
theorem C16_freed_block_listed (s : State) (p : Nat) (h : free_ok s p)
    (ha : get_alloc s (p - 8) = true) :
    ∃ s1 r, free s p = .ok s1 ∧ r ≤ p - 8 ∧ p - 8 < r + get_size s1 r ∧
      get_alloc s1 r = false ∧ s1.mem (r + get_size s1 r - 8) = s1.mem r ∧
      s1.seg_list (get_seg_size (get_size s1 r)) = r := by
  obtain ⟨t, r, z, hf, hseg, hr16, hrle, hlt, hz16, hz32, hrz, hend, _⟩ := free_shape s p h ha
  have hhead := head_after s t p z h hseg
  have hsz32 : 32 ≤ get_size s (p - 8) := h.2.2.1
  have hbn : phys_next s p = p - 8 + get_size s (p - 8) := rfl
  have hW : WORD_MOD = 18446744073709551616 := rfl
  have hmr : (publish t r z).mem r = z := by
    rw [publish_mem t r z r hz16 hz32 hrz]
    rw [if_neg, if_neg (by omega), if_neg (by omega), if_neg (by omega), if_pos rfl]
    rintro ⟨h0, e⟩
    rcases hhead with h1 | ⟨h1, h2, _⟩
    · exact h0 h1
    · simp only [wadd, WORD_MOD] at e h2; omega
  have hmf : (publish t r z).mem (r + z - 8) = z := by
    rw [publish_mem t r z _ hz16 hz32 hrz]
    rw [if_neg, if_neg (by omega), if_neg (by omega), if_pos rfl]
    rintro ⟨h0, e⟩
    rcases hhead with h1 | ⟨h1, h2, h3⟩
    · exact h0 h1
    · simp only [wadd, WORD_MOD] at e h2
      rcases hend with he | ⟨he, hn32⟩ <;> rcases h3 with h3 | h3 | h3 <;> omega
  have hgs : get_size (publish t r z) r = z := by
    unfold get_size; rw [hmr]; exact extract_size_self z (by omega) hz16
  refine ⟨publish t r z, r, hf, hrle, by rw [hgs]; exact hlt, ?_, by rw [hgs, hmf, hmr], ?_⟩
  · unfold get_alloc; rw [hmr]; exact extract_alloc_even z (by omega)
  · rw [hgs, publish_seg, if_pos rfl]

/-- Witness of C16: the second pointer after three `malloc(16)` and the release
of the first, an allocated block after a free block. -/
theorem C16_freed_block_listed_witness :
    free_ok (state_after [.malloc 16, .malloc 16, .malloc 16, .free 0]) 1000064 ∧
    get_alloc (state_after [.malloc 16, .malloc 16, .malloc 16, .free 0]) (1000064 - 8) = true ∧
    ∃ s1 r, free (state_after [.malloc 16, .malloc 16, .malloc 16, .free 0]) 1000064 = .ok s1 ∧
      r ≤ 1000064 - 8 ∧ 1000064 - 8 < r + get_size s1 r ∧
      get_alloc s1 r = false ∧ s1.mem (r + get_size s1 r - 8) = s1.mem r ∧
      s1.seg_list (get_seg_size (get_size s1 r)) = r :=
  ⟨by decide!, by decide!, C16_freed_block_listed _ 1000064 (by decide!) (by decide!)⟩

/-! ### Resize and zero-allocate -/

/-- C17: for every state and pointer, `realloc(p, 0)` returns NULL with exactly
the state that `free(p)` leaves (and faults exactly when `free(p)` does). -/
theorem C17_realloc_zero_is_free (s : State) (p fuel : Nat) :
    realloc s p 0 fuel = (free s p).map (fun s1 => (s1, 0)) := by
  unfold realloc
  cases h : free s p <;> simp [h, bind, Except.bind, Except.map, pure, Except.pure]

/-- C18 (the code breaks it): after the calls `calls_realloc` the heap is well formed,
the class-12 list is `1005080, 1000024, 1015128` with consistent links, and
the allocated block of the second pointer `1005056` has 16 payload bytes, all
zero.  `realloc(1005056, 24)` returns `1015136`, but the first payload word
there holds the list link `1005080` (first byte 24) instead of the copied
zero bytes. -/
theorem C18_realloc_copy_overwritten :
    observe (after_calls calls_realloc)
        (fun s ps => (heap_wf s 100 && get_alloc s 1005048, free_list s 10 (s.seg_list 12),
          [ps.getD 1 0, get_payload_size s 1005048, s.mem 1005056, s.mem 1005064,
           load_byte s.mem 1005056]))
      = some (true, [1005080, 1000024, 1015128], [1005056, 16, 0, 0, 0]) ∧
    observe (after_calls calls_realloc)
        (fun s _ => [get_prev_freed s 1005080, get_next_freed s 1005080,
          get_prev_freed s 1000024, get_next_freed s 1000024,
          get_prev_freed s 1015128, get_next_freed s 1015128])
      = some [0, 1000024, 1005080, 1015128, 1000024, 0] ∧
    observe (after_calls calls_realloc)
        (fun s _ => (outcome (realloc s 1005056 24 100)).1.map
          (fun r => [r.2, r.1.mem 1015136, load_byte r.1.mem 1015136]))
      = some (some [1015136, 1005080, 24]) := by
  decide!

/-- C19: a failing resize leaves the old block alone.  For a non-null `p` and
`n > 0` in an initialised state, if `find_fit` misses for the adjusted size
and the region cannot grow, `realloc(p, n)` returns NULL and the state (hence
header, footer and payload of the block of `p`) is unchanged. -/
theorem C19_realloc_failure_keeps_block (s : State) (p n fuel : Nat) (hp : p ≠ 0)
    (hinit : s.heap_start ≠ 0) (hn : n ≠ 0)
    (hmiss : find_fit s (round_up (Mm.max MIN_BLOCK_SIZE (wadd dsize n)) dsize) fuel = .ok 0)
    (hfull : s.mem_max_addr < s.mem_brk +
      round_up (Mm.max (round_up (Mm.max MIN_BLOCK_SIZE (wadd dsize n)) dsize) chunksize) dsize) :
    realloc s p n fuel = .ok (s, 0) := by
  unfold realloc
  simp only [if_neg hn, if_neg hp, (malloc_refused s n fuel hinit hn hmiss hfull).2]
  rfl

/-- Witness of C19: `realloc(1000032, 16)` in the state `full_region`, where
`1000032` is the payload of an allocated block. -/
theorem C19_realloc_failure_keeps_block_witness :
    get_alloc full_region (1000032 - 8) = true ∧
      realloc full_region 1000032 16 100 = .ok (full_region, 0) :=
  ⟨by decide!,
    C19_realloc_failure_keeps_block full_region 1000032 16 100 (by decide) (by decide!)
      (by decide) (ok_of_outcome _ _ (by decide!)) (by decide!)⟩

/-- C20: the overflow test of `calloc`.  For `elements > 0`: when the product
`elements * size` is at least `2 ^ 64`, `calloc` returns NULL with the state
unchanged (the region end included); when it is below `2 ^ 64`, the test
`asize / elements != size` is false and `calloc` goes on to
`malloc(elements * size)` and the zero fill. -/
theorem C20_calloc_overflow_test (s : State) (elements size fuel : Nat) (he : 0 < elements) :
    (WORD_MOD ≤ elements * size → calloc s elements size fuel = .ok (s, 0)) ∧
    (elements * size < WORD_MOD →
      wmul elements size / elements = size ∧
      calloc s elements size fuel =
        (malloc s (elements * size) fuel).bind (fun r =>
          if r.2 = 0 then .ok (r.1, 0)
          else .ok ({ r.1 with mem := memset r.1.mem r.2 0 (elements * size) }, r.2))) := by
  constructor
  · intro hov
    have hlt : wmul elements size / elements ≠ size := by
      unfold wmul
      have h1 : elements * size % WORD_MOD < elements * size :=
        Nat.lt_of_lt_of_le (Nat.mod_lt _ (by decide)) hov
      have h2 : elements * size % WORD_MOD / elements < size := by
        rw [Nat.div_lt_iff_lt_mul he, Nat.mul_comm size elements]
        exact h1
      omega
    unfold calloc
    simp only [if_neg (Nat.pos_iff_ne_zero.mp he), if_pos hlt]
    rfl
  · intro hno
    have hw : wmul elements size = elements * size := by
      unfold wmul; exact Nat.mod_eq_of_lt hno
    have hdiv : wmul elements size / elements = size := by
      rw [hw]; exact Nat.mul_div_cancel_left size he
    refine ⟨hdiv, ?_⟩
    have hdiv2 : elements * size / elements = size := by rw [← hw]; exact hdiv
    unfold calloc
    rw [hw]
    cases h : malloc s (elements * size) fuel with
    | error e => simp [Nat.pos_iff_ne_zero.mp he, hdiv2, bind, Except.bind, h]
    | ok r =>
      obtain ⟨s1, bp⟩ := r
      by_cases hb : bp = 0 <;>
        simp [Nat.pos_iff_ne_zero.mp he, hdiv2, bind, Except.bind, pure, Except.pure, hb, h]

/-- Witness of C20: `calloc(4, SIZE_MAX)` in the state before `mm_init`. -/
theorem C20_calloc_overflow_test_witness :
    WORD_MOD ≤ 4 * 18446744073709551615 ∧
      calloc (fresh 1000000 20971520) 4 18446744073709551615 100
        = .ok (fresh 1000000 20971520, 0) :=
  ⟨by decide,
    (C20_calloc_overflow_test (fresh 1000000 20971520) 4 18446744073709551615 100
      (by decide)).1 (by decide)⟩

/-! ### Zero-allocate: zero count and zero fill -/

/-- C21 (the code breaks it): `calloc(0, size)` does not return NULL.  The overflow
test `asize / elements != size` is evaluated with `elements = 0`, so for every
state and every size the call faults on the division; and `malloc(0)`, to
which the call should be equivalent, faults as well in the state before
`mm_init` (through the assertion on `mm_checkheap`). -/
theorem C21_calloc_zero_count_faults (s : State) (size fuel : Nat) :
    calloc s 0 size fuel = .error .div_by_zero ∧
    (outcome (malloc (fresh 1000000 20971520) 0 100)).2 = some .null_deref := by
  constructor
  · rfl
  · decide!

/-- Storing a zero byte into a word that holds zero leaves zero. -/
theorem store_byte_zero (m : Memory) (x a : Nat) (h : m a = 0) : store_byte m x 0 a = 0 := by
  unfold store_byte
  simp only [store_apply]
  split_ifs with c
  · rw [← c, h]; simp
  · exact h

/-- Clearing byte `j` of a word whose `j` low bytes are clear gives the word
with its `j + 1` low bytes clear. -/
theorem zero_byte (w j : Nat) (hj : j < 8) :
    (w - w % 256 ^ j) - (w - w % 256 ^ j) / 256 ^ j % 256 * 256 ^ j + 0 % 256 * 256 ^ j
      = w - w % 256 ^ (j + 1) := by
  interval_cases j <;> norm_num <;> omega

/-- After `k` bytes of a zero fill from `dst`, the bytes of the aligned word
at `a ≥ dst` that the fill has reached are clear, the others are as before. -/
theorem memset_zero_upto (m : Memory) (dst a : Nat) (ha : a % 8 = 0) (h1 : dst ≤ a)
    (hw : a + 8 ≤ WORD_MOD) (hm : m a < WORD_MOD) (k : Nat) :
    memset m dst 0 k a = m a - m a % 256 ^ (min 8 (k - (a - dst))) := by
  simp only [WORD_MOD] at hw hm
  induction k with
  | zero => simp [memset, Nat.mod_one]
  | succ k ih =>
    show store_byte (memset m dst 0 k) (wadd dst k) 0 a = _
    by_cases c1 : k < a - dst
    · have e1 : min 8 (k + 1 - (a - dst)) = 0 := by omega
      have e0 : min 8 (k - (a - dst)) = 0 := by omega
      rw [e1]; rw [e0] at ih
      have hx : wadd dst k = dst + k := by simp only [wadd, WORD_MOD]; omega
      unfold store_byte
      simp only [store_apply]
      rw [if_neg (by rw [hx]; omega), ih]
    · by_cases c2 : k < a - dst + 8
      · have hx : wadd dst k = a + (k - (a - dst)) := by simp only [wadd, WORD_MOD]; omega
        have e1 : min 8 (k + 1 - (a - dst)) = (k - (a - dst)) + 1 := by omega
        have e0 : min 8 (k - (a - dst)) = k - (a - dst) := by omega
        rw [e1]; rw [e0] at ih
        generalize k - (a - dst) = j at *
        have hj : j < 8 := by omega
        have hmod : (a + j) % 8 = j := by omega
        have hword : a + j - (a + j) % 8 = a := by omega
        rw [hx]
        unfold store_byte
        rw [hword, hmod]
        simp only [store_apply, if_true]
        rw [ih]
        exact zero_byte (m a) j hj
      · have e1 : min 8 (k + 1 - (a - dst)) = 8 := by omega
        have e0 : min 8 (k - (a - dst)) = 8 := by omega
        rw [e1]; rw [e0] at ih
        have hz : m a - m a % 256 ^ 8 = 0 := by norm_num; omega
        rw [hz] at ih ⊢
        exact store_byte_zero _ _ _ ih

/-- A word that lies inside the filled area holds zero after `memset` with 0. -/
theorem memset_zero_word (m : Memory) (dst n a : Nat) (ha : a % 8 = 0) (h1 : dst ≤ a)
    (h2 : a + 8 ≤ dst + n) (hw : a + 8 ≤ WORD_MOD) (hm : m a < WORD_MOD) :
    memset m dst 0 n a = 0 := by
  rw [memset_zero_upto m dst a ha h1 hw hm n]
  have e : min 8 (n - (a - dst)) = 8 := by omega
  rw [e]
  simp only [WORD_MOD] at hm
  norm_num; omega

/-- C22 (the code breaks it): `elements = 1` and `size = 2 ^ 64 - 1` have the
product `2 ^ 64 - 1`, below `2 ^ 64`, and the overflow test of `calloc`
(`asize / elements != size`) does not reject it.  In the state after `mm_init`,
`malloc` of that product returns `1000032`, the payload of a block of 32
bytes: 16 bytes of payload, the footer word 33 at `1000048`, then the header
8160 of the next block at `1000056`; the region ends at `1008224` and can grow
to `21971520` at most.  `calloc` passes that pointer and the length
`2 ^ 64 - 1` to `memset`: the length exceeds the 16 bytes of the payload, and
`1000032 + (2 ^ 64 - 1)` lies beyond every address the region can reach, so
the payload cannot hold `elements * size` zero bytes and the fill leaves the
block and the region. -/
theorem C22_calloc_overruns_block :
    (wmul 1 18446744073709551615 = 18446744073709551615 ∧
      wmul 1 18446744073709551615 / 1 = 18446744073709551615) ∧
    observe (after_calls [])
        (fun s _ => (outcome (malloc s (wmul 1 18446744073709551615) 100)).1.map
          (fun r => ([r.2, get_size r.1 1000024, get_payload_size r.1 1000024,
            r.1.mem 1000048, r.1.mem 1000056, r.1.mem_brk, r.1.mem_max_addr],
            decide (r.2 + wmul 1 18446744073709551615 ≤ r.1.mem_max_addr))))
      = some (some ([1000032, 32, 16, 33, 8160, 1008224, 21971520], false)) := by
  refine ⟨⟨by decide, by decide⟩, by decide!⟩

/-! ### Shared lemmas on lists, block tags and `coalesce` -/

/-- The list read from `x` is the same in two states that agree on the `next`
field of every block of the list. -/
theorem free_list_frame (s t : State) (fuel x : Nat)
    (h : ∀ y ∈ free_list s fuel x, t.mem (wadd y 16) = s.mem (wadd y 16)) :
    free_list t fuel x = free_list s fuel x := by
  induction fuel generalizing x with
  | zero => rfl
  | succ k ih =>
    unfold free_list at h ⊢
    by_cases hx : x = 0
    · simp [hx]
    · simp only [hx, if_false] at h ⊢
      have h1 : get_next_freed t x = get_next_freed s x := h x (List.mem_cons_self _ _)
      rw [h1, ih]
      intro y hy
      exact h y (List.mem_cons_of_mem _ hy)

/-- No block of a list read by `free_list` is NULL. -/
theorem free_list_ne_zero (s : State) (fuel x y : Nat) (h : y ∈ free_list s fuel x) : y ≠ 0 := by
  induction fuel generalizing x with
  | zero => simp [free_list] at h
  | succ k ih =>
    unfold free_list at h
    by_cases hx : x = 0
    · simp [hx] at h
    · simp only [hx, if_false, List.mem_cons] at h
      rcases h with e | e
      · rw [e]; exact hx
      · exact ih _ e

/-- Whether the walk from `x` ends is the same in two states that agree on the
`next` field of every block of the list. -/
theorem list_ends_frame (s t : State) (fuel x : Nat)
    (h : ∀ y ∈ free_list s fuel x, t.mem (wadd y 16) = s.mem (wadd y 16)) :
    list_ends t fuel x = list_ends s fuel x := by
  induction fuel generalizing x with
  | zero => unfold list_ends; rfl
  | succ k ih =>
    unfold free_list at h
    unfold list_ends
    by_cases hx : x = 0
    · simp [hx]
    · simp only [hx, if_false] at h ⊢
      have h1 : get_next_freed t x = get_next_freed s x := h x (List.mem_cons_self _ _)
      rw [h1, ih]
      intro y hy
      exact h y (List.mem_cons_of_mem _ hy)

/-- A property of all blocks of a list that ends holds of its head, unless the head is NULL. -/
theorem head_of_list (s : State) (fuel x : Nat) (P : Nat → Prop)
    (he : list_ends s fuel x = true) (h : ∀ y ∈ free_list s fuel x, P y) : x = 0 ∨ P x := by
  by_cases hx : x = 0
  · exact Or.inl hx
  · right
    cases fuel with
    | zero => unfold list_ends at he; simp [hx] at he
    | succ k =>
      apply h
      unfold free_list
      simp [hx]

/-- Heads after `add_free`: only the head of the class of `size` changes. -/
theorem add_free_seg (s : State) (b size i : Nat) :
    (add_free s b size).seg_list i = if i = get_seg_size size then b else s.seg_list i := by
  unfold add_free
  simp only []
  split <;> rfl

/-- Memory after `add_free`: the `prev` link of the old head, then the two
links of the inserted block. -/
theorem add_free_mem (s : State) (b size x : Nat) :
    (add_free s b size).mem x =
      if s.seg_list (get_seg_size size) ≠ 0 ∧ x = wadd (s.seg_list (get_seg_size size)) 8 then b
      else if x = wadd b 8 then 0
      else if x = wadd b 16 then s.seg_list (get_seg_size size)
      else s.mem x := by
  unfold add_free
  by_cases hd : s.seg_list (get_seg_size size) = 0
  · simp [State.write, State.set_seg, set_prev, set_next, store_apply, hd]
  · simp [State.write, State.set_seg, set_prev, set_next, store_apply, hd]

/-- Memory after `write_header` and `write_footer` of a block of size `z`:
the footer lands on the last word of the block. -/
theorem write_block_mem (t : State) (b z : Nat) (a : Bool) (x : Nat) (hz : z % 16 = 0)
    (hz16 : 16 ≤ z) (hbz : b + z < WORD_MOD) :
    (write_footer (write_header t b z a) b z a).mem x =
      if x = b + z - 8 then pack z a else if x = b then pack z a else t.mem x := by
  simp only [WORD_MOD] at hbz
  have hp : extract_size (pack z a) = z := by
    cases a
    · exact extract_size_self z (by simp only [WORD_MOD]; omega) hz
    · rw [pack_true z hz, extract_size_eq]; omega
  have hgs : get_size (write_header t b z a) b = z := by
    simp only [get_size, write_header, State.write, store_apply, if_true]
    exact hp
  have hF : wsub (wadd (wadd b 8) z) dsize = b + z - 8 := by
    simp only [wsub, wadd, dsize, wsize, WORD_MOD]; omega
  unfold write_footer
  rw [hgs, hF]
  simp only [write_header, State.write, store_apply]

/-- Writing header and footer leaves the heads alone. -/
theorem write_block_seg (t : State) (b z : Nat) (a : Bool) :
    (write_footer (write_header t b z a) b z a).seg_list = t.seg_list := rfl

/-- Rewriting header and footer of a block that is already marked free with
that size changes nothing. -/
theorem write_same (s : State) (b z : Nat) (hz : z % 16 = 0) (hz16 : 16 ≤ z)
    (hbz : b + z < WORD_MOD) (h1 : s.mem b = z) (h2 : s.mem (b + z - 8) = z) :
    write_footer (write_header s b z false) b z false = s := by
  have hm : (write_footer (write_header s b z false) b z false).mem = s.mem := by
    funext x
    rw [write_block_mem s b z false x hz hz16 hbz]
    have hpk : pack z false = z := rfl
    rw [hpk]
    split_ifs with c1 c2
    · rw [c1, h2]
    · rw [c2, h1]
    · rfl
  have he : write_footer (write_header s b z false) b z false
      = { s with mem := (write_footer (write_header s b z false) b z false).mem } := rfl
  rw [he, hm]

/-- A word that is neither the `prev` field of the removed block's successor
nor the `next` field of its predecessor is unchanged by `delete_free`. -/
theorem delete_free_mem (s : State) (r x : Nat)
    (h : get_prev_freed s r ≠ 0 → get_next_freed s r ≠ 0 →
      x ≠ wadd (get_next_freed s r) 8 ∧ x ≠ wadd (get_prev_freed s r) 16) :
    (delete_free s r).mem x = s.mem x := by
  rw [delete_free_eq]
  split
  · rfl
  · rename_i hc
    have h1 : get_prev_freed s r ≠ 0 := fun e => hc (Or.inl e)
    have h2 : get_next_freed s r ≠ 0 := fun e => hc (Or.inr e)
    obtain ⟨ha, hb⟩ := h h1 h2
    simp only [set_next, set_prev, State.write, store_apply, if_neg ha, if_neg hb]

/-- The final steps of `coalesce` change neither the region end nor `heap_start`. -/
theorem publish_brk (t : State) (r z : Nat) :
    (publish t r z).mem_brk = t.mem_brk ∧ (publish t r z).heap_start = t.heap_start := by
  unfold publish add_free
  simp only []
  split <;> exact ⟨rfl, rfl⟩

/-- Removing a block changes neither the region end nor `heap_start`. -/
theorem delete_free_brk (s : State) (r : Nat) :
    (delete_free s r).mem_brk = s.mem_brk ∧ (delete_free s r).heap_start = s.heap_start := by
  rw [delete_free_eq]
  split <;> exact ⟨rfl, rfl⟩

/-- The four cases of `coalesce` on a free-marked block in a state that is
well formed around it. -/
theorem coalesce_shape (s : State) (b : Nat) (h : coalesce_ok s b) :
    (get_alloc s (phys_prev s (b + 8)) = true → get_alloc s (phys_next s (b + 8)) = true →
      coalesce s b = .ok (publish s b (get_size s b), b)) ∧
    (get_alloc s (phys_prev s (b + 8)) = true → get_alloc s (phys_next s (b + 8)) = false →
      coalesce s b = .ok (publish (delete_free s (phys_next s (b + 8))) b
        (get_size s b + get_size s (phys_next s (b + 8))), b)) ∧
    (get_alloc s (phys_prev s (b + 8)) = false → get_alloc s (phys_next s (b + 8)) = true →
      coalesce s b = .ok (publish (delete_free s (phys_prev s (b + 8))) (phys_prev s (b + 8))
        (get_size s (phys_prev s (b + 8)) + get_size s b), phys_prev s (b + 8))) ∧
    (get_alloc s (phys_prev s (b + 8)) = false → get_alloc s (phys_next s (b + 8)) = false →
      coalesce s b = .ok (publish
        (delete_free (delete_free s (phys_prev s (b + 8))) (phys_next s (b + 8)))
        (phys_prev s (b + 8))
        (get_size s (phys_prev s (b + 8)) + get_size s b + get_size s (phys_next s (b + 8))),
        phys_prev s (b + 8))) := by
  obtain ⟨⟨hp16, hp, hsz32, hps0, hpsle, hnw, hnext, hprev, _⟩, hhd, hft⟩ := h
  have e88 : b + 8 - 8 = b := by omega
  have e816 : b + 8 - 16 = b - 8 := by omega
  rw [e88] at hsz32
  have hbn : phys_next s (b + 8) = b + get_size s b := by unfold phys_next; rw [e88]
  have hpsz : phys_prev_size s (b + 8) = extract_size (s.mem (b - 8)) := by
    unfold phys_prev_size; rw [e816]
  have hbp : phys_prev s (b + 8) = b - phys_prev_size s (b + 8) := by
    unfold phys_prev; rw [e88]
  have hszm : get_size s b % 16 = 0 := extract_size_mod _
  have hnsm : get_size s (phys_next s (b + 8)) % 16 = 0 := extract_size_mod _
  have hpsm : phys_prev_size s (b + 8) % 16 = 0 := extract_size_mod _
  simp only [MIN_BLOCK_SIZE, dsize, wsize, WORD_MOD] at hsz32 hnw hnext
  rw [e88] at hpsle
  have hfn : find_next s b = .ok (phys_next s (b + 8)) := by
    unfold find_next
    rw [if_neg (by omega)]
    have : wadd b (get_size s b) = phys_next s (b + 8) := by
      simp only [wadd, WORD_MOD, hbn]; omega
    simp only [this]
    rw [if_neg (by omega)]
  have hfp : find_prev s b = phys_prev s (b + 8) := by
    unfold find_prev find_prev_footer
    have h16 : wsub b 8 = b - 8 := by simp only [wsub, WORD_MOD]; omega
    rw [h16, ← hpsz]
    simp only [wsub, WORD_MOD, hbp]; omega
  have hsame : write_footer (write_header s b (get_size s b) false) b (get_size s b) false = s :=
    write_same s b (get_size s b) hszm (by omega) (by simp only [WORD_MOD]; omega) hhd hft
  have hpubA : add_free s b (get_size s b) = publish s b (get_size s b) := by
    unfold publish; rw [hsame]
  refine ⟨?_, ?_, ?_, ?_⟩
  · intro hA hB
    unfold coalesce
    simp [hfn, hfp, bind, Except.bind, hA, hB, hpubA, pure, Except.pure]
  · intro hA hB
    obtain ⟨hns32, _, _⟩ := hnext hB
    have hz : wadd (get_size s b) (get_size s (phys_next s (b + 8)))
        = get_size s b + get_size s (phys_next s (b + 8)) := by
      simp only [wadd, WORD_MOD]; omega
    unfold coalesce
    simp [hfn, hfp, bind, Except.bind, hA, hB, hz, publish, pure, Except.pure]
  · intro hA hB
    obtain ⟨hps, _, _⟩ := hprev hA
    have hz : wadd (get_size s b) (get_size s (phys_prev s (b + 8)))
        = get_size s (phys_prev s (b + 8)) + get_size s b := by
      simp only [wadd, WORD_MOD, hps]; omega
    unfold coalesce
    simp [hfn, hfp, bind, Except.bind, hA, hB, hz, publish, pure, Except.pure]
  · intro hA hB
    obtain ⟨hps, _, _⟩ := hprev hA
    obtain ⟨hns32, _, _⟩ := hnext hB
    have hz : wadd (get_size s b)
        (wadd (get_size s (phys_next s (b + 8))) (get_size s (phys_prev s (b + 8))))
        = get_size s (phys_prev s (b + 8)) + get_size s b + get_size s (phys_next s (b + 8)) := by
      simp only [wadd, WORD_MOD, hps]; omega
    unfold coalesce
    simp [hfn, hfp, bind, Except.bind, hA, hB, hz, publish, pure, Except.pure]

/-- Header and footer of a block published over a state whose heads are NULL
or heads of `s`, when the block ends where `b` or its free successor ends. -/
theorem publish_tags (s t : State) (b r z : Nat) (h : free_ok s (b + 8))
    (hseg : ∀ i, t.seg_list i = 0 ∨ t.seg_list i = s.seg_list i)
    (hr : r % 16 = 8) (hz : z % 16 = 0) (hz32 : 32 ≤ z) (hrz : r + z < WORD_MOD)
    (hend : r + z = phys_next s (b + 8) ∨
      (r + z = phys_next s (b + 8) + get_size s (phys_next s (b + 8)) ∧
        32 ≤ get_size s (phys_next s (b + 8)))) :
    (publish t r z).mem r = pack z false ∧ (publish t r z).mem (r + z - 8) = pack z false := by
  have hhead := head_after s t (b + 8) z h hseg
  have hsz32 : 32 ≤ get_size s (b + 8 - 8) := h.2.2.1
  have e88 : b + 8 - 8 = b := by omega
  rw [e88] at hhead hsz32
  have hbn : phys_next s (b + 8) = b + get_size s b := by unfold phys_next; rw [e88]
  have hW : WORD_MOD = 18446744073709551616 := rfl
  have hpk : pack z false = z := rfl
  rw [hpk]
  constructor
  · rw [publish_mem t r z r hz hz32 hrz]
    rw [if_neg, if_neg (by omega), if_neg (by omega), if_neg (by omega), if_pos rfl]
    rintro ⟨h0, e⟩
    rcases hhead with h1 | ⟨h1, h2, _⟩
    · exact h0 h1
    · simp only [wadd, WORD_MOD] at e h2; omega
  · rw [publish_mem t r z _ hz hz32 hrz]
    rw [if_neg, if_neg (by omega), if_neg (by omega), if_pos rfl]
    rintro ⟨h0, e⟩
    rcases hhead with h1 | ⟨h1, h2, h3⟩
    · exact h0 h1
    · simp only [wadd, WORD_MOD] at e h2
      rcases hend with he | ⟨he, hn32⟩ <;> rcases h3 with h3 | h3 | h3 <;> omega

/-! ### Sentinels and region growth -/

/-- The source's `round_up` to `dsize` gives a multiple of 16. -/
theorem round_up_mod (size : Nat) : round_up size dsize % 16 = 0 := by
  simp only [round_up, wmul, wadd, wsub, dsize, wsize, WORD_MOD]
  omega

/-- The inner list search of `extend_heap` changes nothing when the list ends without meeting `block`. -/
theorem extend_scan_miss (s : State) (block fuel x : Nat) (he : list_ends s fuel x = true)
    (h : ∀ y ∈ free_list s fuel x, y ≠ block) : extend_scan s block fuel x = .ok s := by
  induction fuel generalizing x with
  | zero =>
    unfold list_ends at he
    unfold extend_scan
    by_cases hx : x = 0
    · simp [hx]
    · simp [hx] at he
  | succ k ih =>
    unfold list_ends at he
    unfold free_list at h
    unfold extend_scan
    by_cases hx : x = 0
    · simp [hx]
    · simp only [hx, if_false] at he h ⊢
      have hne : x ≠ block := h x (List.mem_cons_self _ _)
      simp only [hne, if_false]
      exact ih _ he (fun y hy => h y (List.mem_cons_of_mem _ hy))

/-- The list search of `extend_heap` changes nothing when no list holds `block`. -/
theorem extend_lists_miss (s : State) (block fuel : Nat)
    (h : ∀ i, i < seg_size → list_ends s fuel (s.seg_list i) = true ∧
      ∀ y ∈ free_list s fuel (s.seg_list i), y ≠ block) (k index : Nat) :
    extend_lists block fuel k index s = .ok s := by
  induction k generalizing index with
  | zero => rfl
  | succ k ih =>
    unfold extend_lists
    by_cases hi : index < seg_size
    · rw [if_pos hi, extend_scan_miss s block fuel _ (h _ hi).1 (h _ hi).2]
      exact ih _
    · rw [if_neg hi]

/-- Memory of the grown state: new epilogue footer and header, footer and
header of the new free block, and the old contents elsewhere. -/
theorem grown_mem (s : State) (size x : Nat) (hb : 8 ≤ s.mem_brk)
    (h32 : 32 ≤ round_up size dsize) (hw : s.mem_brk + round_up size dsize + 16 < WORD_MOD) :
    (grown s size).mem x =
      if x = s.mem_brk + round_up size dsize then 17
      else if x = s.mem_brk + round_up size dsize - 8 then 17
      else if x = s.mem_brk + round_up size dsize - 16 then round_up size dsize
      else if x = s.mem_brk - 8 then round_up size dsize
      else s.mem x := by
  have hm := round_up_mod size
  simp only [WORD_MOD] at hw
  have hs1 : (mem_sbrk s (round_up size dsize)).1.mem = s.mem := by
    unfold mem_sbrk; split <;> rfl
  unfold grown
  simp only []
  generalize round_up size dsize = sz at *
  have hd : dsize = 16 := rfl
  rw [hd]
  rw [write_block_mem _ _ 16 true x (by omega) (by omega) (by simp only [WORD_MOD]; omega)]
  rw [write_block_mem _ _ sz false x hm (by omega) (by simp only [WORD_MOD]; omega)]
  have e1 : s.mem_brk - 8 + sz + 16 - 8 = s.mem_brk + sz := by omega
  have e2 : s.mem_brk - 8 + sz = s.mem_brk + sz - 8 := by omega
  have e3 : s.mem_brk + sz - 8 - 8 = s.mem_brk + sz - 16 := by omega
  have hp : pack 16 true = 17 := by decide
  have hp2 : pack sz false = sz := rfl
  rw [e1, e2, e3, hp, hp2, hs1]

/-- Growing the region leaves the heads alone. -/
theorem grown_seg (s : State) (size : Nat) : (grown s size).seg_list = s.seg_list := by
  unfold grown mem_sbrk
  simp only []
  split <;> rfl

/-- Growing the region leaves `heap_start` alone. -/
theorem grown_heap_start (s : State) (size : Nat) : (grown s size).heap_start = s.heap_start := by
  unfold grown mem_sbrk
  simp only []
  split <;> rfl

/-- Region end of the grown state, when `mem_sbrk` succeeds. -/
theorem grown_brk (s : State) (size : Nat)
    (h : s.mem_brk + round_up size dsize ≤ s.mem_max_addr) :
    (grown s size).mem_brk = s.mem_brk + round_up size dsize := by
  unfold grown mem_sbrk
  simp only [if_pos h]
  rfl

/-- The two cases of a successful `extend_heap` in a state that is well formed
at the end of the region: the grown state is well formed around the new block,
which is published alone after an allocated last block and merged into a free
last block. -/
theorem extend_shape (s : State) (size fuel : Nat) (h : extend_ok s size fuel) :
    coalesce_ok (grown s size) (s.mem_brk - 8) ∧
    phys_prev (grown s size) (s.mem_brk - 8 + 8) = last_block s ∧
    get_alloc (grown s size) (last_block s) = get_alloc s (last_block s) ∧
    (get_alloc s (last_block s) = true →
      extend_heap s size fuel
        = .ok (publish (grown s size) (s.mem_brk - 8) (round_up size dsize), s.mem_brk - 8)) ∧
    (get_alloc s (last_block s) = false →
      extend_heap s size fuel
        = .ok (publish (delete_free (grown s size) (last_block s)) (last_block s)
            (last_size s + round_up size dsize), last_block s)) := by
  obtain ⟨hB16, hH16, hH, hHB, hsz32, hroom, hW, hps0, hpsle, hprev, hlists⟩ := h
  have hm := round_up_mod size
  have hpsm : last_size s % 16 = 0 := extract_size_mod _
  simp only [MIN_BLOCK_SIZE, dsize, wsize] at hsz32
  have hsz32b : 32 ≤ round_up size dsize := hsz32
  have hWd : s.mem_brk + round_up size dsize + 16 < WORD_MOD := hW
  simp only [WORD_MOD] at hW
  have hgm := fun x => grown_mem s size x (by omega) hsz32b hWd
  have hlb : last_block s = s.mem_brk - 8 - last_size s := rfl
  have e88 : s.mem_brk - 8 + 8 = s.mem_brk := by omega
  -- accessors of the grown state
  have hgsb : get_size (grown s size) (s.mem_brk - 8) = round_up size dsize := by
    unfold get_size
    rw [hgm, if_neg (by omega), if_neg (by omega), if_neg (by omega), if_pos rfl]
    exact extract_size_self _ (by simp only [WORD_MOD]; omega) hm
  have hpn : phys_next (grown s size) (s.mem_brk - 8 + 8)
      = s.mem_brk + round_up size dsize - 8 := by
    unfold phys_next
    rw [e88, hgsb]; omega
  have hps : phys_prev_size (grown s size) (s.mem_brk - 8 + 8) = last_size s := by
    unfold phys_prev_size last_size
    rw [e88, hgm, if_neg (by omega), if_neg (by omega), if_neg (by omega), if_neg (by omega)]
  have hpp : phys_prev (grown s size) (s.mem_brk - 8 + 8) = last_block s := by
    unfold phys_prev
    rw [hps, e88]
    rfl
  have hold : ∀ x, x + 16 ≤ s.mem_brk → (grown s size).mem x = s.mem x := by
    intro x hx
    rw [hgm, if_neg (by omega), if_neg (by omega), if_neg (by omega), if_neg (by omega)]
  have hgap : get_alloc (grown s size) (last_block s) = get_alloc s (last_block s) := by
    unfold get_alloc
    rw [hold _ (by omega)]
  have hgan : get_alloc (grown s size) (s.mem_brk + round_up size dsize - 8) = true := by
    unfold get_alloc
    rw [hgm, if_neg (by omega), if_pos rfl]
    decide
  have hgsn : get_size (grown s size) (s.mem_brk + round_up size dsize - 8) = 16 := by
    unfold get_size
    rw [hgm, if_neg (by omega), if_pos rfl]
    decide
  have hins : ∀ y, inside s y → y = 0 ∨ (y % 16 = 8 ∧ s.heap_start ≤ y ∧ y + 40 ≤ s.mem_brk) :=
    fun _ hy => hy
  have hok : coalesce_ok (grown s size) (s.mem_brk - 8) := by
    refine ⟨⟨by omega, by omega, ?_, ?_, ?_, ?_, ?_, ?_, ?_⟩, ?_, ?_⟩
    · rw [e88, hgsb]; exact hsz32
    · rw [hps]; exact hps0
    · rw [hps, e88]; omega
    · rw [hpn, hgsn]; simp only [WORD_MOD]; omega
    · intro hf
      rw [hpn, hgan] at hf
      exact absurd hf (by decide)
    · intro hf
      rw [hpp, hgap] at hf
      obtain ⟨h1, h2, h3, h4, h5⟩ := hprev hf
      simp only [MIN_BLOCK_SIZE, dsize, wsize] at h3
      rw [hpp, hps]
      refine ⟨?_, ?_, ?_⟩
      · unfold get_size; rw [hold _ (by omega)]; exact h2
      · rw [hold _ (by omega)]
        rcases hins _ h4 with e | ⟨e, _, _⟩ <;> omega
      · rw [hold _ (by omega)]
        rcases hins _ h5 with e | ⟨e, _, _⟩ <;> omega
    · intro i hi
      rw [grown_seg]
      rcases head_of_list s fuel _ (fun y => y % 16 = 8 ∧ s.heap_start ≤ y ∧ y + 40 ≤ s.mem_brk)
        (hlists i hi).1 (fun y hy => by
          rcases hins y ((hlists i hi).2 y hy) with e | e
          · exact absurd e (free_list_ne_zero s fuel _ y hy)
          · exact e) with e | ⟨e1, e2, e3⟩
      · exact Or.inl e
      · right
        rw [e88]
        exact ⟨e1, by simp only [WORD_MOD]; omega, Or.inl (by omega)⟩
    · rw [hgsb, hgm, if_neg (by omega), if_neg (by omega), if_neg (by omega), if_pos rfl]
      rfl
    · rw [hgsb, hgm, if_neg (by omega), if_neg (by omega), if_pos (by omega)]
      rfl
  have hmiss : extend_lists (s.mem_brk - 8) fuel seg_size 0 (grown s size)
      = .ok (grown s size) := by
    apply extend_lists_miss
    intro i hi
    rw [grown_seg]
    have hfr : ∀ y ∈ free_list s fuel (s.seg_list i),
        (grown s size).mem (wadd y 16) = s.mem (wadd y 16) := by
      intro y hy
      rcases hins y ((hlists i hi).2 y hy) with e | ⟨e1, e2, e3⟩
      · exact absurd e (free_list_ne_zero s fuel _ y hy)
      · have : wadd y 16 = y + 16 := by simp only [wadd, WORD_MOD]; omega
        rw [this, hold _ (by omega)]
    rw [list_ends_frame s (grown s size) fuel _ hfr, free_list_frame s _ fuel _ hfr]
    refine ⟨(hlists i hi).1, fun y hy => ?_⟩
    rcases hins y ((hlists i hi).2 y hy) with e | ⟨e1, e2, e3⟩
    · exact absurd e (free_list_ne_zero s fuel _ y hy)
    · omega
  have hsb : mem_sbrk s (round_up size dsize)
      = ({ s with mem_brk := s.mem_brk + round_up size dsize }, s.mem_brk) := by
    unfold mem_sbrk; rw [if_pos hroom]
  have hnf : s.mem_brk ≠ SBRK_FAILED := by simp only [SBRK_FAILED, WORD_MOD]; omega
  have hpth : payload_to_header s.mem_brk = s.mem_brk - 8 := by
    simp only [payload_to_header, wsub, WORD_MOD]; omega
  have hg : grown s size = write_footer (write_header (write_footer (write_header
      { s with mem_brk := s.mem_brk + round_up size dsize } (s.mem_brk - 8)
        (round_up size dsize) false) (s.mem_brk - 8) (round_up size dsize) false)
      (s.mem_brk - 8 + round_up size dsize) dsize true)
      (s.mem_brk - 8 + round_up size dsize) dsize true := by
    unfold grown
    simp only [hsb]
  have hfn : find_next (write_footer (write_header
      { s with mem_brk := s.mem_brk + round_up size dsize } (s.mem_brk - 8)
        (round_up size dsize) false) (s.mem_brk - 8) (round_up size dsize) false)
      (s.mem_brk - 8) = .ok (s.mem_brk - 8 + round_up size dsize) := by
    unfold find_next
    rw [if_neg (by omega)]
    have hgs : get_size (write_footer (write_header
        { s with mem_brk := s.mem_brk + round_up size dsize } (s.mem_brk - 8)
          (round_up size dsize) false) (s.mem_brk - 8) (round_up size dsize) false)
        (s.mem_brk - 8) = round_up size dsize := by
      unfold get_size
      rw [write_block_mem _ _ _ false _ hm (by omega) (by simp only [WORD_MOD]; omega),
        if_neg (by omega), if_pos rfl]
      show extract_size (round_up size dsize) = _
      exact extract_size_self _ (by simp only [WORD_MOD]; omega) hm
    rw [hgs]
    have : wadd (s.mem_brk - 8) (round_up size dsize) = s.mem_brk - 8 + round_up size dsize := by
      simp only [wadd, WORD_MOD]; omega
    simp only [this]
    rw [if_neg (by omega)]
  have hext : extend_heap s size fuel = coalesce (grown s size) (s.mem_brk - 8) := by
    unfold extend_heap
    simp only [hsb]
    rw [if_neg hnf, hpth, hfn]
    show (extend_lists (s.mem_brk - 8) fuel seg_size 0 _ >>= fun s1 => coalesce s1 (s.mem_brk - 8)) = _
    rw [← hg, hmiss]
    rfl
  obtain ⟨hAA, _, hFA, _⟩ := coalesce_shape (grown s size) (s.mem_brk - 8) hok
  rw [hpp, hpn, hgap, hgan, hgsb] at hAA hFA
  refine ⟨hok, hpp, hgap, ?_, ?_⟩
  · intro hA
    rw [hext]
    exact hAA hA rfl
  · intro hA
    rw [hext, hFA hA rfl]
    have : get_size (grown s size) (last_block s) = last_size s := by
      unfold get_size
      rw [hold _ (by omega)]
      exact (hprev hA).2.1
    rw [this]

/-- What a successful `extend_heap` leaves at the two ends of the heap: the two
words before `heap_start` are unchanged and the last word of the region is
`pack(dsize, true)`. -/
theorem extend_ends (s : State) (size fuel : Nat) (h : extend_ok s size fuel) :
    ∃ s1 r, extend_heap s size fuel = .ok (s1, r) ∧ r ≠ 0 ∧
      s1.heap_start = s.heap_start ∧ s1.mem_brk = s.mem_brk + round_up size dsize ∧
      s1.mem (s.heap_start - 16) = s.mem (s.heap_start - 16) ∧
      s1.mem (s.heap_start - 8) = s.mem (s.heap_start - 8) ∧
      s1.mem (s1.mem_brk - 8) = pack dsize true := by
  obtain ⟨hok, hpp, hgap, hA, hF⟩ := extend_shape s size fuel h
  obtain ⟨hB16, hH16, hH, hHB, hsz32, hroom, hW, hps0, hpsle, hprev, hlists⟩ := h
  have hm := round_up_mod size
  have hpsm : last_size s % 16 = 0 := extract_size_mod _
  have hsz32b : 32 ≤ round_up size dsize := hsz32
  have hWd : s.mem_brk + round_up size dsize + 16 < WORD_MOD := hW
  simp only [WORD_MOD] at hW
  have hgm := fun x => grown_mem s size x (by omega) hsz32b hWd
  have hlb : last_block s = s.mem_brk - 8 - last_size s := rfl
  have hpk : pack dsize true = 17 := by decide
  have hins : ∀ y, inside s y → y = 0 ∨ (y % 16 = 8 ∧ s.heap_start ≤ y ∧ y + 40 ≤ s.mem_brk) :=
    fun _ hy => hy
  have hhead : ∀ z, s.seg_list (get_seg_size z) = 0 ∨
      (s.seg_list (get_seg_size z) % 16 = 8 ∧ s.heap_start ≤ s.seg_list (get_seg_size z) ∧
        s.seg_list (get_seg_size z) + 40 ≤ s.mem_brk) := by
    intro z
    have hi := get_seg_size_lt z
    exact head_of_list s fuel _ _ (hlists _ hi).1 (fun y hy => by
      rcases hins y ((hlists _ hi).2 y hy) with e | e
      · exact absurd e (free_list_ne_zero s fuel _ y hy)
      · exact e)
  have hold : ∀ x, x + 16 ≤ s.mem_brk → (grown s size).mem x = s.mem x := by
    intro x hx
    rw [hgm, if_neg (by omega), if_neg (by omega), if_neg (by omega), if_neg (by omega)]
  have hE : (grown s size).mem (s.mem_brk + round_up size dsize - 8) = 17 := by
    rw [hgm, if_neg (by omega), if_pos rfl]
  -- a block published at `r` with `r + z` at the new epilogue, over a state
  -- whose heads are NULL or heads of `s`, leaves the three words alone
  have hpub : ∀ (t : State) (r z x : Nat), r % 16 = 8 → s.heap_start ≤ r → z % 16 = 0 →
      32 ≤ z → r + z = s.mem_brk + round_up size dsize - 8 →
      (t.seg_list (get_seg_size z) = 0 ∨ t.seg_list (get_seg_size z) = s.seg_list (get_seg_size z)) →
      (x = s.heap_start - 16 ∨ x = s.heap_start - 8 ∨ x = s.mem_brk + round_up size dsize - 8) →
      (publish t r z).mem x = t.mem x := by
    intro t r z x hr hrh hz hz32 hrz hseg hx
    rw [publish_mem t r z x hz hz32 (by simp only [WORD_MOD]; omega)]
    rw [if_neg, if_neg (by omega), if_neg (by omega), if_neg (by omega), if_neg (by omega)]
    rintro ⟨h0, e⟩
    rcases hseg with h1 | h1
    · exact h0 h1
    · rw [h1] at e h0
      rcases hhead z with h2 | ⟨h2, h3, h4⟩
      · exact h0 h2
      · simp only [wadd, WORD_MOD] at e
        omega
  cases hal : get_alloc s (last_block s)
  · -- the last block is free: it absorbs the new block
    obtain ⟨h1, h2, h3, h4, h5⟩ := hprev hal
    simp only [MIN_BLOCK_SIZE, dsize, wsize] at h3
    have hdm : ∀ x, (x = s.heap_start - 16 ∨ x = s.heap_start - 8 ∨
        x = s.mem_brk + round_up size dsize - 8) →
        (delete_free (grown s size) (last_block s)).mem x = (grown s size).mem x := by
      intro x hx
      apply delete_free_mem
      intro hp0 hn0
      have e8 : wadd (last_block s) 8 = last_block s + 8 := by simp only [wadd, WORD_MOD]; omega
      have e16 : wadd (last_block s) 16 = last_block s + 16 := by
        simp only [wadd, WORD_MOD]; omega
      unfold get_prev_freed at hp0 ⊢
      unfold get_next_freed at hn0 ⊢
      rw [e8, hold _ (by omega)] at hp0
      rw [e16, hold _ (by omega)] at hn0
      rw [e8, e16, hold _ (by omega), hold _ (by omega)]
      rcases hins _ h4 with e | ⟨a1, a2, a3⟩
      · exact absurd e hp0
      · rcases hins _ h5 with e | ⟨b1, b2, b3⟩
        · exact absurd e hn0
        · simp only [wadd, WORD_MOD]
          omega
    have hseg : ∀ z, (delete_free (grown s size) (last_block s)).seg_list (get_seg_size z) = 0 ∨
        (delete_free (grown s size) (last_block s)).seg_list (get_seg_size z)
          = s.seg_list (get_seg_size z) := by
      intro z
      rcases delete_free_seg (grown s size) (last_block s) (get_seg_size z) with e | e
      · exact Or.inl e
      · right; rw [e, grown_seg]
    have hp := fun x => hpub (delete_free (grown s size) (last_block s)) (last_block s)
      (last_size s + round_up size dsize) x (by omega) h1 (by omega) (by omega) (by omega)
      (hseg _)
    refine ⟨_, _, hF hal, by omega, ?_, ?_, ?_, ?_, ?_⟩
    · rw [(publish_brk _ _ _).2, (delete_free_brk _ _).2, grown_heap_start]
    · rw [(publish_brk _ _ _).1, (delete_free_brk _ _).1, grown_brk s size hroom]
    · rw [hp _ (Or.inl rfl), hdm _ (Or.inl rfl), hold _ (by omega)]
    · rw [hp _ (Or.inr (Or.inl rfl)), hdm _ (Or.inr (Or.inl rfl)), hold _ (by omega)]
    · rw [(publish_brk _ _ _).1, (delete_free_brk _ _).1, grown_brk s size hroom,
        hp _ (Or.inr (Or.inr rfl)), hdm _ (Or.inr (Or.inr rfl)), hE, hpk]
  · -- the last block is allocated: the new block stands alone
    have hp := fun x => hpub (grown s size) (s.mem_brk - 8) (round_up size dsize) x
      (by omega) (by omega) hm hsz32b (by omega) (Or.inr (by rw [grown_seg]))
    refine ⟨_, _, hA hal, by omega, ?_, ?_, ?_, ?_, ?_⟩
    · rw [(publish_brk _ _ _).2, grown_heap_start]
    · rw [(publish_brk _ _ _).1, grown_brk s size hroom]
    · rw [hp _ (Or.inl rfl), hold _ (by omega)]
    · rw [hp _ (Or.inr (Or.inl rfl)), hold _ (by omega)]
    · rw [(publish_brk _ _ _).1, grown_brk s size hroom, hp _ (Or.inr (Or.inr rfl)), hE, hpk]

/-- When the first `mem_sbrk` succeeds, `mm_init` is `extend_heap(chunksize)` on
`init_state`, and it returns true exactly when that call returns a block. -/
theorem mm_init_eq (s0 : State) (fuel : Nat) (hroom : s0.mem_brk + 2 * dsize ≤ s0.mem_max_addr)
    (hb : s0.mem_brk % 16 = 0) :
    mm_init s0 fuel = (extend_heap (init_state s0) chunksize fuel).bind
      (fun r => if r.2 = 0 then .ok (r.1, false) else .ok (r.1, true)) := by
  have hsb : mem_sbrk s0 (2 * dsize)
      = ({ s0 with mem_brk := s0.mem_brk + 2 * dsize }, s0.mem_brk) := by
    unfold mem_sbrk; rw [if_pos hroom]
  have hnf : s0.mem_brk ≠ SBRK_FAILED := by simp only [SBRK_FAILED, WORD_MOD]; omega
  unfold mm_init init_state
  simp only [hsb]
  rw [if_neg hnf]
  cases h : extend_heap _ chunksize fuel with
  | error e => rfl
  | ok r =>
    obtain ⟨s1, b⟩ := r
    by_cases hb0 : b = 0
    · subst hb0; rfl
    · simp only [bind, Except.bind, hb0, if_false]; rfl

/-- C23, counterexample: after `mm_init` on the region at `1000000`, where
`heap_start = 1000024` and the region ends at `1004128`, the two prologue
words and the last word of the region each decode to size 16, not 0.  And in
the well-formed heap left by four `malloc(16)` and a `malloc(20336)`, whose
sentinels have the allocated flag set, the successful `extend_heap(16)`
returns block `1020504` and leaves 0 in the last word of the grown region: the
allocated flag of the epilogue word is lost when the rounded size is below
`MIN_BLOCK_SIZE`. -/
theorem C23_sentinel_sizes_not_zero :
    observe (after_calls [])
        (fun s _ => [s.heap_start, s.mem_brk,
          extract_size (s.mem (s.heap_start - 16)), extract_size (s.mem (s.heap_start - 8)),
          extract_size (s.mem (s.mem_brk - 8))])
      = some [1000024, 1004128, 16, 16, 16] ∧
    observe (after_calls calls_all_allocated)
        (fun s _ => (heap_wf s 100 && decide (sentinels_ok s), [s.mem_brk, last_block s]))
      = some (true, [1020512, 1000152]) ∧
    observe (after_calls calls_all_allocated)
        (fun s _ => (outcome (extend_heap s 16 100)).1.map
          (fun r => (extract_alloc (r.1.mem (r.1.mem_brk - 8)),
            [r.2, r.1.mem_brk, r.1.mem (r.1.mem_brk - 8)])))
      = some (some (false, [1020504, 1020528, 0])) := by
  decide!

/-- C23, as the code has it: after a successful `mm_init` on a region that starts
at a multiple of 16 with room for the first chunk, and after every successful
`extend_heap(size)` whose rounded size `round_up(size, 16)` is at least
`MIN_BLOCK_SIZE = 32`, in a state that is well formed at the end of the region
and whose sentinels are in place (`extend_ok`, which holds the condition on
the size, and `sentinels_ok`), the two prologue words decode to size
`dsize = 16` with the allocated flag set and the last word of the region has
the allocated flag set; both calls return. -/
theorem C23_sentinels_allocated :
    (∀ (s0 : State) (fuel : Nat), s0.mem_brk % 16 = 0 →
      s0.mem_brk + 2 * dsize + chunksize ≤ s0.mem_max_addr →
      s0.mem_brk + 2 * dsize + chunksize + 16 < WORD_MOD →
      ∃ s1, mm_init s0 fuel = .ok (s1, true) ∧ sentinels_ok s1) ∧
    (∀ (s : State) (size fuel : Nat), extend_ok s size fuel → sentinels_ok s →
      ∃ s1 r, extend_heap s size fuel = .ok (s1, r) ∧ r ≠ 0 ∧ sentinels_ok s1) := by
  have h17 : extract_alloc (pack dsize true) = true := by decide
  constructor
  · intro s0 fuel hb hroom hw
    simp only [dsize, wsize, chunksize, WORD_MOD] at hroom hw
    have hbrk : (init_state s0).mem_brk = s0.mem_brk + 32 := by
      unfold init_state mem_sbrk
      rw [if_pos (by simp only [dsize, wsize]; omega)]
      rfl
    have hhs : (init_state s0).heap_start = s0.mem_brk + 24 := by
      show wadd s0.mem_brk 24 = _
      simp only [wadd, WORD_MOD]; omega
    have hseg : ∀ i, (init_state s0).seg_list i = 0 := fun _ => rfl
    have hmem : ∀ x, (init_state s0).mem x =
        if x = s0.mem_brk + 24 then 1 else if x = s0.mem_brk + 16 then 17
        else if x = s0.mem_brk + 8 then 17 else if x = s0.mem_brk then 0 else s0.mem x := by
      intro x
      have e8 : wadd s0.mem_brk 8 = s0.mem_brk + 8 := by simp only [wadd, WORD_MOD]; omega
      have e16 : wadd s0.mem_brk 16 = s0.mem_brk + 16 := by simp only [wadd, WORD_MOD]; omega
      have e24 : wadd s0.mem_brk 24 = s0.mem_brk + 24 := by simp only [wadd, WORD_MOD]; omega
      have p1 : pack 0 true = 1 := by decide
      have p17 : pack dsize true = 17 := by decide
      have p0 : pack 0 false = 0 := rfl
      show store (store (store (store (mem_sbrk s0 (2 * dsize)).1.mem _ _) _ _) _ _) _ _ x = _
      rw [e8, e16, e24, p1, p17, p0]
      have hs1 : (mem_sbrk s0 (2 * dsize)).1.mem = s0.mem := by
        unfold mem_sbrk; split <;> rfl
      rw [hs1]
      simp only [store_apply]
    have hru : round_up chunksize dsize = 4096 := by decide
    have hls : last_size (init_state s0) = 16 := by
      unfold last_size
      rw [hbrk, hmem, if_neg (by omega), if_pos (by omega)]
      decide
    have hlb : last_block (init_state s0) = s0.mem_brk + 8 := by
      unfold last_block
      rw [hls, hbrk]; omega
    have hok : extend_ok (init_state s0) chunksize fuel := by
      refine ⟨by omega, by omega, by omega, by omega, ?_, ?_, ?_, ?_, ?_, ?_, ?_⟩
      · rw [hru]; decide
      · rw [hru, hbrk]
        show _ ≤ (mem_sbrk s0 (2 * dsize)).1.mem_max_addr
        have : (mem_sbrk s0 (2 * dsize)).1.mem_max_addr = s0.mem_max_addr := by
          unfold mem_sbrk; split <;> rfl
        rw [this]; omega
      · rw [hru, hbrk]; simp only [WORD_MOD]; omega
      · rw [hls]; decide
      · rw [hls, hbrk, hhs]; omega
      · intro hf
        rw [hlb] at hf
        unfold get_alloc at hf
        rw [hmem, if_neg (by omega), if_neg (by omega), if_pos rfl] at hf
        exact absurd hf (by decide)
      · intro i _
        rw [hseg]
        constructor
        · unfold list_ends; simp
        · intro y hy
          cases fuel <;> simp [free_list] at hy
    obtain ⟨s1, r, he, hr, h1, h2, h3, h4, h5⟩ := extend_ends _ chunksize fuel hok
    refine ⟨s1, ?_, ?_⟩
    · rw [mm_init_eq s0 fuel (by simp only [dsize, wsize]; omega) hb, he]
      simp [Except.bind, hr]
    · rw [hhs] at h3 h4
      have e1 : s0.mem_brk + 24 - 16 = s0.mem_brk + 8 := by omega
      have e2 : s0.mem_brk + 24 - 8 = s0.mem_brk + 16 := by omega
      rw [e1, hmem, if_neg (by omega), if_neg (by omega), if_pos rfl] at h3
      rw [e2, hmem, if_neg (by omega), if_pos rfl] at h4
      unfold sentinels_ok
      rw [h1, hhs, e1, e2, h3, h4, h5]
      exact ⟨by decide, by decide, by decide, by decide, h17⟩
  · intro s size fuel hok hs
    obtain ⟨s1, r, he, hr, h1, h2, h3, h4, h5⟩ := extend_ends s size fuel hok
    obtain ⟨a1, a2, a3, a4, _⟩ := hs
    refine ⟨s1, r, he, hr, ?_⟩
    unfold sentinels_ok
    rw [h1, h3, h4, h5]
    exact ⟨a1, a2, a3, a4, h17⟩

/-- Witness of C23: `mm_init` on the empty region at `1000000`, and
`extend_heap(4096)` in the state after `mm_init` and one `malloc(16)`. -/
theorem C23_sentinels_allocated_witness :
    (∃ s1, mm_init (fresh 1000000 20971520) 100 = .ok (s1, true) ∧ sentinels_ok s1) ∧
    (extend_ok (state_after [.malloc 16]) 4096 100 ∧ sentinels_ok (state_after [.malloc 16]) ∧
      ∃ s1 r, extend_heap (state_after [.malloc 16]) 4096 100 = .ok (s1, r) ∧ r ≠ 0 ∧
        sentinels_ok s1) :=
  ⟨C23_sentinels_allocated.1 (fresh 1000000 20971520) 100 (by decide) (by decide) (by decide),
    by decide!, by decide!,
    C23_sentinels_allocated.2 (state_after [.malloc 16]) 4096 100 (by decide!) (by decide!)⟩

/-- C24 (the code breaks it): no assignment to the global `epilogue` exists.  After
`mm_init`, and after a `malloc(5000)` that extends the region, `epilogue` is
still NULL while the last word of the region is at `1004120`, then `1009144`;
`check_prologue_and_epilogue` loads `epilogue->header` and faults. -/
theorem C24_epilogue_never_recorded :
    observe (after_calls [])
        (fun s _ => ([s.epilogue, s.mem_brk - 8, s.mem (s.mem_brk - 8)],
          (outcome (check_prologue_and_epilogue s)).2))
      = some ([0, 1004120, 17], some .null_deref) ∧
    observe (after_calls [.malloc 5000])
        (fun s _ => ([s.epilogue, s.mem_brk - 8, s.mem (s.mem_brk - 8)],
          (outcome (check_prologue_and_epilogue s)).2))
      = some ([0, 1009144, 17], some .null_deref) := by
  decide!

/-! ### Free-list checker -/

/-- C25 (the code breaks it): the body of `check_freelist` is commented out and the
function returns true for every state.  It returns true after the calls
`calls_two_free` and a `free` of the fourth pointer, where the free block
`1000024` of class 5 is reachable from no head, and after `calls_stale_head`
and `malloc(16384)`, where the first block of the class-14 list, `1000024`, is
marked allocated. -/
theorem C25_check_freelist_always_true :
    (∀ s : State, check_freelist s = true) ∧
    observe (after_calls (calls_two_free ++ [Call.free 3]))
        (fun s _ => (check_freelist s,
          (heap_blocks s 100 s.heap_start).map (free_of_class s 5),
          free_list s 10 (s.seg_list 5)))
      = some (true, some [1000024], []) ∧
    observe (after_calls (calls_stale_head ++ [Call.malloc 16384]))
        (fun s _ => (check_freelist s, get_alloc s 1000024, free_list s 10 (s.seg_list 14)))
      = some (true, true, [1000024, 1016600]) := by
  refine ⟨fun _ => rfl, ?_, ?_⟩ <;> decide!

/-! ### Coalescing -/

/-- C26: in a state that is well formed around a free-marked block `b`
(`coalesce_ok`), `coalesce(b)` returns a block `r` of total size `z` whose
header and footer both equal `pack(z, false)`, where `r = b`, `z = size(b)`
when both physical neighbours are allocated; `r = b`,
`z = size(b) + size(n)` when only the successor `n` is free; `r = p`,
`z = size(p) + size(b)` when only the predecessor `p` is free; and `r = p`,
`z = size(p) + size(b) + size(n)` when both are free. -/
theorem C26_coalesce_cases (s : State) (b : Nat) (h : coalesce_ok s b) :
    ∃ s1 r z, coalesce s b = .ok (s1, r) ∧
      s1.mem r = pack z false ∧ s1.mem (r + z - 8) = pack z false ∧
      (get_alloc s (phys_prev s (b + 8)) = true → get_alloc s (phys_next s (b + 8)) = true →
        r = b ∧ z = get_size s b) ∧
      (get_alloc s (phys_prev s (b + 8)) = true → get_alloc s (phys_next s (b + 8)) = false →
        r = b ∧ z = get_size s b + get_size s (phys_next s (b + 8))) ∧
      (get_alloc s (phys_prev s (b + 8)) = false → get_alloc s (phys_next s (b + 8)) = true →
        r = phys_prev s (b + 8) ∧ z = get_size s (phys_prev s (b + 8)) + get_size s b) ∧
      (get_alloc s (phys_prev s (b + 8)) = false → get_alloc s (phys_next s (b + 8)) = false →
        r = phys_prev s (b + 8) ∧
        z = get_size s (phys_prev s (b + 8)) + get_size s b
          + get_size s (phys_next s (b + 8))) := by
  obtain ⟨hAA, hAF, hFA, hFF⟩ := coalesce_shape s b h
  obtain ⟨hok, _, _⟩ := h
  have hok2 := hok
  obtain ⟨hp16, hp, hsz32, hps0, hpsle, hnw, hnext, hprev, _⟩ := hok2
  have e88 : b + 8 - 8 = b := by omega
  rw [e88] at hsz32 hpsle
  have hbn : phys_next s (b + 8) = b + get_size s b := by unfold phys_next; rw [e88]
  have hbp : phys_prev s (b + 8) = b - phys_prev_size s (b + 8) := by
    unfold phys_prev; rw [e88]
  have hszm : get_size s b % 16 = 0 := extract_size_mod _
  have hnsm : get_size s (phys_next s (b + 8)) % 16 = 0 := extract_size_mod _
  have hpsm : phys_prev_size s (b + 8) % 16 = 0 := extract_size_mod _
  simp only [MIN_BLOCK_SIZE, dsize, wsize, WORD_MOD] at hsz32 hnw hnext
  have hW : WORD_MOD = 18446744073709551616 := rfl
  cases hA : get_alloc s (phys_prev s (b + 8)) <;> cases hB : get_alloc s (phys_next s (b + 8))
  · obtain ⟨hps, _, _⟩ := hprev hA
    obtain ⟨hns32, _, _⟩ := hnext hB
    have ht := publish_tags s (delete_free (delete_free s (phys_prev s (b + 8)))
      (phys_next s (b + 8))) b (phys_prev s (b + 8))
      (get_size s (phys_prev s (b + 8)) + get_size s b + get_size s (phys_next s (b + 8))) hok
      (by
        intro i
        rcases delete_free_seg (delete_free s (phys_prev s (b + 8))) (phys_next s (b + 8)) i
          with h1 | h1
        · exact Or.inl h1
        · rcases delete_free_seg s (phys_prev s (b + 8)) i with h2 | h2
          · left; rw [h1, h2]
          · right; rw [h1, h2])
      (by omega) (by omega) (by omega) (by omega) (Or.inr ⟨by omega, by omega⟩)
    exact ⟨_, _, _, hFF hA hB, ht.1, ht.2, by simp, by simp, by simp, fun _ _ => ⟨rfl, rfl⟩⟩
  · obtain ⟨hps, _, _⟩ := hprev hA
    have ht := publish_tags s (delete_free s (phys_prev s (b + 8))) b (phys_prev s (b + 8))
      (get_size s (phys_prev s (b + 8)) + get_size s b) hok
      (fun i => delete_free_seg s (phys_prev s (b + 8)) i)
      (by omega) (by omega) (by omega) (by omega) (Or.inl (by omega))
    exact ⟨_, _, _, hFA hA hB, ht.1, ht.2, by simp, by simp, fun _ _ => ⟨rfl, rfl⟩, by simp⟩
  · obtain ⟨hns32, _, _⟩ := hnext hB
    have ht := publish_tags s (delete_free s (phys_next s (b + 8))) b b
      (get_size s b + get_size s (phys_next s (b + 8))) hok
      (fun i => delete_free_seg s (phys_next s (b + 8)) i)
      (by omega) (by omega) (by omega) (by omega) (Or.inr ⟨by omega, by omega⟩)
    exact ⟨_, _, _, hAF hA hB, ht.1, ht.2, by simp, fun _ _ => ⟨rfl, rfl⟩, by simp, by simp⟩
  · have ht := publish_tags s s b b (get_size s b) hok (fun i => Or.inr rfl)
      (by omega) (by omega) (by omega) (by omega) (Or.inl (by omega))
    exact ⟨_, _, _, hAA hA hB, ht.1, ht.2, fun _ _ => ⟨rfl, rfl⟩, by simp, by simp, by simp⟩

/-- Witness of C26: block `1000056` of `three_free_marked`, between the free
blocks `1000024` and `1000088`. -/
theorem C26_coalesce_cases_witness :
    coalesce_ok three_free_marked 1000056 ∧
    ∃ s1 r z, coalesce three_free_marked 1000056 = .ok (s1, r) ∧
      s1.mem r = pack z false ∧ s1.mem (r + z - 8) = pack z false ∧
      (get_alloc three_free_marked (phys_prev three_free_marked (1000056 + 8)) = true →
        get_alloc three_free_marked (phys_next three_free_marked (1000056 + 8)) = true →
        r = 1000056 ∧ z = get_size three_free_marked 1000056) ∧
      (get_alloc three_free_marked (phys_prev three_free_marked (1000056 + 8)) = true →
        get_alloc three_free_marked (phys_next three_free_marked (1000056 + 8)) = false →
        r = 1000056 ∧ z = get_size three_free_marked 1000056
          + get_size three_free_marked (phys_next three_free_marked (1000056 + 8))) ∧
      (get_alloc three_free_marked (phys_prev three_free_marked (1000056 + 8)) = false →
        get_alloc three_free_marked (phys_next three_free_marked (1000056 + 8)) = true →
        r = phys_prev three_free_marked (1000056 + 8) ∧
        z = get_size three_free_marked (phys_prev three_free_marked (1000056 + 8))
          + get_size three_free_marked 1000056) ∧
      (get_alloc three_free_marked (phys_prev three_free_marked (1000056 + 8)) = false →
        get_alloc three_free_marked (phys_next three_free_marked (1000056 + 8)) = false →
        r = phys_prev three_free_marked (1000056 + 8) ∧
        z = get_size three_free_marked (phys_prev three_free_marked (1000056 + 8))
          + get_size three_free_marked 1000056
          + get_size three_free_marked (phys_next three_free_marked (1000056 + 8))) :=
  ⟨by decide!, C26_coalesce_cases three_free_marked 1000056 (by decide!)⟩

/-- A chain is a chain in every state that agrees on the `prev` and `next`
fields of its blocks. -/
theorem dchain_frame (u v : State) (l : List Nat) (q h : Nat)
    (hf : ∀ y ∈ l, get_prev_freed v y = get_prev_freed u y ∧
      get_next_freed v y = get_next_freed u y)
    (hc : dchain u q h l) : dchain v q h l := by
  induction l generalizing q h with
  | nil => exact hc
  | cons a l ih =>
    obtain ⟨h1, h2, h3, h4⟩ := hc
    obtain ⟨f1, f2⟩ := hf a (List.mem_cons_self _ _)
    refine ⟨h1, h2, by rw [f1]; exact h3, ?_⟩
    rw [f2]
    exact ih _ _ (fun y hy => hf y (List.mem_cons_of_mem _ hy)) h4

/-- No block of a chain is NULL. -/
theorem dchain_ne_zero (u : State) (l : List Nat) (q h y : Nat) (hc : dchain u q h l)
    (hy : y ∈ l) : y ≠ 0 := by
  induction l generalizing q h with
  | nil => simp at hy
  | cons a l ih =>
    obtain ⟨_, h2, _, h4⟩ := hc
    rcases List.mem_cons.mp hy with e | e
    · rw [e]; exact h2
    · exact ih _ _ h4 e

/-- The `next` link of a block of a chain is NULL or a block of the chain. -/
theorem dchain_next_mem (u : State) (l : List Nat) (q h x : Nat) (hc : dchain u q h l)
    (hx : x ∈ l) : get_next_freed u x = 0 ∨ get_next_freed u x ∈ l := by
  induction l generalizing q h with
  | nil => simp at hx
  | cons a l ih =>
    obtain ⟨_, _, _, h4⟩ := hc
    rcases List.mem_cons.mp hx with e | e
    · subst e
      cases l with
      | nil => left; exact h4
      | cons c l2 => right; rw [h4.1]; simp
    · rcases ih _ _ h4 e with r | r
      · exact Or.inl r
      · exact Or.inr (List.mem_cons_of_mem _ r)

/-- The `prev` link of a block of a chain is a block of the chain, unless
the block is the first one. -/
theorem dchain_prev_mem (u : State) (l : List Nat) (q h x : Nat) (hc : dchain u q h l)
    (hx : x ∈ l) : (x = h ∧ get_prev_freed u x = q) ∨ get_prev_freed u x ∈ l := by
  induction l generalizing q h with
  | nil => simp at hx
  | cons a l ih =>
    obtain ⟨h1, _, h3, h4⟩ := hc
    rcases List.mem_cons.mp hx with e | e
    · subst e
      left; exact ⟨h1.symm, h3⟩
    · rcases ih _ _ h4 e with ⟨r1, r2⟩ | r
      · right; rw [r2]; simp
      · exact Or.inr (List.mem_cons_of_mem _ r)

/-- The head pointer of a chain is NULL or a block of the chain. -/
theorem dchain_head (u : State) (l : List Nat) (q h : Nat) (hc : dchain u q h l) :
    h = 0 ∨ h ∈ l := by
  cases l with
  | nil => exact Or.inl hc
  | cons a l => right; rw [hc.1]; simp

/-- Unlinking an inner block `x` of a chain: when the `next` field of its
predecessor and the `prev` field of its successor are redirected and all other
link fields are kept, the chain is the old one without `x`. -/
theorem dchain_erase (u v : State) (x pv nx : Nat)
    (hpv : get_prev_freed u x = pv) (hnx : get_next_freed u x = nx) (hnx0 : nx ≠ 0)
    (hN : ∀ y, y % 16 = 8 → y + 16 < WORD_MOD →
      get_next_freed v y = if y = pv then nx else get_next_freed u y)
    (hP : ∀ y, y % 16 = 8 → y + 16 < WORD_MOD →
      get_prev_freed v y = if y = nx then pv else get_prev_freed u y)
    (l : List Nat) (q h : Nat) (hc : dchain u q h l) (hnd : l.Nodup)
    (hal : ∀ y ∈ l, y % 16 = 8 ∧ y + 16 < WORD_MOD) (hq : q ∉ l) (hx : x ∈ l) :
    dchain v q (if h = x then nx else h) (l.erase x) := by
  induction l generalizing q h with
  | nil => simp at hx
  | cons a l ih =>
    obtain ⟨h1, h2, h3, h4⟩ := hc
    have hal2 : ∀ y ∈ l, y % 16 = 8 ∧ y + 16 < WORD_MOD :=
      fun y hy => hal y (List.mem_cons_of_mem _ hy)
    have hnd2 : l.Nodup := (List.nodup_cons.mp hnd).2
    have hal' : a ∉ l := (List.nodup_cons.mp hnd).1
    by_cases hxa : x = a
    · subst hxa
      rw [if_pos h1, List.erase_cons_head]
      rw [hnx] at h4
      have hqpv : q = pv := by rw [← h3, hpv]
      cases l with
      | nil => exact absurd h4 hnx0
      | cons c l2 =>
        obtain ⟨g1, g2, g3, g4⟩ := h4
        subst g1
        have hnxal := hal2 nx (List.mem_cons_self _ _)
        have hne : nx ≠ pv := by
          intro e
          apply hq
          rw [hqpv, ← e]
          simp
        refine ⟨rfl, g2, ?_, ?_⟩
        · rw [hP nx hnxal.1 hnxal.2, if_pos rfl, hqpv]
        · rw [hN nx hnxal.1 hnxal.2, if_neg hne]
          apply dchain_frame u v l2 _ _ _ g4
          intro y hy
          have hyal := hal2 y (List.mem_cons_of_mem _ hy)
          have hy1 : y ≠ nx := fun e => (List.nodup_cons.mp hnd2).1 (e ▸ hy)
          have hy2 : y ≠ pv := by
            intro e
            apply hq
            rw [hqpv, ← e]
            exact List.mem_cons_of_mem _ (List.mem_cons_of_mem _ hy)
          rw [hP y hyal.1 hyal.2, if_neg hy1, hN y hyal.1 hyal.2, if_neg hy2]
          exact ⟨rfl, rfl⟩
    · have hxl : x ∈ l := by
        rcases List.mem_cons.mp hx with e | e
        · exact absurd e hxa
        · exact e
      have hax : ¬ h = x := fun e => hxa (by rw [← e, h1])
      have her : (a :: l).erase x = a :: l.erase x := by
        rw [List.erase_cons_tail]
        simp only [beq_iff_eq]
        exact fun e => hxa e.symm
      rw [if_neg hax, her]
      have haal := hal a (List.mem_cons_self _ _)
      have hnxl : nx ∈ l := by
        rcases dchain_next_mem u l _ _ x h4 hxl with e | e
        · rw [hnx] at e; exact absurd e hnx0
        · rw [hnx] at e; exact e
      have hanx : a ≠ nx := fun e => hal' (e ▸ hnxl)
      refine ⟨h1, h2, ?_, ?_⟩
      · rw [hP a haal.1 haal.2, if_neg hanx]; exact h3
      · have hi := ih a (get_next_freed u a) h4 hnd2 hal2 hal' hxl
        rw [hN a haal.1 haal.2]
        by_cases hnxa : get_next_freed u a = x
        · rw [if_pos hnxa] at hi
          have hapv : a = pv := by
            cases l with
            | nil => simp at hxl
            | cons c l2 =>
              obtain ⟨g1, _, g3, _⟩ := h4
              rw [← hpv, ← hnxa, g1, g3]
          rw [if_pos hapv]
          exact hi
        · rw [if_neg hnxa] at hi
          have hapv : a ≠ pv := by
            intro e
            rcases dchain_prev_mem u l _ _ x h4 hxl with ⟨r1, _⟩ | r
            · exact hnxa r1.symm
            · rw [hpv, ← e] at r
              exact hal' r
          rw [if_neg hapv]
          exact hi

/-- The lists describe every state with the same heads and the same link
fields of the listed blocks. -/
theorem fam_frame (u v : State) (L : Nat → List Nat) (hf : fam u L)
    (hs : ∀ i, i < seg_size → v.seg_list i = u.seg_list i)
    (hm : ∀ i, i < seg_size → ∀ y ∈ L i, get_prev_freed v y = get_prev_freed u y ∧
      get_next_freed v y = get_next_freed u y) : fam v L := by
  obtain ⟨h1, h2, h3, h4⟩ := hf
  refine ⟨fun i hi => ?_, h2, h3, h4⟩
  rw [hs i hi]
  exact dchain_frame u v _ _ _ (hm i hi) (h1 i hi)

/-- Setting one head to NULL empties that list and keeps the others. -/
theorem fam_null (u : State) (L : Nat → List Nat) (c : Nat) (hf : fam u L) :
    fam (u.set_seg c 0) (fun i => if i = c then [] else L i) := by
  obtain ⟨h1, h2, h3, h4⟩ := hf
  refine ⟨fun i hi => ?_, fun i hi y hy => ?_, fun i hi => ?_, fun i j y hi hj hyi hyj => ?_⟩
  · by_cases hc : i = c
    · simp only [State.set_seg, hc, if_true]
      rfl
    · simp only [State.set_seg, hc, if_false]
      exact dchain_frame u _ _ _ _ (fun _ _ => ⟨rfl, rfl⟩) (h1 i hi)
  · by_cases hc : i = c
    · simp [hc] at hy
    · simp only [hc, if_false] at hy
      exact h2 i hi y hy
  · by_cases hc : i = c
    · simp [hc]
    · simp only [hc, if_false]
      exact h3 i hi
  · by_cases hc : i = c
    · simp [hc] at hyi
    · by_cases hd : j = c
      · simp [hd] at hyj
      · simp only [hc, if_false] at hyi
        simp only [hd, if_false] at hyj
        exact h4 i j y hi hj hyi hyj

/-- The fourth branch of `delete_free` on a listed block with two non-NULL
links removes the block from its list and keeps the other lists. -/
theorem fam_erase (u : State) (L : Nat → List Nat) (c x : Nat) (hf : fam u L)
    (hc : c < seg_size) (hx : x ∈ L c) (hp0 : get_prev_freed u x ≠ 0)
    (hn0 : get_next_freed u x ≠ 0) :
    fam (set_next (set_prev u (get_next_freed u x) (get_prev_freed u x))
        (get_prev_freed u x) (get_next_freed u x))
      (fun i => if i = c then (L c).erase x else L i) := by
  obtain ⟨h1, h2, h3, h4⟩ := hf
  generalize hpv : get_prev_freed u x = pv at *
  generalize hnx : get_next_freed u x = nx at *
  have hnxl : nx ∈ L c := by
    rcases dchain_next_mem u _ _ _ x (h1 c hc) hx with e | e
    · rw [hnx] at e; exact absurd e hn0
    · rw [hnx] at e; exact e
  have hxh : x ≠ u.seg_list c ∧ pv ∈ L c := by
    rcases dchain_prev_mem u _ _ _ x (h1 c hc) hx with ⟨_, e⟩ | e
    · rw [hpv] at e; exact absurd e hp0
    · rw [hpv] at e
      refine ⟨?_, e⟩
      intro e2
      rcases hl : L c with _ | ⟨a, l⟩
      · rw [hl] at hx; simp at hx
      · have := h1 c hc
        rw [hl] at this
        obtain ⟨g1, _, g3, _⟩ := this
        rw [← g1, ← e2, hpv] at g3
        exact hp0 g3
  obtain ⟨hxh, hpvl⟩ := hxh
  have apv := h2 c hc pv hpvl
  have anx := h2 c hc nx hnxl
  have hW : WORD_MOD = 18446744073709551616 := rfl
  have hmem : ∀ a, (set_next (set_prev u nx pv) pv nx).mem a =
      if a = wadd pv 16 then nx else if a = wadd nx 8 then pv else u.mem a := by
    intro a
    simp only [set_next, set_prev, State.write, store_apply]
  have hN : ∀ y, y % 16 = 8 → y + 16 < WORD_MOD →
      get_next_freed (set_next (set_prev u nx pv) pv nx) y
        = if y = pv then nx else get_next_freed u y := by
    intro y y1 y2
    unfold get_next_freed
    rw [hmem]
    by_cases e : y = pv
    · rw [if_pos e, e, if_pos rfl]
    · rw [if_neg e, if_neg, if_neg]
      · simp only [wadd, WORD_MOD]; omega
      · simp only [wadd, WORD_MOD]; omega
  have hP : ∀ y, y % 16 = 8 → y + 16 < WORD_MOD →
      get_prev_freed (set_next (set_prev u nx pv) pv nx) y
        = if y = nx then pv else get_prev_freed u y := by
    intro y y1 y2
    unfold get_prev_freed
    rw [hmem]
    by_cases e : y = nx
    · rw [if_pos e, e, if_neg, if_pos rfl]
      simp only [wadd, WORD_MOD]; omega
    · rw [if_neg e, if_neg, if_neg]
      · simp only [wadd, WORD_MOD]; omega
      · simp only [wadd, WORD_MOD]; omega
  refine ⟨fun i hi => ?_, fun i hi y hy => ?_, fun i hi => ?_, fun i j y hi hj hyi hyj => ?_⟩
  · by_cases hic : i = c
    · subst hic
      simp only [if_true]
      have h0 : (0 : Nat) ∉ L i := fun e => dchain_ne_zero u _ _ _ 0 (h1 i hi) e rfl
      have := dchain_erase u _ x pv nx hpv hnx hn0 hN hP (L i) 0 (u.seg_list i) (h1 i hi)
        (h3 i hi) (h2 i hi) h0 hx
      rw [if_neg (fun e => hxh e.symm)] at this
      exact this
    · simp only [hic, if_false]
      apply dchain_frame u _ _ _ _ _ (h1 i hi)
      intro y hy
      have ay := h2 i hi y hy
      have y1 : y ≠ nx := fun e => hic (h4 i c y hi hc hy (e ▸ hnxl))
      have y2 : y ≠ pv := fun e => hic (h4 i c y hi hc hy (e ▸ hpvl))
      rw [hP y ay.1 ay.2, hN y ay.1 ay.2, if_neg y1, if_neg y2]
      exact ⟨rfl, rfl⟩
  · by_cases hic : i = c
    · simp only [hic, if_true] at hy
      exact h2 c hc y (List.mem_of_mem_erase hy)
    · simp only [hic, if_false] at hy
      exact h2 i hi y hy
  · by_cases hic : i = c
    · simp only [hic, if_true]
      exact (h3 c hc).erase x
    · simp only [hic, if_false]
      exact h3 i hi
  · have e1 : y ∈ L i := by
      by_cases hic : i = c
      · simp only [hic, if_true] at hyi
        rw [hic]; exact List.mem_of_mem_erase hyi
      · simp only [hic, if_false] at hyi
        exact hyi
    have e2 : y ∈ L j := by
      by_cases hjc : j = c
      · simp only [hjc, if_true] at hyj
        rw [hjc]; exact List.mem_of_mem_erase hyj
      · simp only [hjc, if_false] at hyj
        exact hyj
    exact h4 i j y hi hj e1 e2

/-- Effect of `delete_free` on a block listed in the list of its class: the
list is emptied (a NULL link) or loses the block (two non-NULL links); only
link fields of blocks of that list are written. -/
theorem delete_listed (u : State) (L : Nat → List Nat) (x : Nat) (hf : fam u L)
    (hx : x ∈ L (get_seg_size (get_size u x))) :
    ∃ L1, fam (delete_free u x) L1 ∧
      (∀ a, (∀ y ∈ L (get_seg_size (get_size u x)), a ≠ y + 8 ∧ a ≠ y + 16) →
        (delete_free u x).mem a = u.mem a) ∧
      (((delete_free u x).mem = u.mem ∧
          L1 = fun i => if i = get_seg_size (get_size u x) then [] else L i) ∨
        L1 = fun i => if i = get_seg_size (get_size u x)
          then (L (get_seg_size (get_size u x))).erase x else L i) := by
  have hc := get_seg_size_lt (get_size u x)
  rw [delete_free_eq]
  by_cases hb : get_prev_freed u x = 0 ∨ get_next_freed u x = 0
  · rw [if_pos hb]
    exact ⟨_, fam_null u L _ hf, fun _ _ => rfl, Or.inl ⟨rfl, rfl⟩⟩
  · rw [if_neg hb]
    have hp0 : get_prev_freed u x ≠ 0 := fun e => hb (Or.inl e)
    have hn0 : get_next_freed u x ≠ 0 := fun e => hb (Or.inr e)
    refine ⟨_, fam_erase u L _ x hf hc hx hp0 hn0, ?_, Or.inr rfl⟩
    intro a ha
    obtain ⟨h1, h2, _, _⟩ := hf
    have hnxl : get_next_freed u x ∈ L (get_seg_size (get_size u x)) := by
      rcases dchain_next_mem u _ _ _ x (h1 _ hc) hx with e | e
      · exact absurd e hn0
      · exact e
    have hpvl : get_prev_freed u x ∈ L (get_seg_size (get_size u x)) := by
      rcases dchain_prev_mem u _ _ _ x (h1 _ hc) hx with ⟨_, e⟩ | e
      · exact absurd e hp0
      · exact e
    have apv := h2 _ hc _ hpvl
    have anx := h2 _ hc _ hnxl
    have b1 := (ha _ hpvl).2
    have b2 := (ha _ hnxl).1
    simp only [set_next, set_prev, State.write, store_apply]
    rw [if_neg, if_neg]
    · simp only [wadd, WORD_MOD] at *; omega
    · simp only [wadd, WORD_MOD] at *; omega

/-- Effect of `delete_free` on a block whose non-NULL links point at blocks
outside all lists: no list gains a block. -/
theorem delete_orphan (u : State) (L : Nat → List Nat) (x : Nat) (hf : fam u L)
    (hl : get_prev_freed u x ≠ 0 → get_next_freed u x ≠ 0 →
      (get_prev_freed u x % 16 = 8 ∧ get_prev_freed u x + 16 < WORD_MOD ∧
        ∀ i, i < seg_size → get_prev_freed u x ∉ L i) ∧
      (get_next_freed u x % 16 = 8 ∧ get_next_freed u x + 16 < WORD_MOD ∧
        ∀ i, i < seg_size → get_next_freed u x ∉ L i)) :
    ∃ L1, fam (delete_free u x) L1 ∧ ∀ i, i < seg_size → ∀ y ∈ L1 i, y ∈ L i := by
  rw [delete_free_eq]
  by_cases hb : get_prev_freed u x = 0 ∨ get_next_freed u x = 0
  · rw [if_pos hb]
    refine ⟨_, fam_null u L _ hf, ?_⟩
    intro i _ y hy
    by_cases hc : i = get_seg_size (get_size u x)
    · simp [hc] at hy
    · simp only [hc, if_false] at hy
      exact hy
  · rw [if_neg hb]
    have hp0 : get_prev_freed u x ≠ 0 := fun e => hb (Or.inl e)
    have hn0 : get_next_freed u x ≠ 0 := fun e => hb (Or.inr e)
    obtain ⟨⟨p1, p2, p3⟩, ⟨n1, n2, n3⟩⟩ := hl hp0 hn0
    refine ⟨L, fam_frame u _ L hf (fun _ _ => rfl) ?_, fun _ _ _ hy => hy⟩
    intro i hi y hy
    have ay := hf.2.1 i hi y hy
    have y1 : y ≠ get_prev_freed u x := fun e => p3 i hi (e ▸ hy)
    have y2 : y ≠ get_next_freed u x := fun e => n3 i hi (e ▸ hy)
    unfold get_prev_freed get_next_freed at *
    simp only [set_next, set_prev, State.write, store_apply]
    constructor
    · rw [if_neg, if_neg]
      · simp only [wadd, WORD_MOD] at *; omega
      · simp only [wadd, WORD_MOD] at *; omega
    · rw [if_neg, if_neg]
      · simp only [wadd, WORD_MOD] at *; omega
      · simp only [wadd, WORD_MOD] at *; omega

/-- After either outcome of `delete_free` on a listed block, the listed
blocks are old listed blocks other than the removed one. -/
theorem delete_listed_sub (L L1 : Nat → List Nat) (c x : Nat) (hc : c < seg_size)
    (hx : x ∈ L c) (hnd : (L c).Nodup)
    (hd : ∀ i j y, i < seg_size → j < seg_size → y ∈ L i → y ∈ L j → i = j)
    (h : L1 = (fun i => if i = c then [] else L i) ∨
      L1 = (fun i => if i = c then (L c).erase x else L i)) :
    ∀ i, i < seg_size → ∀ y ∈ L1 i, y ∈ L i ∧ y ≠ x := by
  intro i hi y hy
  rcases h with e | e
  · rw [e] at hy
    by_cases hic : i = c
    · simp [hic] at hy
    · simp only [hic, if_false] at hy
      exact ⟨hy, fun e2 => hic (hd i c y hi hc hy (e2 ▸ hx))⟩
  · rw [e] at hy
    by_cases hic : i = c
    · simp only [hic, if_true] at hy
      rw [hic]
      exact ⟨List.mem_of_mem_erase hy, fun e2 => by
        rw [e2] at hy
        exact (List.Nodup.mem_erase_iff hnd).mp hy |>.1 rfl⟩
    · simp only [hic, if_false] at hy
      exact ⟨hy, fun e2 => hic (hd i c y hi hc hy (e2 ▸ hx))⟩

/-- The free lists after `publish` of a block that overlaps no listed block:
the block is pushed on the list of its class. -/
theorem publish_fam (t : State) (LT : Nat → List Nat) (r z : Nat) (hf : fam t LT)
    (hr : r % 16 = 8) (hz : z % 16 = 0) (hz32 : 32 ≤ z) (hrz : r + z < WORD_MOD)
    (hg : ∀ i, i < seg_size → ∀ y ∈ LT i, y + 32 ≤ r ∨ r + z ≤ y) :
    fam (publish t r z)
      (fun i => if i = get_seg_size z then r :: LT (get_seg_size z) else LT i) := by
  obtain ⟨h1, h2, h3, h4⟩ := hf
  have hc := get_seg_size_lt z
  have hpm := fun x => publish_mem t r z x hz hz32 hrz
  generalize hcz : get_seg_size z = cz at *
  generalize hh : t.seg_list cz = h at *
  simp only [WORD_MOD] at hrz
  -- the head of the class list is NULL or its first block
  have hhead : h = 0 ∨ (h ∈ LT cz ∧ h % 16 = 8 ∧ h + 16 < 18446744073709551616) := by
    have hd := h1 cz hc
    rw [hh] at hd
    rcases dchain_head t _ _ _ hd with c | c
    · exact Or.inl c
    · have := h2 cz hc h c
      simp only [WORD_MOD] at this
      exact Or.inr ⟨c, this⟩
  have hrn : ∀ i, i < seg_size → r ∉ LT i := by
    intro i hi e
    have := hg i hi r e
    omega
  have hN : ∀ i, i < seg_size → ∀ y ∈ LT i,
      get_next_freed (publish t r z) y = get_next_freed t y := by
    intro i hi y hy
    have ay := h2 i hi y hy
    have gy := hg i hi y hy
    simp only [WORD_MOD] at ay
    have e16 : wadd y 16 = y + 16 := by simp only [wadd, WORD_MOD]; omega
    unfold get_next_freed
    rw [e16, hpm, if_neg, if_neg (by omega), if_neg (by omega), if_neg (by omega),
      if_neg (by omega)]
    rintro ⟨h0, e⟩
    rcases hhead with c | ⟨_, c1, c2⟩
    · exact h0 c
    · simp only [wadd, WORD_MOD] at e; omega
  have hP : ∀ i, i < seg_size → ∀ y ∈ LT i,
      get_prev_freed (publish t r z) y = if y = h then r else get_prev_freed t y := by
    intro i hi y hy
    have ay := h2 i hi y hy
    have gy := hg i hi y hy
    have y0 : y ≠ 0 := dchain_ne_zero t _ _ _ y (h1 i hi) hy
    simp only [WORD_MOD] at ay
    have e8 : wadd y 8 = y + 8 := by simp only [wadd, WORD_MOD]; omega
    unfold get_prev_freed
    rw [e8, hpm]
    by_cases e : y = h
    · rw [if_pos e, if_pos]
      refine ⟨fun c => y0 (e.trans c), ?_⟩
      rw [← e, e8]
    · rw [if_neg e, if_neg, if_neg (by omega), if_neg (by omega), if_neg (by omega),
        if_neg (by omega)]
      rintro ⟨h0, e2⟩
      rcases hhead with c | ⟨_, c1, c2⟩
      · exact h0 c
      · simp only [wadd, WORD_MOD] at e2; omega
  have hseg : ∀ i, (publish t r z).seg_list i = if i = cz then r else t.seg_list i := by
    intro i
    rw [publish_seg, hcz]
  refine ⟨fun i hi => ?_, fun i hi y hy => ?_, fun i hi => ?_, fun i j y hi hj hyi hyj => ?_⟩
  · rw [hseg]
    by_cases hic : i = cz
    · subst hic
      simp only [if_true]
      have e8 : wadd r 8 = r + 8 := by simp only [wadd, WORD_MOD]; omega
      have e16 : wadd r 16 = r + 16 := by simp only [wadd, WORD_MOD]; omega
      have hnh : ¬ (h ≠ 0 ∧ r + 8 = wadd h 8) := by
        rintro ⟨h0, e⟩
        rcases hhead with c | ⟨c0, c1, c2⟩
        · exact h0 c
        · simp only [wadd, WORD_MOD] at e
          have : h = r := by omega
          exact hrn i hi (this ▸ c0)
      have hnh2 : ¬ (h ≠ 0 ∧ r + 16 = wadd h 8) := by
        rintro ⟨h0, e⟩
        rcases hhead with c | ⟨c0, c1, c2⟩
        · exact h0 c
        · simp only [wadd, WORD_MOD] at e; omega
      refine ⟨rfl, by omega, ?_, ?_⟩
      · unfold get_prev_freed
        rw [e8, hpm, if_neg hnh, if_pos rfl]
      · have hnr : get_next_freed (publish t r z) r = h := by
          unfold get_next_freed
          rw [e16, hpm, if_neg hnh2, if_neg (by omega), if_pos rfl]
        rw [hnr]
        have hd := h1 i hi
        rw [hh] at hd
        rcases hl : LT i with _ | ⟨a, l⟩
        · rw [hl] at hd; exact hd
        · rw [hl] at hd
          obtain ⟨g1, g2, g3, g4⟩ := hd
          have ha : a ∈ LT i := by rw [hl]; simp
          have hnd := h3 i hi
          rw [hl] at hnd
          refine ⟨g1, g2, ?_, ?_⟩
          · rw [hP i hi a ha, if_pos g1.symm]
          · rw [hN i hi a ha]
            apply dchain_frame t _ l _ _ _ g4
            intro y hy
            have hy2 : y ∈ LT i := by rw [hl]; exact List.mem_cons_of_mem _ hy
            have hya : y ≠ h := by
              intro e
              rw [g1] at e
              exact (List.nodup_cons.mp hnd).1 (e ▸ hy)
            rw [hP i hi y hy2, if_neg hya, hN i hi y hy2]
            exact ⟨rfl, rfl⟩
    · simp only [hic, if_false]
      apply dchain_frame t _ _ _ _ _ (h1 i hi)
      intro y hy
      have hya : y ≠ h := by
        intro e
        rcases hhead with c | ⟨c0, _, _⟩
        · exact dchain_ne_zero t _ _ _ y (h1 i hi) hy (e.trans c)
        · exact hic (h4 i cz y hi hc hy (e ▸ c0))
      rw [hP i hi y hy, if_neg hya, hN i hi y hy]
      exact ⟨rfl, rfl⟩
  · by_cases hic : i = cz
    · simp only [hic, if_true] at hy
      rcases List.mem_cons.mp hy with e | e
      · rw [e]; exact ⟨hr, by simp only [WORD_MOD]; omega⟩
      · exact h2 cz hc y e
    · simp only [hic, if_false] at hy
      exact h2 i hi y hy
  · by_cases hic : i = cz
    · simp only [hic, if_true]
      exact List.nodup_cons.mpr ⟨hrn cz hc, h3 cz hc⟩
    · simp only [hic, if_false]
      exact h3 i hi
  · by_cases hic : i = cz <;> by_cases hjc : j = cz
    · rw [hic, hjc]
    · simp only [hic, if_true] at hyi
      simp only [hjc, if_false] at hyj
      rcases List.mem_cons.mp hyi with e | e
      · exact absurd (e ▸ hyj) (hrn j hj)
      · rw [hic]; exact h4 cz j y hc hj e hyj
    · simp only [hic, if_false] at hyi
      simp only [hjc, if_true] at hyj
      rcases List.mem_cons.mp hyj with e | e
      · exact absurd (e ▸ hyi) (hrn i hi)
      · rw [hjc]; exact h4 i cz y hi hc hyi e
    · simp only [hic, if_false] at hyi
      simp only [hjc, if_false] at hyj
      exact h4 i j y hi hj hyi hyj

/-- The free lists after `publish`: the block is the head of the list of its
class, occurs there once and in no other list, and every other listed block
was listed before. -/
theorem publish_lists (t : State) (LT : Nat → List Nat) (r z : Nat) (hf : fam t LT)
    (hr : r % 16 = 8) (hz : z % 16 = 0) (hz32 : 32 ≤ z) (hrz : r + z < WORD_MOD)
    (hg : ∀ i, i < seg_size → ∀ y ∈ LT i, y + 32 ≤ r ∨ r + z ≤ y) :
    get_size (publish t r z) r = z ∧
    (publish t r z).seg_list (get_seg_size z) = r ∧
    ∃ L1 : Nat → List Nat,
      (∀ i, i < seg_size → dchain (publish t r z) 0 ((publish t r z).seg_list i) (L1 i)) ∧
      (L1 (get_seg_size z)).count r = 1 ∧
      (∀ i, i < seg_size → i ≠ get_seg_size z → r ∉ L1 i) ∧
      (∀ i, i < seg_size → ∀ y ∈ L1 i, y ≠ r → y ∈ LT i) := by
  have hfam := publish_fam t LT r z hf hr hz hz32 hrz hg
  have hc := get_seg_size_lt z
  have hrn : ∀ i, i < seg_size → r ∉ LT i := by
    intro i hi e
    have := hg i hi r e
    omega
  refine ⟨?_, by rw [publish_seg, if_pos rfl], _, hfam.1, ?_, ?_, ?_⟩
  · have hhead : t.seg_list (get_seg_size z) = 0 ∨ t.seg_list (get_seg_size z) % 16 = 8 ∧
        t.seg_list (get_seg_size z) + 16 < WORD_MOD := by
      rcases dchain_head t _ _ _ (hf.1 _ hc) with c | c
      · exact Or.inl c
      · exact Or.inr (hf.2.1 _ hc _ c)
    unfold get_size
    simp only [WORD_MOD] at hrz hhead
    rw [publish_mem t r z r hz hz32 (by simp only [WORD_MOD]; omega), if_neg,
      if_neg (by omega), if_neg (by omega), if_neg (by omega), if_pos rfl]
    · exact extract_size_self z (by simp only [WORD_MOD]; omega) hz
    · rintro ⟨h0, e⟩
      rcases hhead with c | ⟨c1, c2⟩
      · exact h0 c
      · simp only [wadd, WORD_MOD] at e; omega
  · simp only [if_true]
    rw [List.count_cons_self, List.count_eq_zero_of_not_mem (hrn _ hc)]
  · intro i hi hic
    simp only [hic, if_false]
    exact hrn i hi
  · intro i hi y hy hyr
    by_cases hic : i = get_seg_size z
    · simp only [hic, if_true] at hy
      rcases List.mem_cons.mp hy with e | e
      · exact absurd e hyr
      · rw [hic]; exact e
    · simp only [hic, if_false] at hy
      exact hy

/-- C27: in a state that is well formed around a free-marked block `b`
(`coalesce_ok`) whose free lists are the well-formed chains `L` that do not
hold `b` (`lists_ok`), `coalesce(b)` returns a block `r`; afterwards `r` is the
head of the list of the class of its size, the free lists are again chains
`L1` from the heads, `r` occurs exactly once in the list of its class and in no
other list, a merged-away free successor is in no list, and when the
predecessor was free the result is the predecessor and `b` is in no list. -/
theorem C27_coalesce_lists (s : State) (b : Nat) (L : Nat → List Nat) (h : coalesce_ok s b)
    (hl : lists_ok s L b) :
    ∃ (s1 : State) (r : Nat) (L1 : Nat → List Nat), coalesce s b = .ok (s1, r) ∧
      s1.seg_list (get_seg_size (get_size s1 r)) = r ∧
      (∀ i, i < seg_size → dchain s1 0 (s1.seg_list i) (L1 i)) ∧
      (L1 (get_seg_size (get_size s1 r))).count r = 1 ∧
      (∀ i, i < seg_size → i ≠ get_seg_size (get_size s1 r) → r ∉ L1 i) ∧
      (get_alloc s (phys_next s (b + 8)) = false →
        ∀ i, i < seg_size → phys_next s (b + 8) ∉ L1 i) ∧
      (get_alloc s (phys_prev s (b + 8)) = false →
        r = phys_prev s (b + 8) ∧ ∀ i, i < seg_size → b ∉ L1 i) := by
  obtain ⟨hAA, hAF, hFA, hFF⟩ := coalesce_shape s b h
  obtain ⟨hok, _, _⟩ := h
  obtain ⟨hp16, hp, hsz32, hps0, hpsle, hnw, hnext, hprev, _⟩ := hok
  obtain ⟨hL, hPin, hNin⟩ := hl
  have e88 : b + 8 - 8 = b := by omega
  rw [e88] at hsz32 hpsle
  have hbn : phys_next s (b + 8) = b + get_size s b := by unfold phys_next; rw [e88]
  have hbp : phys_prev s (b + 8) = b - phys_prev_size s (b + 8) := by
    unfold phys_prev; rw [e88]
  have hszm : get_size s b % 16 = 0 := extract_size_mod _
  have hnsm : get_size s (phys_next s (b + 8)) % 16 = 0 := extract_size_mod _
  have hpsm : phys_prev_size s (b + 8) % 16 = 0 := extract_size_mod _
  simp only [MIN_BLOCK_SIZE, dsize, wsize, WORD_MOD] at hsz32 hnw hnext
  have hW : WORD_MOD = 18446744073709551616 := rfl
  have hdis : ∀ i j y, i < seg_size → j < seg_size → y ∈ L i → y ∈ L j → i = j := by
    intro i j y hi hj hyi hyj
    rw [← ((hL i hi).2.2 y hyi).2.2.2.1, ← ((hL j hj).2.2 y hyj).2.2.2.1]
  have hfam : fam s L :=
    ⟨fun i hi => (hL i hi).1,
      fun i hi y hy => ⟨((hL i hi).2.2 y hy).1, ((hL i hi).2.2 y hy).2.1⟩,
      fun i hi => (hL i hi).2.1, hdis⟩
  have hG : ∀ i, i < seg_size → ∀ y ∈ L i, get_alloc s y = false ∧
      (y + 32 ≤ phys_prev s (b + 8) ∨ y = phys_prev s (b + 8) ∨ y = phys_next s (b + 8) ∨
        phys_next s (b + 8) + get_size s (phys_next s (b + 8)) ≤ y) :=
    fun i hi y hy => ⟨((hL i hi).2.2 y hy).2.2.1, ((hL i hi).2.2 y hy).2.2.2.2⟩
  have hbL : ∀ i, i < seg_size → b ∉ L i := by
    intro i hi e
    have := (hG i hi b e).2
    omega
  -- last step, common to the four cases
  have fin : ∀ (t : State) (LT : Nat → List Nat) (r z : Nat),
      coalesce s b = .ok (publish t r z, r) → fam t LT → r % 16 = 8 → z % 16 = 0 → 32 ≤ z →
      r + z < WORD_MOD → (∀ i, i < seg_size → ∀ y ∈ LT i, y + 32 ≤ r ∨ r + z ≤ y) →
      (∀ i, i < seg_size → ∀ y ∈ LT i, y ∈ L i) →
      (get_alloc s (phys_next s (b + 8)) = false →
        phys_next s (b + 8) ≠ r ∧ ∀ i, i < seg_size → phys_next s (b + 8) ∉ LT i) →
      (get_alloc s (phys_prev s (b + 8)) = false → r = phys_prev s (b + 8)) →
      ∃ (s1 : State) (r : Nat) (L1 : Nat → List Nat), coalesce s b = .ok (s1, r) ∧
        s1.seg_list (get_seg_size (get_size s1 r)) = r ∧
        (∀ i, i < seg_size → dchain s1 0 (s1.seg_list i) (L1 i)) ∧
        (L1 (get_seg_size (get_size s1 r))).count r = 1 ∧
        (∀ i, i < seg_size → i ≠ get_seg_size (get_size s1 r) → r ∉ L1 i) ∧
        (get_alloc s (phys_next s (b + 8)) = false →
          ∀ i, i < seg_size → phys_next s (b + 8) ∉ L1 i) ∧
        (get_alloc s (phys_prev s (b + 8)) = false →
          r = phys_prev s (b + 8) ∧ ∀ i, i < seg_size → b ∉ L1 i) := by
    intro t LT r z hco hft hr hz hz32 hrz hgeo hsub hN hP
    obtain ⟨hgs, hsg, L1, hd, hcnt, hoth, hold⟩ := publish_lists t LT r z hft hr hz hz32 hrz hgeo
    refine ⟨publish t r z, r, L1, hco, by rw [hgs]; exact hsg, hd, by rw [hgs]; exact hcnt,
      by rw [hgs]; exact hoth, ?_, ?_⟩
    · intro hB i hi e
      obtain ⟨n1, n2⟩ := hN hB
      exact n2 i hi (hold i hi _ e n1)
    · intro hA
      have hr := hP hA
      refine ⟨hr, fun i hi e => ?_⟩
      have hbr : b ≠ r := by rw [hr]; omega
      exact hbL i hi (hsub i hi b (hold i hi b e hbr))
  have hcasesA : get_alloc s (phys_prev s (b + 8)) = false ∨
      get_alloc s (phys_prev s (b + 8)) = true := by
    cases get_alloc s (phys_prev s (b + 8)) <;> simp
  have hcasesB : get_alloc s (phys_next s (b + 8)) = false ∨
      get_alloc s (phys_next s (b + 8)) = true := by
    cases get_alloc s (phys_next s (b + 8)) <;> simp
  rcases hcasesA with hA | hA <;> rcases hcasesB with hB | hB
  · -- both neighbours free
    obtain ⟨hps, _, _⟩ := hprev hA
    obtain ⟨hns32, _, _⟩ := hnext hB
    have hPL := hPin hA
    have hNL := hNin hB
    have hcP := get_seg_size_lt (get_size s (phys_prev s (b + 8)))
    have hcN := get_seg_size_lt (get_size s (phys_next s (b + 8)))
    have hPN : phys_next s (b + 8) ≠ phys_prev s (b + 8) := by omega
    obtain ⟨L1, hf1, hfr1, hdic⟩ := delete_listed s L _ hfam hPL
    have hsub1 := delete_listed_sub L L1 _ _ hcP hPL (hL _ hcP).2.1 hdis (hdic.imp (·.2) id)
    have hmN : (delete_free s (phys_prev s (b + 8))).mem (phys_next s (b + 8))
        = s.mem (phys_next s (b + 8)) := by
      apply hfr1
      intro y hy
      obtain ⟨a1, a2, a3, a4, a5⟩ := (hL _ hcP).2.2 y hy
      constructor
      · omega
      · rcases a5 with g | g | g | g <;> omega
    have hgsN : get_size (delete_free s (phys_prev s (b + 8))) (phys_next s (b + 8))
        = get_size s (phys_next s (b + 8)) := by
      unfold get_size; rw [hmN]
    have hlast : ∀ LT : Nat → List Nat,
        (∀ i, i < seg_size → ∀ y ∈ LT i,
          y ∈ L i ∧ y ≠ phys_prev s (b + 8) ∧ y ≠ phys_next s (b + 8)) →
        fam (delete_free (delete_free s (phys_prev s (b + 8))) (phys_next s (b + 8))) LT →
        ∃ (s1 : State) (r : Nat) (L1 : Nat → List Nat), coalesce s b = .ok (s1, r) ∧
          s1.seg_list (get_seg_size (get_size s1 r)) = r ∧
          (∀ i, i < seg_size → dchain s1 0 (s1.seg_list i) (L1 i)) ∧
          (L1 (get_seg_size (get_size s1 r))).count r = 1 ∧
          (∀ i, i < seg_size → i ≠ get_seg_size (get_size s1 r) → r ∉ L1 i) ∧
          (get_alloc s (phys_next s (b + 8)) = false →
            ∀ i, i < seg_size → phys_next s (b + 8) ∉ L1 i) ∧
          (get_alloc s (phys_prev s (b + 8)) = false →
            r = phys_prev s (b + 8) ∧ ∀ i, i < seg_size → b ∉ L1 i) := by
      intro LT hsub hft
      apply fin _ LT _ _ (hFF hA hB) hft (by omega) (by omega) (by omega) (by omega)
      · intro i hi y hy
        obtain ⟨y1, y2, y3⟩ := hsub i hi y hy
        obtain ⟨g1, g2⟩ := hG i hi y y1
        rcases g2 with g | g | g | g
        · exact Or.inl g
        · exact absurd g y2
        · exact absurd g y3
        · right; omega
      · exact fun i hi y hy => (hsub i hi y hy).1
      · intro _
        exact ⟨hPN, fun i hi e => (hsub i hi _ e).2.2 rfl⟩
      · exact fun _ => rfl
    by_cases hN1 : phys_next s (b + 8) ∈ L1 (get_seg_size (get_size s (phys_next s (b + 8))))
    · obtain ⟨L2, hf2, _, hdic2⟩ := delete_listed (delete_free s (phys_prev s (b + 8))) L1
        (phys_next s (b + 8)) hf1 (by rw [hgsN]; exact hN1)
      rw [hgsN] at hdic2
      have hsub2 := delete_listed_sub L1 L2 _ _ hcN hN1 (hf1.2.2.1 _ hcN) hf1.2.2.2
        (hdic2.imp (·.2) id)
      apply hlast L2 _ hf2
      intro i hi y hy
      obtain ⟨y1, y2⟩ := hsub2 i hi y hy
      obtain ⟨y3, y4⟩ := hsub1 i hi y y1
      exact ⟨y3, y4, y2⟩
    · rcases hdic with ⟨hmem, e⟩ | e
      · have hcc : get_seg_size (get_size s (phys_next s (b + 8)))
            = get_seg_size (get_size s (phys_prev s (b + 8))) := by
          by_contra hne
          apply hN1
          rw [e]
          simp only [hne, if_false]
          exact hNL
        have key : ∀ y, y ∈ L (get_seg_size (get_size s (phys_next s (b + 8)))) →
            ∀ i, i < seg_size → y ∉ L1 i := by
          intro y hy i hi hyi
          rw [e] at hyi
          by_cases hic : i = get_seg_size (get_size s (phys_prev s (b + 8)))
          · simp [hic] at hyi
          · simp only [hic, if_false] at hyi
            exact hic ((hdis i _ y hi hcN hyi hy).trans hcc)
        have e1 : get_prev_freed (delete_free s (phys_prev s (b + 8))) (phys_next s (b + 8))
            = get_prev_freed s (phys_next s (b + 8)) := by
          unfold get_prev_freed; rw [hmem]
        have e2 : get_next_freed (delete_free s (phys_prev s (b + 8))) (phys_next s (b + 8))
            = get_next_freed s (phys_next s (b + 8)) := by
          unfold get_next_freed; rw [hmem]
        obtain ⟨L2, hf2, hsub2⟩ := delete_orphan (delete_free s (phys_prev s (b + 8))) L1
          (phys_next s (b + 8)) hf1 (by
            rw [e1, e2]
            intro hp0 hn0
            have hpvL : get_prev_freed s (phys_next s (b + 8))
                ∈ L (get_seg_size (get_size s (phys_next s (b + 8)))) := by
              rcases dchain_prev_mem s _ _ _ _ (hL _ hcN).1 hNL with ⟨_, c⟩ | c
              · exact absurd c hp0
              · exact c
            have hnxL : get_next_freed s (phys_next s (b + 8))
                ∈ L (get_seg_size (get_size s (phys_next s (b + 8)))) := by
              rcases dchain_next_mem s _ _ _ _ (hL _ hcN).1 hNL with c | c
              · exact absurd c hn0
              · exact c
            have a1 := (hL _ hcN).2.2 _ hpvL
            have a2 := (hL _ hcN).2.2 _ hnxL
            exact ⟨⟨a1.1, a1.2.1, key _ hpvL⟩, ⟨a2.1, a2.2.1, key _ hnxL⟩⟩)
        apply hlast L2 _ hf2
        intro i hi y hy
        have y1 := hsub2 i hi y hy
        obtain ⟨y3, y4⟩ := hsub1 i hi y y1
        exact ⟨y3, y4, fun c => key _ hNL i hi (c ▸ y1)⟩
      · exfalso
        apply hN1
        rw [e]
        by_cases hcc : get_seg_size (get_size s (phys_next s (b + 8)))
            = get_seg_size (get_size s (phys_prev s (b + 8)))
        · simp only [hcc, if_true]
          rw [hcc] at hNL
          exact (List.mem_erase_of_ne hPN).mpr hNL
        · simp only [hcc, if_false]
          exact hNL
  · -- only the predecessor is free
    obtain ⟨hps, _, _⟩ := hprev hA
    have hPL := hPin hA
    have hcP := get_seg_size_lt (get_size s (phys_prev s (b + 8)))
    obtain ⟨L1, hf1, _, hdic⟩ := delete_listed s L _ hfam hPL
    have hsub1 := delete_listed_sub L L1 _ _ hcP hPL (hL _ hcP).2.1 hdis (hdic.imp (·.2) id)
    apply fin (delete_free s (phys_prev s (b + 8))) L1 _ _ (hFA hA hB) hf1 (by omega) (by omega)
      (by omega) (by omega)
    · intro i hi y hy
      obtain ⟨y1, y2⟩ := hsub1 i hi y hy
      obtain ⟨g1, g2⟩ := hG i hi y y1
      rcases g2 with g | g | g | g
      · exact Or.inl g
      · exact absurd g y2
      · rw [g, hB] at g1; exact absurd g1 (by decide)
      · right; omega
    · exact fun i hi y hy => (hsub1 i hi y hy).1
    · intro hc; rw [hB] at hc; exact absurd hc (by decide)
    · exact fun _ => rfl
  · -- only the successor is free
    obtain ⟨hns32, _, _⟩ := hnext hB
    have hNL := hNin hB
    have hcN := get_seg_size_lt (get_size s (phys_next s (b + 8)))
    obtain ⟨L1, hf1, _, hdic⟩ := delete_listed s L _ hfam hNL
    have hsub1 := delete_listed_sub L L1 _ _ hcN hNL (hL _ hcN).2.1 hdis (hdic.imp (·.2) id)
    apply fin (delete_free s (phys_next s (b + 8))) L1 _ _ (hAF hA hB) hf1 (by omega) (by omega)
      (by omega) (by omega)
    · intro i hi y hy
      obtain ⟨y1, y2⟩ := hsub1 i hi y hy
      obtain ⟨g1, g2⟩ := hG i hi y y1
      rcases g2 with g | g | g | g
      · left; omega
      · rw [g, hA] at g1; exact absurd g1 (by decide)
      · exact absurd g y2
      · right; omega
    · exact fun i hi y hy => (hsub1 i hi y hy).1
    · intro _
      exact ⟨by omega, fun i hi e => (hsub1 i hi _ e).2 rfl⟩
    · intro hc; rw [hA] at hc; exact absurd hc (by decide)
  · -- both neighbours allocated
    apply fin s L b (get_size s b) (hAA hA hB) hfam (by omega) (by omega) (by omega) (by omega)
    · intro i hi y hy
      obtain ⟨g1, g2⟩ := hG i hi y hy
      rcases g2 with g | g | g | g
      · left; omega
      · rw [g, hA] at g1; exact absurd g1 (by decide)
      · rw [g, hB] at g1; exact absurd g1 (by decide)
      · right; omega
    · exact fun _ _ _ hy => hy
    · intro hc; rw [hB] at hc; exact absurd hc (by decide)
    · intro hc; rw [hA] at hc; exact absurd hc (by decide)

/-- Witness of C27: block `1000056` of `three_free_marked`, whose two free
neighbours are the second and third block of the class-5 list. -/
theorem C27_coalesce_lists_witness :
    (coalesce_ok three_free_marked 1000056 ∧
      lists_ok three_free_marked lists_three_free 1000056) ∧
    ∃ (s1 : State) (r : Nat) (L1 : Nat → List Nat),
      coalesce three_free_marked 1000056 = .ok (s1, r) ∧
      s1.seg_list (get_seg_size (get_size s1 r)) = r ∧
      (∀ i, i < seg_size → dchain s1 0 (s1.seg_list i) (L1 i)) ∧
      (L1 (get_seg_size (get_size s1 r))).count r = 1 ∧
      (∀ i, i < seg_size → i ≠ get_seg_size (get_size s1 r) → r ∉ L1 i) ∧
      (get_alloc three_free_marked (phys_next three_free_marked (1000056 + 8)) = false →
        ∀ i, i < seg_size → phys_next three_free_marked (1000056 + 8) ∉ L1 i) ∧
      (get_alloc three_free_marked (phys_prev three_free_marked (1000056 + 8)) = false →
        r = phys_prev three_free_marked (1000056 + 8) ∧ ∀ i, i < seg_size → 1000056 ∉ L1 i) :=
  ⟨⟨by decide!, by decide!⟩,
    C27_coalesce_lists three_free_marked 1000056 lists_three_free (by decide!) (by decide!)⟩

/-! ### Placement, fit search and insertion -/

/-- C28: in a state that is well formed around block `b` of size `c`
(`place_ok`: `asize` a multiple of 16 with `32 ≤ asize ≤ c`), `place(b, asize)`
returns.  If `c - asize ≥ 32`, header and footer of `b` are
`pack(asize, true)`, the block at `b + asize` has header and footer
`pack(c - asize, false)` and is the head of the list of the class of
`c - asize`, and the two sizes are multiples of 16 that sum to `c`.  Otherwise
the state is the one after `delete_free(b)` with header and footer of `b`
rewritten as `pack(c, true)`, and `c` is a multiple of 16, at least 32. -/
theorem C28_place_splits (s : State) (b asize : Nat) (h : place_ok s b asize) :
    ∃ s1, place s b asize = .ok s1 ∧
      (MIN_BLOCK_SIZE ≤ get_size s b - asize →
        s1.mem b = pack asize true ∧ s1.mem (b + asize - 8) = pack asize true ∧
        s1.mem (b + asize) = pack (get_size s b - asize) false ∧
        s1.mem (b + asize + (get_size s b - asize) - 8) = pack (get_size s b - asize) false ∧
        s1.seg_list (get_seg_size (get_size s b - asize)) = b + asize ∧
        asize + (get_size s b - asize) = get_size s b ∧
        (get_size s b - asize) % 16 = 0) ∧
      (get_size s b - asize < MIN_BLOCK_SIZE →
        s1 = write_footer (write_header (delete_free s b) b (get_size s b) true) b
          (get_size s b) true ∧
        s1.mem b = pack (get_size s b) true ∧
        s1.mem (b + get_size s b - 8) = pack (get_size s b) true ∧
        get_size s b % 16 = 0 ∧ MIN_BLOCK_SIZE ≤ get_size s b) := by
  obtain ⟨hb, ha16, ha32, hac, hbw, hheads⟩ := h
  have hcm : get_size s b % 16 = 0 := extract_size_mod _
  simp only [MIN_BLOCK_SIZE, dsize, wsize, WORD_MOD] at ha32 hbw
  have hsub : wsub (get_size s b) asize = get_size s b - asize := by
    simp only [wsub, WORD_MOD]; omega
  unfold place
  simp only [hsub]
  by_cases hsp : MIN_BLOCK_SIZE ≤ get_size s b - asize
  · -- the block is split
    have hsp2 : 32 ≤ get_size s b - asize := hsp
    generalize hs3 : write_footer (write_header (delete_free s b) b asize true) b asize true = s3
    have hm3 : ∀ x, s3.mem x = if x = b + asize - 8 then pack asize true
        else if x = b then pack asize true else (delete_free s b).mem x := by
      intro x
      rw [← hs3]
      exact write_block_mem _ b asize true x ha16 (by omega) (by simp only [WORD_MOD]; omega)
    have hseg3 : s3.seg_list = (delete_free s b).seg_list := by rw [← hs3]; rfl
    have hgs3 : get_size s3 b = asize := by
      unfold get_size
      rw [hm3, if_neg (by omega), if_pos rfl, pack_true asize ha16, extract_size_eq]
      omega
    have hfn : find_next s3 b = .ok (b + asize) := by
      unfold find_next
      rw [if_neg (by omega), hgs3]
      have : wadd b asize = b + asize := by simp only [wadd, WORD_MOD]; omega
      simp only [this]
      rw [if_neg (by omega)]
    have hpub : add_free (write_footer (write_header s3 (b + asize) (get_size s b - asize) false)
        (b + asize) (get_size s b - asize) false) (b + asize) (get_size s b - asize)
        = publish s3 (b + asize) (get_size s b - asize) := rfl
    have hhead : s3.seg_list (get_seg_size (get_size s b - asize)) = 0 ∨
        (s3.seg_list (get_seg_size (get_size s b - asize)) % 16 = 8 ∧
          s3.seg_list (get_seg_size (get_size s b - asize)) < WORD_MOD ∧
          (s3.seg_list (get_seg_size (get_size s b - asize)) ≤ b ∨
            b + get_size s b ≤ s3.seg_list (get_seg_size (get_size s b - asize)))) := by
      rw [hseg3]
      rcases delete_free_seg s b (get_seg_size (get_size s b - asize)) with h0 | h1
      · exact Or.inl h0
      · rw [h1]; exact hheads _ (get_seg_size_lt _)
    have hzm : (get_size s b - asize) % 16 = 0 := by omega
    have hrz : b + asize + (get_size s b - asize) < WORD_MOD := by simp only [WORD_MOD]; omega
    refine ⟨publish s3 (b + asize) (get_size s b - asize), ?_, ?_, ?_⟩
    · simp only [hs3, hfn, bind, Except.bind, hpub, hsp, ge_iff_le, if_true]
      rfl
    · intro _
      have hnh : ∀ x, x % 16 = 8 ∨ x = b + asize - 8 ∨ x + 8 = b + get_size s b →
          ¬ (s3.seg_list (get_seg_size (get_size s b - asize)) ≠ 0 ∧
            x = wadd (s3.seg_list (get_seg_size (get_size s b - asize))) 8) := by
        rintro x hx ⟨h0, e⟩
        rcases hhead with h1 | ⟨h1, h2, h3⟩
        · exact h0 h1
        · simp only [wadd, WORD_MOD] at e h2
          omega
      refine ⟨?_, ?_, ?_, ?_, ?_, by omega, hzm⟩
      · rw [publish_mem _ _ _ _ hzm hsp2 hrz, if_neg (hnh _ (Or.inl hb)), if_neg (by omega),
          if_neg (by omega), if_neg (by omega), if_neg (by omega), hm3, if_neg (by omega),
          if_pos rfl]
      · rw [publish_mem _ _ _ _ hzm hsp2 hrz, if_neg (hnh _ (Or.inr (Or.inl rfl))),
          if_neg (by omega), if_neg (by omega), if_neg (by omega), if_neg (by omega), hm3,
          if_pos rfl]
      · rw [publish_mem _ _ _ _ hzm hsp2 hrz, if_neg (hnh _ (Or.inl (by omega))),
          if_neg (by omega), if_neg (by omega), if_neg (by omega), if_pos rfl]
        rfl
      · rw [publish_mem _ _ _ _ hzm hsp2 hrz, if_neg (hnh _ (Or.inr (Or.inr (by omega)))),
          if_neg (by omega), if_neg (by omega), if_pos rfl]
        rfl
      · rw [publish_seg, if_pos rfl]
    · intro hc
      exact absurd hsp (Nat.not_le.mpr hc)
  · -- no split
    refine ⟨write_footer (write_header (delete_free s b) b (get_size s b) true) b
      (get_size s b) true, ?_, ?_, ?_⟩
    · simp only [hsp, ge_iff_le, if_false]
      rfl
    · intro hc
      exact absurd hc hsp
    · intro _
      have hw := fun x => write_block_mem (delete_free s b) b (get_size s b) true x hcm
        (by omega) (by simp only [WORD_MOD]; omega)
      refine ⟨rfl, ?_, ?_, hcm, ?_⟩
      · rw [hw, if_neg (by omega), if_pos rfl]
      · rw [hw, if_pos rfl]
      · simp only [MIN_BLOCK_SIZE, dsize, wsize]; omega

/-- Witness of C28: `place(1000024, 32)` on the free block of 4096 bytes that
`mm_init` leaves. -/
theorem C28_place_splits_witness :
    (place_ok (state_after []) 1000024 32 ∧ get_size (state_after []) 1000024 = 4096) ∧
    ∃ s1, place (state_after []) 1000024 32 = .ok s1 ∧
      (MIN_BLOCK_SIZE ≤ get_size (state_after []) 1000024 - 32 →
        s1.mem 1000024 = pack 32 true ∧ s1.mem (1000024 + 32 - 8) = pack 32 true ∧
        s1.mem (1000024 + 32) = pack (get_size (state_after []) 1000024 - 32) false ∧
        s1.mem (1000024 + 32 + (get_size (state_after []) 1000024 - 32) - 8)
          = pack (get_size (state_after []) 1000024 - 32) false ∧
        s1.seg_list (get_seg_size (get_size (state_after []) 1000024 - 32)) = 1000024 + 32 ∧
        32 + (get_size (state_after []) 1000024 - 32) = get_size (state_after []) 1000024 ∧
        (get_size (state_after []) 1000024 - 32) % 16 = 0) ∧
      (get_size (state_after []) 1000024 - 32 < MIN_BLOCK_SIZE →
        s1 = write_footer (write_header (delete_free (state_after []) 1000024) 1000024
          (get_size (state_after []) 1000024) true) 1000024
          (get_size (state_after []) 1000024) true ∧
        s1.mem 1000024 = pack (get_size (state_after []) 1000024) true ∧
        s1.mem (1000024 + get_size (state_after []) 1000024 - 8)
          = pack (get_size (state_after []) 1000024) true ∧
        get_size (state_after []) 1000024 % 16 = 0 ∧
        MIN_BLOCK_SIZE ≤ get_size (state_after []) 1000024) :=
  ⟨⟨by decide!, by decide!⟩, C28_place_splits (state_after []) 1000024 32 (by decide!)⟩

/-- The inner loop of `find_fit` on a list that ends returns the first block
of the list whose size is at least `asize`, or NULL. -/
theorem find_fit_scan_first (s : State) (asize fuel block : Nat)
    (h : list_ends s fuel block = true) :
    find_fit_scan s asize fuel block =
      .ok (((free_list s fuel block).find? (fun b => decide (asize ≤ get_size s b))).getD 0) := by
  induction fuel generalizing block with
  | zero =>
    unfold list_ends at h
    unfold find_fit_scan
    by_cases hb : block = 0
    · simp [hb, free_list]
    · simp [hb] at h
  | succ k ih =>
    unfold list_ends at h
    unfold find_fit_scan
    by_cases hb : block = 0
    · simp [hb, free_list]
    · simp only [hb, if_false] at h ⊢
      unfold free_list
      simp only [hb, if_false]
      by_cases hs : asize ≤ get_size s block
      · simp [hs, List.find?]
      · simp only [hs, if_false]
        rw [ih _ h]
        simp [List.find?, hs]

/-- For `asize ≥ 2` the outer loop of `find_fit` scans the last list only. -/
theorem find_fit_loop_last (s : State) (asize fuel : Nat) (h : 2 ≤ asize) (k index : Nat)
    (hi : index < seg_size) (hk : seg_size - index ≤ k) :
    find_fit_loop s asize fuel k index = find_fit_scan s asize fuel (s.seg_list (seg_size - 1)) := by
  induction k generalizing index with
  | zero => simp only [seg_size] at *; omega
  | succ k ih =>
    unfold find_fit_loop
    rw [if_pos hi]
    by_cases hl : index = seg_size - 1
    · rw [if_pos (Or.inl hl), hl]
      cases hsc : find_fit_scan s asize fuel (s.seg_list (seg_size - 1)) with
      | error e => rfl
      | ok block =>
        by_cases hb : block = 0
        · subst hb
          simp only [ne_eq, not_true_eq_false, if_false]
          cases k with
          | zero => rfl
          | succ k => unfold find_fit_loop; simp [seg_size]
        · simp [hb]
    · have hn : ¬ (index = seg_size - 1 ∨ (asize ≤ 1 ∧ s.seg_list index ≠ 0)) := by
        rintro (c | c)
        · exact hl c
        · omega
      rw [if_neg hn]
      apply ih
      · simp only [seg_size] at *; omega
      · simp only [seg_size] at *; omega

/-- The inner loop of `find_fit` does not read the heads. -/
theorem find_fit_scan_heads (s : State) (heads : Nat → Nat) (asize fuel block : Nat) :
    find_fit_scan { s with seg_list := heads } asize fuel block
      = find_fit_scan s asize fuel block := by
  induction fuel generalizing block with
  | zero => unfold find_fit_scan; rfl
  | succ k ih =>
    unfold find_fit_scan
    by_cases hb : block = 0
    · simp [hb]
    · simp only [hb, if_false]
      show (if asize ≤ get_size s block then _ else _) = _
      rw [ih]
      rfl

/-- The adjusted size of `malloc` is at least `MIN_BLOCK_SIZE` for every request
outside the 15 values `2 ^ 64 - 31 .. 2 ^ 64 - 17`. -/
theorem asize_min (n : Nat) (hn : n < WORD_MOD)
    (h : n + 32 ≤ WORD_MOD ∨ WORD_MOD ≤ n + 16) :
    32 ≤ round_up (Mm.max MIN_BLOCK_SIZE (wadd dsize n)) dsize := by
  simp only [WORD_MOD] at hn h
  by_cases c : n < 16
  · have hw : wadd dsize n = n + 16 := by
      simp only [wadd, dsize, wsize, WORD_MOD]; omega
    have hmax : Mm.max MIN_BLOCK_SIZE (wadd dsize n) = 32 := by
      rw [hw]
      unfold Mm.max
      simp only [MIN_BLOCK_SIZE, dsize, wsize]
      rw [if_pos (by omega)]
    rw [hmax]
    decide
  · rcases h with h | h
    · have hw : wadd dsize n = n + 16 := by
        simp only [wadd, dsize, wsize, WORD_MOD]; omega
      have hmax : Mm.max MIN_BLOCK_SIZE (wadd dsize n) = n + 16 := by
        rw [hw]
        unfold Mm.max
        simp only [MIN_BLOCK_SIZE, dsize, wsize]
        rw [if_neg (by omega)]
      rw [hmax]
      simp only [round_up, wmul, wadd, wsub, dsize, wsize, WORD_MOD]
      omega
    · have hw : wadd dsize n = n + 16 - 18446744073709551616 := by
        simp only [wadd, dsize, wsize, WORD_MOD]; omega
      have hmax : Mm.max MIN_BLOCK_SIZE (wadd dsize n) = 32 := by
        rw [hw]
        unfold Mm.max
        simp only [MIN_BLOCK_SIZE, dsize, wsize]
        rw [if_pos (by omega)]
      rw [hmax]
      decide

/-- C29, counterexample: for the requests `2 ^ 64 - 31`, `2 ^ 64 - 20` and
`2 ^ 64 - 17` the adjusted size that `malloc` computes is 0, not at least 2.
After `mm_init`, where the class-12 list holds the block `1000024` of 4096
bytes and the class-14 list is empty, `find_fit(0)` returns `1000024` while
the scan of `seg_list[14]` returns NULL; and `malloc(2 ^ 64 - 20)` returns
`1000032` inside that block without growing the region. -/
theorem C29_wrapped_request_scans_lower_class :
    [round_up (Mm.max MIN_BLOCK_SIZE (wadd dsize 18446744073709551585)) dsize,
      round_up (Mm.max MIN_BLOCK_SIZE (wadd dsize 18446744073709551596)) dsize,
      round_up (Mm.max MIN_BLOCK_SIZE (wadd dsize 18446744073709551599)) dsize] = [0, 0, 0] ∧
    observe (after_calls [])
        (fun s _ => ((outcome (find_fit s 0 100)).1,
          (outcome (find_fit_scan s 0 100 (s.seg_list 14))).1,
          [s.seg_list 12, s.seg_list 14, get_size s 1000024]))
      = some (some 1000024, some 0, [1000024, 0, 4096]) ∧
    observe (after_calls [])
        (fun s _ => (outcome (malloc s 18446744073709551596 100)).1.map
          (fun r => [r.2, r.1.mem_brk]))
      = some (some [1000032, 1004128]) := by
  refine ⟨by decide, by decide!, by decide!⟩

/-- C29, as the code has it: for `asize ≥ 2`, `find_fit(asize)` is the scan of
`seg_list[14]`: when that list ends within the fuel, the call returns the
first block of the list, in `next`-link order, whose size is at least `asize`,
or NULL when there is none; and the result is the same for any other contents
of the heads of classes 0..13.  The adjusted size that `malloc` computes for a
request `n < 2 ^ 64` is at least 2 when `n ≤ 2 ^ 64 - 32` or `n ≥ 2 ^ 64 - 16`,
and for these requests the `find_fit` call of `malloc` is that scan. -/
theorem C29_find_fit_catch_all (s : State) (asize fuel : Nat) (h : 2 ≤ asize) :
    find_fit s asize fuel = find_fit_scan s asize fuel (s.seg_list 14) ∧
    (list_ends s fuel (s.seg_list 14) = true →
      find_fit s asize fuel = .ok (((free_list s fuel (s.seg_list 14)).find?
        (fun b => decide (asize ≤ get_size s b))).getD 0)) ∧
    (∀ heads : Nat → Nat, heads 14 = s.seg_list 14 →
      find_fit { s with seg_list := heads } asize fuel = find_fit s asize fuel) ∧
    (∀ n : Nat, n < WORD_MOD → (n + 32 ≤ WORD_MOD ∨ WORD_MOD ≤ n + 16) →
      2 ≤ round_up (Mm.max MIN_BLOCK_SIZE (wadd dsize n)) dsize ∧
      find_fit s (round_up (Mm.max MIN_BLOCK_SIZE (wadd dsize n)) dsize) fuel
        = find_fit_scan s (round_up (Mm.max MIN_BLOCK_SIZE (wadd dsize n)) dsize) fuel
            (s.seg_list 14)) := by
  have key : ∀ (a : Nat), 2 ≤ a → ∀ t : State,
      find_fit t a fuel = find_fit_scan t a fuel (t.seg_list 14) := by
    intro a ha t
    unfold find_fit
    exact find_fit_loop_last t a fuel ha seg_size _ (get_seg_size_lt a)
      (by simp only [seg_size]; omega)
  refine ⟨key asize h s, ?_, ?_, ?_⟩
  · intro he
    rw [key asize h s]
    exact find_fit_scan_first s asize fuel _ he
  · intro heads hh
    rw [key asize h, key asize h s, find_fit_scan_heads]
    show find_fit_scan s asize fuel (heads 14) = _
    rw [hh]
  · intro n hn hr
    have h32 := asize_min n hn hr
    exact ⟨by omega, key _ (by omega) s⟩

/-- Witness of C29: `find_fit(32)` after `malloc(20000)`, `malloc(16)` and the
release of the first, where the class-14 list holds the block `1000024`; and
the request `n = 16`, whose adjusted size is at least 2. -/
theorem C29_find_fit_catch_all_witness :
    (2 ≤ 32 ∧
      free_list (state_after [.malloc 20000, .malloc 16, .free 0]) 100
        ((state_after [.malloc 20000, .malloc 16, .free 0]).seg_list 14) = [1000024]) ∧
    find_fit (state_after [.malloc 20000, .malloc 16, .free 0]) 32 100
      = .ok (((free_list (state_after [.malloc 20000, .malloc 16, .free 0]) 100
          ((state_after [.malloc 20000, .malloc 16, .free 0]).seg_list 14)).find?
        (fun b => decide (32 ≤ get_size (state_after [.malloc 20000, .malloc 16, .free 0]) b))).getD
          0) ∧
    (16 < WORD_MOD ∧ (16 + 32 ≤ WORD_MOD ∨ WORD_MOD ≤ 16 + 16)) ∧
    2 ≤ round_up (Mm.max MIN_BLOCK_SIZE (wadd dsize 16)) dsize :=
  ⟨⟨by decide, by decide!⟩,
    (C29_find_fit_catch_all (state_after [.malloc 20000, .malloc 16, .free 0]) 32 100
      (by decide)).2.1 (by decide!),
    ⟨by decide, Or.inl (by decide)⟩,
    ((C29_find_fit_catch_all (state_after [.malloc 20000, .malloc 16, .free 0]) 32 100
      (by decide)).2.2.2 16 (by decide) (Or.inl (by decide))).1⟩

/-- C30: for a block `b` at an address congruent to 8 modulo 16 and a class whose
head is NULL or another such block, after `add_free(b, size)` the head of the
class of `size` is `b`, `b.prev` is NULL, `b.next` is the old head, the old
head's `prev` (when there is an old head) is `b`, every other head is
unchanged, and the list of the class is `b` followed by the old list (whose
blocks are aligned and differ from `b`). -/
theorem C30_add_free_pushes (s : State) (b size : Nat) (hb : b % 16 = 8)
    (hbw : b + 16 < WORD_MOD)
    (hh : s.seg_list (get_seg_size size) = 0 ∨
      (s.seg_list (get_seg_size size) % 16 = 8 ∧ s.seg_list (get_seg_size size) + 16 < WORD_MOD ∧
        s.seg_list (get_seg_size size) ≠ b)) :
    (add_free s b size).seg_list (get_seg_size size) = b ∧
    get_prev_freed (add_free s b size) b = 0 ∧
    get_next_freed (add_free s b size) b = s.seg_list (get_seg_size size) ∧
    (s.seg_list (get_seg_size size) ≠ 0 →
      get_prev_freed (add_free s b size) (s.seg_list (get_seg_size size)) = b) ∧
    (∀ i, i ≠ get_seg_size size → (add_free s b size).seg_list i = s.seg_list i) ∧
    (∀ fuel, (∀ y ∈ free_list s fuel (s.seg_list (get_seg_size size)),
        y % 16 = 8 ∧ y + 16 < WORD_MOD ∧ y ≠ b) →
      free_list (add_free s b size) (fuel + 1) ((add_free s b size).seg_list (get_seg_size size))
        = b :: free_list s fuel (s.seg_list (get_seg_size size))) := by
  have hb0 : b ≠ 0 := by omega
  simp only [WORD_MOD] at hbw hh
  have e8 : wadd b 8 = b + 8 := by simp only [wadd, WORD_MOD]; omega
  have e16 : wadd b 16 = b + 16 := by simp only [wadd, WORD_MOD]; omega
  have hn : get_next_freed (add_free s b size) b = s.seg_list (get_seg_size size) := by
    unfold get_next_freed
    rw [add_free_mem, e8, e16, if_neg, if_neg (by omega), if_pos rfl]
    rintro ⟨h0, e⟩
    rcases hh with h1 | ⟨h1, h2, _⟩
    · exact h0 h1
    · simp only [wadd, WORD_MOD] at e; omega
  refine ⟨by rw [add_free_seg, if_pos rfl], ?_, hn, ?_, ?_, ?_⟩
  · unfold get_prev_freed
    rw [add_free_mem, e8, if_neg, if_pos rfl]
    rintro ⟨h0, e⟩
    rcases hh with h1 | ⟨h1, h2, h3⟩
    · exact h0 h1
    · simp only [wadd, WORD_MOD] at e; omega
  · intro h0
    unfold get_prev_freed
    rw [add_free_mem, if_pos ⟨h0, rfl⟩]
  · intro i hi
    rw [add_free_seg, if_neg hi]
  · intro fuel hl
    rw [add_free_seg, if_pos rfl]
    show free_list (add_free s b size) (fuel + 1) b = _
    rw [free_list, if_neg hb0, hn]
    congr 1
    apply free_list_frame
    intro y hy
    obtain ⟨y16, yw, yb⟩ := hl y hy
    simp only [WORD_MOD] at yw
    rw [add_free_mem, e8, e16, if_neg, if_neg, if_neg]
    · simp only [wadd, WORD_MOD]; omega
    · simp only [wadd, WORD_MOD]; omega
    · rintro ⟨h0, e⟩
      rcases hh with h1 | ⟨h1, h2, _⟩
      · exact h0 h1
      · simp only [wadd, WORD_MOD] at e; omega

/-- Witness of C30: `add_free(1000088, 32)` where the class-5 list holds the
block `1000024`. -/
theorem C30_add_free_pushes_witness :
    (state_after [.malloc 16, .malloc 16, .malloc 16, .free 0]).seg_list (get_seg_size 32)
      = 1000024 ∧
    (add_free (state_after [.malloc 16, .malloc 16, .malloc 16, .free 0]) 1000088 32).seg_list
      (get_seg_size 32) = 1000088 ∧
    get_prev_freed (add_free (state_after [.malloc 16, .malloc 16, .malloc 16, .free 0])
      1000088 32) 1000088 = 0 ∧
    get_next_freed (add_free (state_after [.malloc 16, .malloc 16, .malloc 16, .free 0])
      1000088 32) 1000088
      = (state_after [.malloc 16, .malloc 16, .malloc 16, .free 0]).seg_list (get_seg_size 32) :=
  ⟨by decide!,
    (C30_add_free_pushes (state_after [.malloc 16, .malloc 16, .malloc 16, .free 0]) 1000088 32
      (by decide) (by decide) (Or.inr (by decide!))).1,
    (C30_add_free_pushes (state_after [.malloc 16, .malloc 16, .malloc 16, .free 0]) 1000088 32
      (by decide) (by decide) (Or.inr (by decide!))).2.1,
    (C30_add_free_pushes (state_after [.malloc 16, .malloc 16, .malloc 16, .free 0]) 1000088 32
      (by decide) (by decide) (Or.inr (by decide!))).2.2.1⟩

/-! ### Size classes, navigation, growth of the region and the page cache -/

/-- The loop of `get_seg_size` started at `index` with `k` rounds left adds the
binary logarithm of `size` to `index`, capped at the last class. -/
theorem get_seg_size_loop_log (k size index : Nat) (h : index + k = seg_size - 1) :
    get_seg_size_loop k size index = min (index + Nat.log 2 size) (seg_size - 1) := by
  induction k generalizing size index with
  | zero =>
    unfold get_seg_size_loop
    simp only [seg_size] at *
    omega
  | succ k ih =>
    unfold get_seg_size_loop
    by_cases hc : index < seg_size - 1 ∧ size > 1
    · rw [if_pos hc, ih (size >>> 1) (index + 1) (by omega)]
      have hs : size >>> 1 = size / 2 := by
        rw [Nat.shiftRight_eq_div_pow]
      have hl : Nat.log 2 size = Nat.log 2 (size / 2) + 1 :=
        Nat.log_of_one_lt_of_le (by decide) (by omega)
      rw [hs, hl]
      congr 1
      omega
    · rw [if_neg hc]
      have hle : size ≤ 1 := by
        simp only [seg_size] at *
        by_contra hgt
        exact hc ⟨by omega, by omega⟩
      have hl : Nat.log 2 size = 0 := Nat.log_eq_zero_iff.mpr (Or.inl (by omega))
      rw [hl]
      simp only [seg_size] at *
      omega

/-- The class of a size is its binary logarithm, capped at 14. -/
theorem get_seg_size_log (size : Nat) : get_seg_size size = min (Nat.log 2 size) 14 := by
  unfold get_seg_size
  rw [get_seg_size_loop_log _ _ _ (by simp)]
  simp [seg_size]

/-- C31: `get_seg_size(s) = min(floor(log2 s), 14)` for every `s` (`Nat.log 2 0 = 0`,
so the class of 0 is 0); the result is always below `seg_size = 15`; and the
class is 14 exactly when `s ≥ 16384`. -/
theorem C31_get_seg_size_is_log (s : Nat) :
    get_seg_size s = min (Nat.log 2 s) 14 ∧ (s = 0 → get_seg_size s = 0) ∧
    get_seg_size s < seg_size ∧ (get_seg_size s = 14 ↔ 16384 ≤ s) := by
  have h := get_seg_size_log s
  refine ⟨h, ?_, get_seg_size_lt s, ?_⟩
  · intro h0
    rw [h, h0]
    simp
  · rw [h]
    constructor
    · intro hm
      have h14 : 14 ≤ Nat.log 2 s := by omega
      have := Nat.pow_le_of_le_log (by
        intro e; rw [e] at h14; simp at h14) h14
      simpa using this
    · intro hs
      have : 14 ≤ Nat.log 2 s := Nat.le_log_of_pow_le (by decide) (by simpa using hs)
      omega

/-- C32: `get_seg_size` is monotone: `s1 ≤ s2` implies
`get_seg_size s1 ≤ get_seg_size s2`. -/
theorem C32_get_seg_size_monotone (s1 s2 : Nat) (h : s1 ≤ s2) :
    get_seg_size s1 ≤ get_seg_size s2 := by
  rw [get_seg_size_log, get_seg_size_log]
  have := Nat.log_mono_right (b := 2) h
  omega

/-- Witness of C32: sizes 4095 and 4096, of classes 11 and 12. -/
theorem C32_get_seg_size_monotone_witness :
    4095 ≤ 4096 ∧ get_seg_size 4095 ≤ get_seg_size 4096 ∧
      get_seg_size 4095 = 11 ∧ get_seg_size 4096 = 12 :=
  ⟨by decide, C32_get_seg_size_monotone 4095 4096 (by decide), by decide, by decide⟩

/-- C36: `delete_free` equals the two-branch function of the claim
(`delete_free_two_branch`): when `prev` or `next` of the block is NULL the head
of its class becomes NULL; otherwise `next.prev = prev`, `prev.next = next`
and the heads are unchanged.  When the first test fails, the tests of the
second and third branch (`prev == NULL && next != NULL`,
`prev != NULL && next == NULL`) are false: those branches are never taken. -/
theorem C36_delete_free_two_branches (s : State) (removed : Nat) :
    delete_free s removed = delete_free_two_branch s removed ∧
    (¬ (get_prev_freed s removed = 0 ∨ get_next_freed s removed = 0) →
      ¬ (get_prev_freed s removed = 0 ∧ get_next_freed s removed ≠ 0) ∧
      ¬ (get_prev_freed s removed ≠ 0 ∧ get_next_freed s removed = 0) ∧
      (delete_free s removed).seg_list = s.seg_list) := by
  refine ⟨delete_free_eq s removed, ?_⟩
  intro hn
  refine ⟨fun c => hn (Or.inl c.1), fun c => hn (Or.inr c.2), ?_⟩
  rw [delete_free_eq, if_neg hn]
  rfl

/-- C35: for a block `b` (not NULL) whose header and footer were written by
`write_header` then `write_footer` with a size `z ≥ 16` that is a multiple of
16 (and `b + z` below `2 ^ 64`): `find_next(b) = b + z`, the footer is the
word at `b + z - 8`, header and footer hold `pack(z, a)`, and
`find_prev(b + z) = b`. -/
theorem C35_navigation_round_trip (s : State) (b z : Nat) (a : Bool) (hb : b ≠ 0)
    (hz : z % 16 = 0) (hz16 : 16 ≤ z) (hbz : b + z < WORD_MOD) :
    find_next (write_footer (write_header s b z a) b z a) b = .ok (b + z) ∧
    (write_footer (write_header s b z a) b z a).mem (b + z - 8) = pack z a ∧
    (write_footer (write_header s b z a) b z a).mem b = pack z a ∧
    find_prev (write_footer (write_header s b z a) b z a) (b + z) = b := by
  have hm := fun x => write_block_mem s b z a x hz hz16 hbz
  simp only [WORD_MOD] at hbz
  have hp : extract_size (pack z a) = z := by
    cases a
    · exact extract_size_self z (by simp only [WORD_MOD]; omega) hz
    · rw [pack_true z hz, extract_size_eq]; omega
  have hh : (write_footer (write_header s b z a) b z a).mem b = pack z a := by
    rw [hm, if_neg (by omega), if_pos rfl]
  have hf : (write_footer (write_header s b z a) b z a).mem (b + z - 8) = pack z a := by
    rw [hm, if_pos rfl]
  refine ⟨?_, hf, hh, ?_⟩
  · unfold find_next get_size
    rw [if_neg hb, hh, hp]
    have : wadd b z = b + z := by simp only [wadd, WORD_MOD]; omega
    simp only [this]
    rw [if_neg (by omega)]
  · unfold find_prev find_prev_footer
    have h8 : wsub (b + z) 8 = b + z - 8 := by simp only [wsub, WORD_MOD]; omega
    rw [h8, hf, hp]
    simp only [wsub, WORD_MOD]; omega

/-- Witness of C35: an allocated block of 32 bytes written at `1000024`. -/
theorem C35_navigation_round_trip_witness :
    (1000024 ≠ 0 ∧ 32 % 16 = 0 ∧ 16 ≤ 32 ∧ 1000024 + 32 < WORD_MOD) ∧
    find_next (write_footer (write_header (fresh 1000000 20971520) 1000024 32 true)
      1000024 32 true) 1000024 = .ok (1000024 + 32) ∧
    (write_footer (write_header (fresh 1000000 20971520) 1000024 32 true)
      1000024 32 true).mem (1000024 + 32 - 8) = pack 32 true ∧
    (write_footer (write_header (fresh 1000000 20971520) 1000024 32 true)
      1000024 32 true).mem 1000024 = pack 32 true ∧
    find_prev (write_footer (write_header (fresh 1000000 20971520) 1000024 32 true)
      1000024 32 true) (1000024 + 32) = 1000024 :=
  ⟨⟨by decide, by decide, by decide, by decide⟩,
    C35_navigation_round_trip (fresh 1000000 20971520) 1000024 32 true (by decide) (by decide)
      (by decide) (by decide)⟩

/-- The block that a successful `extend_heap` returns: the new block, or the
free last block merged with it; header and footer hold its size with a clear
allocated flag, and it ends at the new epilogue header. -/
theorem extend_block (s : State) (size fuel : Nat) (h : extend_ok s size fuel) :
    ∃ s1 r z, extend_heap s size fuel = .ok (s1, r) ∧ r ≠ 0 ∧
      (get_alloc s (last_block s) = true → r = s.mem_brk - 8 ∧ z = round_up size dsize) ∧
      (get_alloc s (last_block s) = false →
        r = last_block s ∧ z = last_size s + round_up size dsize) ∧
      s1.mem r = pack z false ∧ s1.mem (r + z - 8) = pack z false ∧ get_size s1 r = z ∧
      r + z = s.mem_brk + round_up size dsize - 8 := by
  obtain ⟨hok, hpp, hgap, hA, hF⟩ := extend_shape s size fuel h
  obtain ⟨hB16, hH16, hH, hHB, hsz32, hroom, hW, hps0, hpsle, hprev, _⟩ := h
  have hm := round_up_mod size
  have hpsm : last_size s % 16 = 0 := extract_size_mod _
  have hsz32b : 32 ≤ round_up size dsize := hsz32
  have hWd : s.mem_brk + round_up size dsize + 16 < WORD_MOD := hW
  have hgsb : get_size (grown s size) (s.mem_brk - 8) = round_up size dsize := by
    unfold get_size
    rw [grown_mem s size _ (by omega) hsz32b hWd]
    simp only [WORD_MOD] at hW
    rw [if_neg (by omega), if_neg (by omega), if_neg (by omega), if_pos rfl]
    exact extract_size_self _ (by simp only [WORD_MOD]; omega) hm
  have hpn : phys_next (grown s size) (s.mem_brk - 8 + 8)
      = s.mem_brk + round_up size dsize - 8 := by
    unfold phys_next
    have e88 : s.mem_brk - 8 + 8 - 8 = s.mem_brk - 8 := by omega
    rw [e88, hgsb]; omega
  have hlb : last_block s = s.mem_brk - 8 - last_size s := rfl
  have hfree := hok.1
  clear hok hroom hgap hpp
  generalize round_up size dsize = sz at *
  generalize last_size s = ps at *
  simp only [WORD_MOD] at hW
  have hsize : ∀ (t : State) (r z : Nat), z % 16 = 0 → z < 18446744073709551616 →
      (publish t r z).mem r = pack z false → get_size (publish t r z) r = z := by
    intro t r z hz hzw hm
    unfold get_size
    rw [hm]
    exact extract_size_self z hzw hz
  rcases Bool.eq_false_or_eq_true (get_alloc s (last_block s)) with hal | hal
  · have ht := publish_tags (grown s size) (grown s size) (s.mem_brk - 8) (s.mem_brk - 8) sz
      hfree (fun _ => Or.inr rfl) (by omega) hm hsz32b (by simp only [WORD_MOD]; omega)
      (Or.inl (by rw [hpn]; omega))
    refine ⟨_, _, sz, hA hal, by omega, fun _ => ⟨rfl, rfl⟩, ?_, ht.1, ht.2,
      hsize _ _ _ hm (by omega) ht.1, by omega⟩
    intro hc; rw [hal] at hc; exact absurd hc (by decide)
  · obtain ⟨h1, h2, h3, _, _⟩ := hprev hal
    simp only [MIN_BLOCK_SIZE, dsize, wsize] at h3
    have ht := publish_tags (grown s size) (delete_free (grown s size) (last_block s))
      (s.mem_brk - 8) (last_block s) (ps + sz) hfree
      (fun i => delete_free_seg (grown s size) (last_block s) i) (by omega) (by omega)
      (by omega) (by simp only [WORD_MOD]; omega) (Or.inl (by rw [hpn]; omega))
    refine ⟨_, _, ps + sz, hF hal, by omega, ?_, fun _ => ⟨rfl, rfl⟩, ht.1, ht.2,
      hsize _ _ _ (by omega) (by omega) ht.1, by omega⟩
    intro hc; rw [hal] at hc; exact absurd hc (by decide)

/-- C33, counterexample: in the well-formed heap left by four `malloc(16)` and a
`malloc(20336)` (no free block, last block allocated, region end `1020512`),
`extend_heap(16)` returns block `1020504` with header 16 while the word
meant as its footer and the last word of the grown region are both 0: the
list links of the 16-byte block overwrite its footer and the epilogue header,
so the last word is not an allocated header.  After `mm_init` alone, where the
last block is free with size 4096, `extend_heap(0)` grows nothing and
returns the old epilogue position with size 16 instead of the merged block. -/
theorem C33_small_extension_breaks_epilogue :
    observe (after_calls calls_all_allocated)
        (fun s _ => (heap_wf s 100 && get_alloc s (last_block s),
          (List.range 15).map (fun i => s.seg_list i), [s.mem_brk, last_block s]))
      = some (true, [0, 0, 0, 0, 0, 0, 0, 0, 0, 0, 0, 0, 0, 0, 0], [1020512, 1000152]) ∧
    observe (after_calls calls_all_allocated)
        (fun s _ => (outcome (extend_heap s 16 100)).1.map
          (fun r => (get_alloc r.1 (r.1.mem_brk - 8),
            [r.2, r.1.mem_brk, r.1.mem r.2, r.1.mem (r.1.mem_brk - 16), r.1.mem (r.1.mem_brk - 8)])))
      = some (some (false, [1020504, 1020528, 16, 0, 0])) ∧
    observe (after_calls [])
        (fun s _ => (get_alloc s 1000024, [last_block s, get_size s 1000024, s.mem_brk]))
      = some (false, [1000024, 4096, 1004128]) ∧
    observe (after_calls [])
        (fun s _ => (outcome (extend_heap s 0 100)).1.map
          (fun r => (get_alloc r.1 (r.1.mem_brk - 8),
            [r.2, r.1.mem_brk, get_size r.1 r.2, r.1.mem (r.1.mem_brk - 8)])))
      = some (some (false, [1004120, 1004128, 16, 16])) := by
  decide!

/-- C33, as the code has it: in a state that is well formed at the end of the
region and for a size whose round-up `r` is at least `MIN_BLOCK_SIZE = 32` and
that `mem_sbrk` grants (`extend_ok`), `extend_heap(size)` returns; the region
end grows by `r`; before the merge the word at the old epilogue position
(`mem_brk - 8`) and the word at that position `+ r - 8` hold `pack(r, false)`;
the last word of the grown region has the allocated flag set; if the last
block was free with size `q` the result is that block with size `q + r`,
otherwise the result is the old epilogue position with size `r`; header and
footer of the result hold its size with a clear allocated flag. -/
theorem C33_extend_heap_result (s : State) (size fuel : Nat) (h : extend_ok s size fuel) :
    ∃ s1 r, extend_heap s size fuel = .ok (s1, r) ∧
      s1.mem_brk = s.mem_brk + round_up size dsize ∧
      (grown s size).mem (s.mem_brk - 8) = pack (round_up size dsize) false ∧
      (grown s size).mem (s.mem_brk - 8 + round_up size dsize - 8)
        = pack (round_up size dsize) false ∧
      get_alloc s1 (s1.mem_brk - 8) = true ∧
      (get_alloc s (last_block s) = false →
        r = last_block s ∧ get_size s (last_block s) = last_size s ∧
        get_size s1 r = last_size s + round_up size dsize) ∧
      (get_alloc s (last_block s) = true →
        r = s.mem_brk - 8 ∧ get_size s1 r = round_up size dsize) ∧
      s1.mem r = pack (get_size s1 r) false ∧
      s1.mem (r + get_size s1 r - 8) = pack (get_size s1 r) false := by
  obtain ⟨s1, r, z, he, hr, hA, hF, hh, hf, hgs, _⟩ := extend_block s size fuel h
  obtain ⟨s2, r2, he2, _, _, hbrk, _, _, hlast⟩ := extend_ends s size fuel h
  rw [he] at he2
  have e1 : s2 = s1 := by injection he2 with e; injection e with e1 _; exact e1.symm
  subst e1
  obtain ⟨hB16, hH16, hH, hHB, hsz32, hroom, hW, hps0, hpsle, hprev, _⟩ := h
  have hsz32b : 32 ≤ round_up size dsize := hsz32
  have hgm := fun x => grown_mem s size x (by omega) hsz32b hW
  simp only [WORD_MOD] at hW
  refine ⟨s2, r, he, hbrk, ?_, ?_, ?_, ?_, ?_, by rw [hgs]; exact hh, by rw [hgs]; exact hf⟩
  · rw [hgm, if_neg (by omega), if_neg (by omega), if_neg (by omega), if_pos rfl]
    rfl
  · rw [hgm, if_neg (by omega), if_neg (by omega), if_pos (by omega)]
    rfl
  · unfold get_alloc
    rw [hlast]
    decide
  · intro hal
    obtain ⟨e1, e2⟩ := hF hal
    exact ⟨e1, (hprev hal).2.1, by rw [hgs, e2]⟩
  · intro hal
    obtain ⟨e1, e2⟩ := hA hal
    exact ⟨e1, by rw [hgs, e2]⟩

/-- Witness of C33: `extend_heap(4096)` after one `malloc(16)` (last block free)
and `extend_heap(32)` in a heap without free block (last block allocated). -/
theorem C33_extend_heap_result_witness :
    (extend_ok (state_after [.malloc 16]) 4096 100 ∧
      get_alloc (state_after [.malloc 16]) (last_block (state_after [.malloc 16])) = false) ∧
    (extend_ok (state_after calls_all_allocated) 32 100 ∧
      get_alloc (state_after calls_all_allocated) (last_block (state_after calls_all_allocated))
        = true) ∧
    (∃ s1 r, extend_heap (state_after [.malloc 16]) 4096 100 = .ok (s1, r) ∧
      s1.mem_brk = (state_after [.malloc 16]).mem_brk + round_up 4096 dsize) ∧
    (∃ s1 r, extend_heap (state_after calls_all_allocated) 32 100 = .ok (s1, r) ∧
      s1.mem_brk = (state_after calls_all_allocated).mem_brk + round_up 32 dsize) :=
  ⟨⟨by decide!, by decide!⟩, ⟨by decide!, by decide!⟩,
    (C33_extend_heap_result (state_after [.malloc 16]) 4096 100 (by decide!)).imp
      (fun _ h => h.imp (fun _ h => ⟨h.1, h.2.1⟩)),
    (C33_extend_heap_result (state_after calls_all_allocated) 32 100 (by decide!)).imp
      (fun _ h => h.imp (fun _ h => ⟨h.1, h.2.1⟩))⟩

/-- A block returned by the inner loop of `find_fit` is large enough. -/
theorem find_fit_scan_fits (s : State) (asize fuel block blk : Nat)
    (h : find_fit_scan s asize fuel block = .ok blk) (hb : blk ≠ 0) :
    asize ≤ get_size s blk := by
  induction fuel generalizing block with
  | zero =>
    unfold find_fit_scan at h
    by_cases hx : block = 0
    · simp only [hx, if_true] at h
      injection h with e
      exact absurd e.symm hb
    · simp [hx] at h
  | succ k ih =>
    unfold find_fit_scan at h
    by_cases hx : block = 0
    · simp only [hx, if_true] at h
      injection h with e
      exact absurd e.symm hb
    · simp only [hx, if_false] at h
      by_cases hs : asize ≤ get_size s block
      · simp only [hs, if_true] at h
        injection h with e
        rw [← e]; exact hs
      · simp only [hs, if_false] at h
        exact ih _ h

/-- A block returned by the outer loop of `find_fit` is large enough. -/
theorem find_fit_loop_fits (s : State) (asize fuel k index blk : Nat)
    (h : find_fit_loop s asize fuel k index = .ok blk) (hb : blk ≠ 0) :
    asize ≤ get_size s blk := by
  induction k generalizing index with
  | zero =>
    unfold find_fit_loop at h
    injection h with e
    exact absurd e.symm hb
  | succ k ih =>
    unfold find_fit_loop at h
    by_cases hi : index < seg_size
    · rw [if_pos hi] at h
      by_cases hc : index = seg_size - 1 ∨ (asize ≤ 1 ∧ s.seg_list index ≠ 0)
      · rw [if_pos hc] at h
        cases hsc : find_fit_scan s asize fuel (s.seg_list index) with
        | error e => rw [hsc] at h; simp at h
        | ok b1 =>
          rw [hsc] at h
          by_cases hb1 : b1 = 0
          · simp only [hb1, ne_eq, not_true_eq_false, if_false] at h
            exact ih _ h
          · simp only [hb1, ne_eq, not_false_eq_true, if_true] at h
            injection h with e
            rw [← e]
            exact find_fit_scan_fits s asize fuel _ b1 hsc hb1
      · rw [if_neg hc] at h
        exact ih _ h
    · rw [if_neg hi] at h
      injection h with e
      exact absurd e.symm hb

/-- The adjusted size of `malloc` for a request of at most `2 ^ 63` bytes: a
multiple of 16, at least `MIN_BLOCK_SIZE` and at least `n + 16`, without
wrap-around. -/
theorem asize_bounds (n : Nat) (hn : n ≤ 2 ^ 63) :
    round_up (Mm.max MIN_BLOCK_SIZE (wadd dsize n)) dsize % 16 = 0 ∧
    32 ≤ round_up (Mm.max MIN_BLOCK_SIZE (wadd dsize n)) dsize ∧
    n + 16 ≤ round_up (Mm.max MIN_BLOCK_SIZE (wadd dsize n)) dsize ∧
    round_up (Mm.max MIN_BLOCK_SIZE (wadd dsize n)) dsize ≤ n + 32 := by
  have h63 : (2 : Nat) ^ 63 = 9223372036854775808 := by norm_num
  rw [h63] at hn
  have hw : wadd dsize n = n + 16 := by
    simp only [wadd, dsize, wsize, WORD_MOD]; omega
  by_cases c : n < 16
  · have hmax : Mm.max MIN_BLOCK_SIZE (wadd dsize n) = 32 := by
      rw [hw]
      unfold Mm.max
      simp only [MIN_BLOCK_SIZE, dsize, wsize]
      rw [if_pos (by omega)]
    rw [hmax]
    have h32 : round_up 32 dsize = 32 := by decide
    rw [h32]
    omega
  · have hmax : Mm.max MIN_BLOCK_SIZE (wadd dsize n) = n + 16 := by
      rw [hw]
      unfold Mm.max
      simp only [MIN_BLOCK_SIZE, dsize, wsize]
      rw [if_neg (by omega)]
    rw [hmax]
    simp only [round_up, wmul, wadd, wsub, dsize, wsize, WORD_MOD]
    omega

/-- A multiple of 16 is its own round-up. -/
theorem round_up_self (x : Nat) (h16 : x % 16 = 0) (hx : x + 16 ≤ WORD_MOD) :
    round_up x dsize = x := by
  simp only [round_up, wmul, wadd, wsub, dsize, wsize, WORD_MOD] at *
  omega

/-- The body of `malloc` for a non-zero request in an initialised state:
`find_fit`, then `extend_heap` when there is no fit, then `place`. -/
theorem malloc_eq (s : State) (n fuel : Nat) (hinit : s.heap_start ≠ 0) (hn : n ≠ 0) :
    malloc s n fuel =
      (find_fit s (round_up (Mm.max MIN_BLOCK_SIZE (wadd dsize n)) dsize) fuel).bind
        (fun blk =>
          if blk = 0 then
            (extend_heap s
              (Mm.max (round_up (Mm.max MIN_BLOCK_SIZE (wadd dsize n)) dsize) chunksize)
              fuel).bind
              (fun r => if r.2 = 0 then .ok (r.1, 0)
                else (place r.1 r.2 (round_up (Mm.max MIN_BLOCK_SIZE (wadd dsize n)) dsize)).map
                  (fun t => (t, header_to_payload r.2)))
          else (place s blk (round_up (Mm.max MIN_BLOCK_SIZE (wadd dsize n)) dsize)).map
            (fun t => (t, header_to_payload blk))) := by
  unfold malloc
  rw [if_neg hinit]
  show (if n = 0 then _ else _) = _
  rw [if_neg hn]
  generalize round_up (Mm.max MIN_BLOCK_SIZE (wadd dsize n)) dsize = asize
  cases hf : find_fit s asize fuel with
  | error e => rfl
  | ok blk =>
    show (if blk = 0 then _ else _) = (if blk = 0 then _ else _)
    by_cases hb : blk = 0
    · rw [if_pos hb, if_pos hb]
      cases he : extend_heap s (Mm.max asize chunksize) fuel with
      | error e => rfl
      | ok r =>
        obtain ⟨s1, b1⟩ := r
        show (if b1 = 0 then _ else _) = (if b1 = 0 then _ else _)
        by_cases hb1 : b1 = 0
        · rw [if_pos hb1, if_pos hb1]; rfl
        · rw [if_neg hb1, if_neg hb1]
          cases hp : place s1 b1 asize <;> rfl
    · rw [if_neg hb, if_neg hb]
      cases hp : place s blk asize <;> rfl

/-- C38: for `0 < n ≤ 2 ^ 63` and `asize = round_up(max(MIN_BLOCK_SIZE, n + dsize),
dsize)`: in an initialised state `malloc(n)` calls `place` only on the
non-NULL result of `find_fit(asize)` or, when that is NULL, on the non-NULL
result of `extend_heap(max(asize, chunksize))`; a non-NULL result of
`find_fit` has size at least `asize`; and in a state that is well formed at
the end of the region and in which `mem_sbrk` grants the bytes (`extend_ok`),
`extend_heap` returns a non-NULL block of size at least `asize`.  In both
cases the subtraction `csize - asize` of `place` does not wrap around. -/
theorem C38_place_precondition (s : State) (n fuel : Nat) (hn : 0 < n) (hn63 : n ≤ 2 ^ 63) :
    (s.heap_start ≠ 0 →
      malloc s n fuel =
        (find_fit s (round_up (Mm.max MIN_BLOCK_SIZE (wadd dsize n)) dsize) fuel).bind
          (fun blk =>
            if blk = 0 then
              (extend_heap s
                (Mm.max (round_up (Mm.max MIN_BLOCK_SIZE (wadd dsize n)) dsize) chunksize)
                fuel).bind
                (fun r => if r.2 = 0 then .ok (r.1, 0)
                  else (place r.1 r.2 (round_up (Mm.max MIN_BLOCK_SIZE (wadd dsize n)) dsize)).map
                    (fun t => (t, header_to_payload r.2)))
            else (place s blk (round_up (Mm.max MIN_BLOCK_SIZE (wadd dsize n)) dsize)).map
              (fun t => (t, header_to_payload blk)))) ∧
    (∀ blk, find_fit s (round_up (Mm.max MIN_BLOCK_SIZE (wadd dsize n)) dsize) fuel = .ok blk →
      blk ≠ 0 →
      round_up (Mm.max MIN_BLOCK_SIZE (wadd dsize n)) dsize ≤ get_size s blk ∧
      wsub (get_size s blk) (round_up (Mm.max MIN_BLOCK_SIZE (wadd dsize n)) dsize)
        = get_size s blk - round_up (Mm.max MIN_BLOCK_SIZE (wadd dsize n)) dsize) ∧
    (extend_ok s (Mm.max (round_up (Mm.max MIN_BLOCK_SIZE (wadd dsize n)) dsize) chunksize)
        fuel →
      ∃ s1 blk, extend_heap s
          (Mm.max (round_up (Mm.max MIN_BLOCK_SIZE (wadd dsize n)) dsize) chunksize) fuel
          = .ok (s1, blk) ∧ blk ≠ 0 ∧
        round_up (Mm.max MIN_BLOCK_SIZE (wadd dsize n)) dsize ≤ get_size s1 blk ∧
        wsub (get_size s1 blk) (round_up (Mm.max MIN_BLOCK_SIZE (wadd dsize n)) dsize)
          = get_size s1 blk - round_up (Mm.max MIN_BLOCK_SIZE (wadd dsize n)) dsize) := by
  obtain ⟨ha16, ha32, han, hale⟩ := asize_bounds n hn63
  have h63 : (2 : Nat) ^ 63 = 9223372036854775808 := by norm_num
  rw [h63] at hn63
  have hm := fun hinit => malloc_eq s n fuel hinit (by omega)
  generalize round_up (Mm.max MIN_BLOCK_SIZE (wadd dsize n)) dsize = asize at *
  have hsub : ∀ c, asize ≤ c → c < WORD_MOD → wsub c asize = c - asize := by
    intro c h1 h2
    simp only [wsub, WORD_MOD] at *
    omega
  refine ⟨?_, ?_, ?_⟩
  · exact hm
  · intro blk hf hb
    have := find_fit_loop_fits s asize fuel _ _ blk hf hb
    exact ⟨this, hsub _ this (extract_size_lt _)⟩
  · intro hok
    obtain ⟨s1, r, z, he, hr, hA, hF, _, _, hgs, _⟩ := extend_block s _ fuel hok
    have hmx : asize ≤ Mm.max asize chunksize := by
      unfold Mm.max; split <;> simp only [chunksize] at * <;> omega
    have hm16 : Mm.max asize chunksize % 16 = 0 := by
      unfold Mm.max; split
      · exact ha16
      · decide
    have hmw : Mm.max asize chunksize + 16 ≤ WORD_MOD := by
      unfold Mm.max; split <;> simp only [chunksize, WORD_MOD] <;> omega
    have hru := round_up_self _ hm16 hmw
    rw [hru] at hA hF
    have hz : asize ≤ z := by
      rcases Bool.eq_false_or_eq_true (get_alloc s (last_block s)) with hal | hal
      · rw [(hA hal).2]; exact hmx
      · rw [(hF hal).2]; omega
    refine ⟨s1, r, he, hr, by rw [hgs]; exact hz, ?_⟩
    exact hsub _ (by rw [hgs]; exact hz) (extract_size_lt _)

/-- Witness of C38: `n = 16`, with a fit in the class-14 list of a heap holding a
freed block of 20016 bytes, and without fit right after `mm_init`, where
`extend_heap(4096)` returns the merged block. -/
theorem C38_place_precondition_witness :
    (0 < 16 ∧ 16 ≤ 2 ^ 63) ∧
    (find_fit (state_after [.malloc 20000, .malloc 16, .free 0])
        (round_up (Mm.max MIN_BLOCK_SIZE (wadd dsize 16)) dsize) 100 = .ok 1000024 ∧
      round_up (Mm.max MIN_BLOCK_SIZE (wadd dsize 16)) dsize
        ≤ get_size (state_after [.malloc 20000, .malloc 16, .free 0]) 1000024) ∧
    (find_fit (state_after []) (round_up (Mm.max MIN_BLOCK_SIZE (wadd dsize 16)) dsize) 100
        = .ok 0 ∧
      extend_ok (state_after [])
        (Mm.max (round_up (Mm.max MIN_BLOCK_SIZE (wadd dsize 16)) dsize) chunksize) 100) ∧
    ∃ s1 blk, extend_heap (state_after [])
        (Mm.max (round_up (Mm.max MIN_BLOCK_SIZE (wadd dsize 16)) dsize) chunksize) 100
        = .ok (s1, blk) ∧ blk ≠ 0 ∧
      round_up (Mm.max MIN_BLOCK_SIZE (wadd dsize 16)) dsize ≤ get_size s1 blk ∧
      wsub (get_size s1 blk) (round_up (Mm.max MIN_BLOCK_SIZE (wadd dsize 16)) dsize)
        = get_size s1 blk - round_up (Mm.max MIN_BLOCK_SIZE (wadd dsize 16)) dsize :=
  ⟨⟨by decide, by norm_num⟩,
    ⟨ok_of_outcome _ _ (by decide!),
      ((C38_place_precondition (state_after [.malloc 20000, .malloc 16, .free 0]) 16 100
        (by decide) (by norm_num)).2.1 1000024 (ok_of_outcome _ _ (by decide!))
        (by decide)).1⟩,
    ⟨ok_of_outcome _ _ (by decide!), by decide!⟩,
    (C38_place_precondition (state_after []) 16 100 (by decide) (by norm_num)).2.2
      (by decide!)⟩

/-- The state of `mm_init` before its call of `extend_heap`, on a region that
starts at a multiple of 16 with room for the first chunk: region end,
`heap_start`, heads, memory, and the condition of `extend_heap` with an
allocated last block (the prologue). -/
theorem init_state_shape (s0 : State) (fuel : Nat) (hb : s0.mem_brk % 16 = 0)
    (hroom : s0.mem_brk + 2 * dsize + chunksize ≤ s0.mem_max_addr)
    (hw : s0.mem_brk + 2 * dsize + chunksize + 16 < WORD_MOD) :
    (init_state s0).mem_brk = s0.mem_brk + 32 ∧
    (init_state s0).heap_start = s0.mem_brk + 24 ∧
    (∀ i, (init_state s0).seg_list i = 0) ∧
    (∀ x, (init_state s0).mem x =
        if x = s0.mem_brk + 24 then 1 else if x = s0.mem_brk + 16 then 17
        else if x = s0.mem_brk + 8 then 17 else if x = s0.mem_brk then 0 else s0.mem x) ∧
    extend_ok (init_state s0) chunksize fuel ∧
    get_alloc (init_state s0) (last_block (init_state s0)) = true := by
  simp only [dsize, wsize, chunksize, WORD_MOD] at hroom hw
  have hbrk : (init_state s0).mem_brk = s0.mem_brk + 32 := by
    unfold init_state mem_sbrk
    rw [if_pos (by simp only [dsize, wsize]; omega)]
    rfl
  have hhs : (init_state s0).heap_start = s0.mem_brk + 24 := by
    show wadd s0.mem_brk 24 = _
    simp only [wadd, WORD_MOD]; omega
  have hseg : ∀ i, (init_state s0).seg_list i = 0 := fun _ => rfl
  have hmem : ∀ x, (init_state s0).mem x =
      if x = s0.mem_brk + 24 then 1 else if x = s0.mem_brk + 16 then 17
      else if x = s0.mem_brk + 8 then 17 else if x = s0.mem_brk then 0 else s0.mem x := by
    intro x
    have e8 : wadd s0.mem_brk 8 = s0.mem_brk + 8 := by simp only [wadd, WORD_MOD]; omega
    have e16 : wadd s0.mem_brk 16 = s0.mem_brk + 16 := by simp only [wadd, WORD_MOD]; omega
    have e24 : wadd s0.mem_brk 24 = s0.mem_brk + 24 := by simp only [wadd, WORD_MOD]; omega
    have p1 : pack 0 true = 1 := by decide
    have p17 : pack dsize true = 17 := by decide
    have p0 : pack 0 false = 0 := rfl
    show store (store (store (store (mem_sbrk s0 (2 * dsize)).1.mem _ _) _ _) _ _) _ _ x = _
    rw [e8, e16, e24, p1, p17, p0]
    have hs1 : (mem_sbrk s0 (2 * dsize)).1.mem = s0.mem := by
      unfold mem_sbrk; split <;> rfl
    rw [hs1]
    simp only [store_apply]
  have hru : round_up chunksize dsize = 4096 := by decide
  have hls : last_size (init_state s0) = 16 := by
    unfold last_size
    rw [hbrk, hmem, if_neg (by omega), if_pos (by omega)]
    decide
  have hlb : last_block (init_state s0) = s0.mem_brk + 8 := by
    unfold last_block
    rw [hls, hbrk]; omega
  have hal : get_alloc (init_state s0) (last_block (init_state s0)) = true := by
    rw [hlb]
    unfold get_alloc
    rw [hmem, if_neg (by omega), if_neg (by omega), if_pos rfl]
    decide
  refine ⟨hbrk, hhs, hseg, hmem, ?_, hal⟩
  refine ⟨by omega, by omega, by omega, by omega, ?_, ?_, ?_, ?_, ?_, ?_, ?_⟩
  · rw [hru]; decide
  · rw [hru, hbrk]
    show _ ≤ (mem_sbrk s0 (2 * dsize)).1.mem_max_addr
    have : (mem_sbrk s0 (2 * dsize)).1.mem_max_addr = s0.mem_max_addr := by
      unfold mem_sbrk; split <;> rfl
    rw [this]; omega
  · rw [hru, hbrk]; simp only [WORD_MOD]; omega
  · rw [hls]; decide
  · rw [hls, hbrk, hhs]; omega
  · intro hf
    rw [hal] at hf
    exact absurd hf (by decide)
  · intro i _
    rw [hseg]
    constructor
    · unfold list_ends; simp
    · intro y hy
      cases fuel <;> simp [free_list] at hy

/-- C34: on a region that starts at a multiple of 16 in which both `mem_sbrk`
calls succeed, `mm_init` returns true; the region holds the padding word
`pack(0, 0)`, the prologue header and footer `pack(dsize, true)`, one free
block of `chunksize = 4096` bytes at `heap_start` with header and footer
`pack(4096, false)` that ends at the last word of the region, and that last
word has the allocated flag set; `seg_list[12]` is that block, alone in its
list (`prev` and `next` NULL), and the 14 other heads are NULL.  When the first
`mem_sbrk` fails, `mm_init` returns false. -/
theorem C34_mm_init_heap (s0 : State) (fuel : Nat) :
    (s0.mem_brk % 16 = 0 → s0.mem_brk + 2 * dsize + chunksize ≤ s0.mem_max_addr →
      s0.mem_brk + 2 * dsize + chunksize + 16 < WORD_MOD →
      ∃ s1, mm_init s0 fuel = .ok (s1, true) ∧
        s1.mem_brk = s0.mem_brk + 2 * dsize + chunksize ∧
        s1.heap_start = s0.mem_brk + 24 ∧
        s1.mem s0.mem_brk = pack 0 false ∧
        s1.mem (s0.mem_brk + 8) = pack dsize true ∧
        s1.mem (s0.mem_brk + 16) = pack dsize true ∧
        s1.mem s1.heap_start = pack chunksize false ∧
        s1.mem (s1.heap_start + chunksize - 8) = pack chunksize false ∧
        s1.heap_start + chunksize = s1.mem_brk - 8 ∧
        get_alloc s1 (s1.mem_brk - 8) = true ∧
        (∀ i, i < seg_size → s1.seg_list i = if i = 12 then s1.heap_start else 0) ∧
        dchain s1 0 (s1.seg_list 12) [s1.heap_start]) ∧
    (s0.mem_max_addr < s0.mem_brk + 2 * dsize → ∃ s1, mm_init s0 fuel = .ok (s1, false)) := by
  constructor
  · intro hb hroom hw
    obtain ⟨hbrk, hhs, hseg, hmem, hok, hal⟩ := init_state_shape s0 fuel hb hroom hw
    obtain ⟨_, _, _, hA, _⟩ := extend_shape _ chunksize fuel hok
    have he := hA hal
    simp only [dsize, wsize, chunksize, WORD_MOD] at hroom hw
    have hru : round_up chunksize dsize = 4096 := by decide
    have hc : chunksize = 4096 := rfl
    have hd : 2 * dsize = 32 := rfl
    have hcls : get_seg_size 4096 = 12 := by decide
    rw [hru, hbrk] at he
    have e24 : s0.mem_brk + 32 - 8 = s0.mem_brk + 24 := by omega
    rw [e24] at he
    have hgm := fun x => grown_mem (init_state s0) chunksize x (by rw [hbrk]; omega)
      (by rw [hru]; decide) (by rw [hru, hbrk]; simp only [WORD_MOD]; omega)
    have hgs : ∀ i, (grown (init_state s0) chunksize).seg_list i = 0 := by
      intro i; rw [grown_seg]; exact hseg i
    have hpm : ∀ x, (publish (grown (init_state s0) chunksize) (s0.mem_brk + 24) 4096).mem x =
        if x = s0.mem_brk + 32 then 0
        else if x = s0.mem_brk + 40 then 0
        else if x = s0.mem_brk + 4112 then 4096
        else if x = s0.mem_brk + 24 then 4096
        else if x = s0.mem_brk + 4128 then 17
        else if x = s0.mem_brk + 4120 then 17
        else (init_state s0).mem x := by
      intro x
      rw [publish_mem _ _ _ _ (by decide) (by decide) (by simp only [WORD_MOD]; omega),
        if_neg (fun h => h.1 (hgs _)), hgs, hgm, hru, hbrk]
      by_cases h1 : x = s0.mem_brk + 32
      · rw [if_pos (by omega), if_pos h1]
      rw [if_neg (by omega), if_neg h1]
      by_cases h2 : x = s0.mem_brk + 40
      · rw [if_pos (by omega), if_pos h2]
      rw [if_neg (by omega), if_neg h2]
      by_cases h3 : x = s0.mem_brk + 4112
      · rw [if_pos (by omega), if_pos h3]
      rw [if_neg (by omega), if_neg h3]
      by_cases h4 : x = s0.mem_brk + 24
      · rw [if_pos h4, if_pos h4]
      rw [if_neg h4, if_neg h4]
      by_cases h5 : x = s0.mem_brk + 4128
      · rw [if_pos (by omega), if_pos h5]
      rw [if_neg (by omega), if_neg h5]
      by_cases h6 : x = s0.mem_brk + 4120
      · rw [if_pos (by omega), if_pos h6]
      rw [if_neg (by omega), if_neg h6, if_neg (by omega), if_neg (by omega)]
    have hpb : (publish (grown (init_state s0) chunksize) (s0.mem_brk + 24) 4096).mem_brk
        = s0.mem_brk + 4128 := by
      rw [(publish_brk _ _ _).1, grown_brk _ _ hok.2.2.2.2.2.1, hru, hbrk]
    have hph : (publish (grown (init_state s0) chunksize) (s0.mem_brk + 24) 4096).heap_start
        = s0.mem_brk + 24 := by
      rw [(publish_brk _ _ _).2, grown_heap_start, hhs]
    have p17 : pack dsize true = 17 := by decide
    have p0 : pack 0 false = 0 := rfl
    have p4096 : pack chunksize false = 4096 := rfl
    have w8 : wadd (s0.mem_brk + 24) 8 = s0.mem_brk + 32 := by
      simp only [wadd, WORD_MOD]; omega
    have w16 : wadd (s0.mem_brk + 24) 16 = s0.mem_brk + 40 := by
      simp only [wadd, WORD_MOD]; omega
    have hsl : ∀ i, (publish (grown (init_state s0) chunksize) (s0.mem_brk + 24) 4096).seg_list i
        = if i = 12 then s0.mem_brk + 24 else 0 := by
      intro i
      rw [publish_seg, hcls, hgs]
    refine ⟨_, ?_, ?_, hph, ?_, ?_, ?_, ?_, ?_, ?_, ?_, ?_, ?_⟩
    · rw [mm_init_eq s0 fuel (by simp only [dsize, wsize]; omega) hb, he]
      have : s0.mem_brk + 24 ≠ 0 := by omega
      simp [Except.bind, this]
    · rw [hpb, hd, hc]
    · rw [hpm, hmem, p0]
      simp
    · rw [hpm, hmem, p17]
      simp
    · rw [hpm, hmem, p17]
      simp
    · rw [hph, hpm, p4096]
      simp
    · rw [hph, hpm, p4096, hc]
      simp
    · rw [hph, hpb, hc]; omega
    · unfold get_alloc
      rw [hpb, hpm]
      have e : s0.mem_brk + 4128 - 8 = s0.mem_brk + 4120 := by omega
      rw [e]
      simp
      decide
    · intro i _
      rw [hsl, hph]
    · rw [hsl, if_pos rfl, hph]
      refine ⟨rfl, by omega, ?_, ?_⟩
      · unfold get_prev_freed
        rw [w8, hpm, if_pos rfl]
      · show get_next_freed _ _ = 0
        unfold get_next_freed
        rw [w16, hpm, if_neg (by omega), if_pos rfl]
  · intro hfail
    refine ⟨{ s0 with seg_list := fun _ => 0 }, ?_⟩
    have hsb : mem_sbrk s0 (2 * dsize) = (s0, SBRK_FAILED) := by
      unfold mem_sbrk; rw [if_neg (by omega)]
    unfold mm_init
    simp only [hsb]
    rfl

/-- Witness of C34: the empty region at `1000000` with room for 20 MiB, and the
same region with room for 16 bytes only. -/
theorem C34_mm_init_heap_witness :
    ((fresh 1000000 20971520).mem_brk % 16 = 0 ∧
      (fresh 1000000 20971520).mem_brk + 2 * dsize + chunksize
        ≤ (fresh 1000000 20971520).mem_max_addr ∧
      (fresh 1000000 20971520).mem_brk + 2 * dsize + chunksize + 16 < WORD_MOD) ∧
    (∃ s1, mm_init (fresh 1000000 20971520) 100 = .ok (s1, true) ∧
      s1.mem_brk = 1000000 + 2 * dsize + chunksize ∧ s1.heap_start = 1000000 + 24) ∧
    ((fresh 1000000 16).mem_max_addr < (fresh 1000000 16).mem_brk + 2 * dsize ∧
      ∃ s1, mm_init (fresh 1000000 16) 100 = .ok (s1, false)) :=
  ⟨⟨by decide, by decide, by decide⟩,
    ((C34_mm_init_heap (fresh 1000000 20971520) 100).1 (by decide) (by decide) (by decide)).imp
      (fun _ h => ⟨h.1, h.2.1, h.2.2.1⟩),
    by decide, (C34_mm_init_heap (fresh 1000000 16) 100).2 (by decide)⟩

/-- C37 (the code breaks it): `extend_heap` ends the new epilogue with
`write_footer(block_next, dsize, true)`, which stores `pack(dsize, true) = 17`
into the word after the epilogue header, for every state and every
`block_next`; the epilogue header is the last word of the region, so the store
goes to the address `mem_brk`, the first byte after the region.  After
`mm_init` on the empty region at `1000000` the region ends at `1004128` and
the word at `1004128`, zero before, holds 17; after a `malloc(5000)` the region
ends at `1009152` and the word at `1009152` holds 17. -/
theorem C37_epilogue_footer_past_region :
    (fresh 1000000 20971520).mem 1004128 = 0 ∧
    observe (after_calls [])
        (fun s _ => [s.mem_brk, s.mem (s.mem_brk - 8), s.mem s.mem_brk])
      = some [1004128, 17, 17] ∧
    observe (after_calls [.malloc 5000])
        (fun s _ => [s.mem_brk, s.mem (s.mem_brk - 8), s.mem s.mem_brk])
      = some [1009152, 17, 17] ∧
    (∀ (t : State) (bn : Nat),
      (write_footer (write_header t bn dsize true) bn dsize true).mem (wadd bn 8)
        = pack dsize true) := by
  refine ⟨rfl, by decide!, by decide!, ?_⟩
  intro t bn
  have hgs : get_size (write_header t bn dsize true) bn = 16 := by
    simp only [get_size, write_header, State.write, store_apply, if_true]
    decide
  have hpos : wsub (wadd (wadd bn 8) 16) dsize = wadd bn 8 := by
    simp only [wadd, wsub, dsize, wsize, WORD_MOD]
    omega
  unfold write_footer
  rw [hgs, hpos]
  show store _ _ _ _ = _
  rw [store_apply, if_pos rfl]

/-- C39 (the code breaks it): `add_page` on an empty cache returns before
`cache_size += page->size`.  After `init_cache` and `add_page` of a page of
100 bytes, `cache_size` is 0 while the linked pages sum to 100; after a second
`add_page` of 200 bytes, `cache_size` is 200 and the sum is 300; after
`init_cache`, `add_page` and `delete_page(page, 0)` of the 100-byte page the
cache is empty and `cache_size` is `2 ^ 64 - 100`.  For every page, `add_page`
on the cache left by `init_cache` leaves `cache_size` at 0. -/
theorem C39_first_page_not_counted :
    cache_view (add_page (init_cache two_pages) 4096) = some (0, 100, [4096]) ∧
    cache_view ((add_page (init_cache two_pages) 4096).bind (fun c => add_page c 8192))
      = some (200, 300, [4096, 8192]) ∧
    cache_view ((add_page (init_cache two_pages) 4096).bind (fun c => delete_page c 4096 false))
      = some (18446744073709551516, 0, []) ∧
    (∀ (c : Cache) (page : Nat), page ≠ 0 →
      (outcome (add_page (init_cache c) page)).1.map
          (fun c1 => [c1.cache_size, c1.cache_first, c1.cache_last])
        = some [0, page, page]) := by
  refine ⟨by decide, by decide, by decide, ?_⟩
  intro c page hp
  unfold add_page init_cache
  simp only [true_or, if_true, if_neg hp]
  rfl

end Mm
